import Mathlib

/-!
Verification of the traffic-management routing program (`src/main.c`).

The C program is shallowly embedded: C `int` values become `Int`, C arrays
become Lean lists (with `getD`/`set` access mirroring indexed reads/writes),
the fixed-capacity adjacency array becomes a function from vertex ids to
edge lists, and the text snapshot file becomes a list of whitespace-separated
tokens.  All definitions follow the corresponding C functions statement by
statement; theorems at the end settle the specification claims.
-/

set_option maxHeartbeats 1000000

namespace Traffic

/-- Capacity constant `#define MAX 50`. -/
def MAX : Nat := 50

/-- Sentinel distance `#define INF 999999`. -/
def INF : Int := 999999

/-- `TrafficLight` struct: phase durations (C `int`s). -/
structure TrafficLight where
  red : Int
  green : Int
  yellow : Int
deriving DecidableEq, Repr

/-- Adjacency-list node `struct Edge` (the `next` pointer is the list
structure itself). -/
structure Edge where
  dst : Nat      -- C field `to` (a Lean keyword)
  weight : Int
deriving DecidableEq, Repr

instance : Inhabited Edge := ⟨⟨0, 0⟩⟩

/-- The `Graph` struct.  The fixed arrays `adj[MAX]`, `lights[MAX]`,
`names[MAX][20]`, `lat[MAX]`, `lon[MAX]` are modelled as total functions from
vertex ids; only indices below `vertices ≤ MAX` are ever meaningful.
Latitude/longitude are C `double`s, modelled as rationals. -/
structure Graph where
  vertices : Nat
  adj : Nat → List Edge
  lights : Nat → TrafficLight
  names : Nat → String
  lat : Nat → ℚ
  lon : Nat → ℚ

/-- `initGraph`: zero vertices, empty adjacency, zeroed coordinates
(C leaves `lights` and `names` untouched). -/
def initGraph (g : Graph) : Graph :=
  { g with vertices := 0, adj := fun _ => [], lat := fun _ => 0, lon := fun _ => 0 }

/-- `getWaitingTime`: C `%` on `int` is truncating division remainder,
i.e. `Int.tmod`. -/
def getWaitingTime (light : TrafficLight) (arrivalTime : Int) : Int :=
  let cycle := light.red + light.green + light.yellow
  if cycle ≤ 0 then 0
  else
    let t := arrivalTime.tmod cycle
    if t < light.green then 0 else cycle - t

/-- The two `newEdge`/prepend statements shared verbatim by `addEdge` and
the edge loop of `loadGraphFromFile`: prepend `un → vn` to `un`'s list,
then `vn → un` to `vn`'s list. -/
def insertBoth (g : Graph) (un vn : Nat) (w : Int) : Graph :=
  let adj1 := Function.update g.adj un (⟨vn, w⟩ :: g.adj un)
  let adj2 := Function.update adj1 vn (⟨un, w⟩ :: adj1 vn)
  { g with adj := adj2 }

/-- `addEdge`: validates both endpoints, then prepends the two directed
entries.  The returned flag records whether the "Invalid edge indices"
error message was printed (in which case the graph is untouched).
Endpoints are C `int`s, hence `Int` here. -/
def addEdge (g : Graph) (u v : Int) (w : Int) : Graph × Bool :=
  if u < 0 ∨ (g.vertices : Int) ≤ u ∨ v < 0 ∨ (g.vertices : Int) ≤ v then
    (g, true)
  else
    (insertBoth g u.toNat v.toNat w, false)

section WaitingTime

/-- Cycle length of a light. -/
def cycleLen (light : TrafficLight) : Int := light.red + light.green + light.yellow

theorem getWaitingTime_def (light : TrafficLight) (a : Int) :
    getWaitingTime light a =
      if cycleLen light ≤ 0 then 0
      else if a.tmod (cycleLen light) < light.green then 0
      else cycleLen light - a.tmod (cycleLen light) := by
  rfl

/-- For non-negative dividend and positive divisor the C remainder agrees
with the mathematical (Euclidean) remainder. -/
theorem tmod_eq_emod_of_nonneg {a b : Int} (ha : 0 ≤ a) (hb : 0 ≤ b) :
    a.tmod b = a % b :=
  Int.tmod_eq_emod ha hb

theorem waiting_nonneg {light : TrafficLight} {a : Int}
    (hg : 0 ≤ light.green) (ha : 0 ≤ a) :
    0 ≤ getWaitingTime light a := by
  rw [getWaitingTime_def]
  by_cases hc : cycleLen light ≤ 0
  · simp [hc]
  · push_neg at hc
    rw [if_neg (by omega)]
    have ht : 0 ≤ a.tmod (cycleLen light) ∧ a.tmod (cycleLen light) < cycleLen light := by
      rw [tmod_eq_emod_of_nonneg ha (by omega)]
      exact ⟨Int.emod_nonneg a (by omega), Int.emod_lt_of_pos a hc⟩
    by_cases hgr : a.tmod (cycleLen light) < light.green
    · simp [hgr]
    · rw [if_neg hgr]; omega

theorem waiting_le_cycle {light : TrafficLight} {a : Int}
    (hg : 0 ≤ light.green) (ha : 0 ≤ a) (hc : 0 < cycleLen light) :
    getWaitingTime light a ≤ cycleLen light := by
  rw [getWaitingTime_def, if_neg (by omega)]
  have ht : 0 ≤ a.tmod (cycleLen light) := by
    rw [tmod_eq_emod_of_nonneg ha (by omega)]
    exact Int.emod_nonneg a (by omega)
  by_cases hgr : a.tmod (cycleLen light) < light.green
  · rw [if_pos hgr]; omega
  · rw [if_neg hgr]; omega

/-- With a positive cycle the waiting time can be written with the
mathematical remainder. -/
theorem getWaitingTime_eq_emod {light : TrafficLight} {a : Int}
    (ha : 0 ≤ a) (hc : 0 < cycleLen light) :
    getWaitingTime light a =
      if a % cycleLen light < light.green then 0
      else cycleLen light - a % cycleLen light := by
  rw [getWaitingTime_def, if_neg (by omega), tmod_eq_emod_of_nonneg ha (by omega)]

/-- FIFO property of the signal model: departing later never lets one leave
the downstream junction earlier.  `t + wait t` is monotone on `t ≥ 0`. -/
theorem dep_mono {light : TrafficLight}
    (hr : 0 ≤ light.red) (hg : 0 ≤ light.green) (hy : 0 ≤ light.yellow)
    {a b : Int} (ha : 0 ≤ a) (hab : a ≤ b) :
    a + getWaitingTime light a ≤ b + getWaitingTime light b := by
  by_cases hc : cycleLen light ≤ 0
  · rw [getWaitingTime_def, getWaitingTime_def, if_pos hc, if_pos hc]; omega
  · push_neg at hc
    have hb : 0 ≤ b := le_trans ha hab
    rw [getWaitingTime_eq_emod ha hc, getWaitingTime_eq_emod hb hc]
    set c := cycleLen light with hcdef
    have h1 : a % c = a - c * (a / c) := Int.emod_def a c
    have h2 : b % c = b - c * (b / c) := Int.emod_def b c
    have hr1 : 0 ≤ a % c := Int.emod_nonneg a (by omega)
    have hr1' : a % c < c := Int.emod_lt_of_pos a hc
    have hr2 : 0 ≤ b % c := Int.emod_nonneg b (by omega)
    have hr2' : b % c < c := Int.emod_lt_of_pos b hc
    have hdiv : a / c ≤ b / c := Int.ediv_le_ediv hc hab
    by_cases g1 : a % c < light.green <;> by_cases g2 : b % c < light.green
    · rw [if_pos g1, if_pos g2]; omega
    · rw [if_pos g1, if_neg g2]; omega
    · -- a arrives outside the green window, b inside: b is in a strictly
      -- later cycle, so a's wait ends no later than b.
      rw [if_neg g1, if_pos g2]
      have key : c * (a / c) + c ≤ b := by
        rcases lt_or_le (b / c) (a / c + 1) with hk | hk
        · exfalso
          have hEq : b / c = a / c := le_antisymm (by omega) hdiv
          rw [hEq] at h2
          linarith
        · have hmul : c * (a / c + 1) ≤ c * (b / c) :=
            mul_le_mul_of_nonneg_left hk (by omega)
          have hex : c * (a / c + 1) = c * (a / c) + c := by ring
          linarith
      linarith
    · rw [if_neg g1, if_neg g2]
      have hmul : c * (a / c) ≤ c * (b / c) :=
        mul_le_mul_of_nonneg_left hdiv (by omega)
      linarith

end WaitingTime

section Heap

/-- Heap entry `HeapNode`: a vertex and its tentative distance. -/
structure HeapNode where
  v : Nat
  dist : Int
deriving DecidableEq, Repr

instance : Inhabited HeapNode := ⟨⟨0, 0⟩⟩

/-- The indexed binary `MinHeap`.  `arr` is the live prefix
`arr[0..size-1]` of the C array (so `size` is `arr.length`); `pos` is the
position-index array `pos[0..capacity-1]`, holding a slot index or `-1`. -/
structure MinHeap where
  arr : List HeapNode
  pos : List Int
deriving DecidableEq, Repr

/-- Read `arr[i]` (out-of-range reads never occur in verified runs). -/
def nodeAt (arr : List HeapNode) (i : Nat) : HeapNode := arr.getD i default

/-- Read `pos[v]`. -/
def posAt (pos : List Int) (v : Nat) : Int := pos.getD v (-1)

/-- The value of `smallest` after the `left` comparison in `minHeapify`. -/
def smallIdx1 (arr : List HeapNode) (idx : Nat) : Nat :=
  if 2*idx+1 < arr.length ∧ (nodeAt arr (2*idx+1)).dist < (nodeAt arr idx).dist
  then 2*idx+1 else idx

/-- The value of `smallest` after both comparisons in `minHeapify`. -/
def smallestIdx (arr : List HeapNode) (idx : Nat) : Nat :=
  if 2*idx+2 < arr.length ∧ (nodeAt arr (2*idx+2)).dist < (nodeAt arr (smallIdx1 arr idx)).dist
  then 2*idx+2 else smallIdx1 arr idx

theorem smallestIdx_ne (arr : List HeapNode) (idx : Nat)
    (h : smallestIdx arr idx ≠ idx) :
    idx < smallestIdx arr idx ∧ smallestIdx arr idx < arr.length := by
  unfold smallestIdx smallIdx1 at *
  split_ifs at * <;> omega

/-- The two position-index writes followed by the `swapHeapNode` call, as
they appear (with `(a, b) = (smallest, idx)`) in `minHeapify` and (with
`(a, b) = (i, (i-1)/2)`) in the loop body of `decreaseKey`. -/
def swapPieces (arr : List HeapNode) (pos : List Int) (a b : Nat) :
    List HeapNode × List Int :=
  ((arr.set a (nodeAt arr b)).set b (nodeAt arr a),
   (pos.set (nodeAt arr a).v (Int.ofNat b)).set (nodeAt arr b).v (Int.ofNat a))

/-- `minHeapify`: sift the entry at `idx` down, keeping `pos` in sync. -/
def minHeapify (h : MinHeap) (idx : Nat) : MinHeap :=
  let smallest := smallestIdx h.arr idx
  if hne : smallest ≠ idx then
    let ap := swapPieces h.arr h.pos smallest idx
    minHeapify ⟨ap.1, ap.2⟩ smallest
  else h
termination_by h.arr.length - idx
decreasing_by
  have := smallestIdx_ne h.arr idx hne
  simp only [ap, swapPieces, List.length_set]
  omega

/-- `isEmpty`. -/
def isEmpty (h : MinHeap) : Bool := h.arr.length = 0

/-- `extractMin`: returns the removed root (or `none` on an empty heap)
together with the updated heap. -/
def extractMin (h : MinHeap) : Option HeapNode × MinHeap :=
  if h.arr.length = 0 then (none, h)
  else
    let root := nodeAt h.arr 0
    let lastNode := nodeAt h.arr (h.arr.length - 1)
    let arr1 := h.arr.set 0 lastNode
    let pos1 := (h.pos.set lastNode.v 0).set root.v (-1)
    let arr2 := arr1.take (h.arr.length - 1)
    (some root, minHeapify ⟨arr2, pos1⟩ 0)

/-- The sift-up loop inside `decreaseKey`. -/
def siftUp (arr : List HeapNode) (pos : List Int) (i : Nat) : List HeapNode × List Int :=
  if i ≠ 0 ∧ (nodeAt arr i).dist < (nodeAt arr ((i-1)/2)).dist then
    let ap := swapPieces arr pos i ((i-1)/2)
    siftUp ap.1 ap.2 ((i-1)/2)
  else (arr, pos)
termination_by i
decreasing_by omega

/-- `decreaseKey`: no-op when `v` is absent, otherwise overwrite the stored
distance and sift up. -/
def decreaseKey (h : MinHeap) (v : Nat) (d : Int) : MinHeap :=
  let i := posAt h.pos v
  if i = -1 then h
  else
    let i0 := i.toNat
    let arr1 := h.arr.set i0 { nodeAt h.arr i0 with dist := d }
    let ap := siftUp arr1 h.pos i0
    ⟨ap.1, ap.2⟩

/-- `isInMinHeap`. -/
def isInMinHeap (h : MinHeap) (v : Nat) : Bool := posAt h.pos v ≠ -1

theorem swapPieces_arr_length (arr : List HeapNode) (pos : List Int) (a b : Nat) :
    (swapPieces arr pos a b).1.length = arr.length := by
  simp [swapPieces, List.length_set]

theorem swapPieces_pos_length (arr : List HeapNode) (pos : List Int) (a b : Nat) :
    (swapPieces arr pos a b).2.length = pos.length := by
  simp [swapPieces, List.length_set]

theorem minHeapify_arr_length (h : MinHeap) (idx : Nat) :
    (minHeapify h idx).arr.length = h.arr.length := by
  rw [minHeapify]
  split
  · rw [minHeapify_arr_length]
    simp [swapPieces, List.length_set]
  · rfl
termination_by h.arr.length - idx
decreasing_by
  rename_i hne
  have := smallestIdx_ne h.arr idx hne
  simp only [swapPieces, List.length_set]
  omega

theorem minHeapify_pos_length (h : MinHeap) (idx : Nat) :
    (minHeapify h idx).pos.length = h.pos.length := by
  rw [minHeapify]
  split
  · rw [minHeapify_pos_length]
    simp [swapPieces, List.length_set]
  · rfl
termination_by h.arr.length - idx
decreasing_by
  rename_i hne
  have := smallestIdx_ne h.arr idx hne
  simp only [swapPieces, List.length_set]
  omega

theorem siftUp_arr_length (arr : List HeapNode) (pos : List Int) (i : Nat) :
    (siftUp arr pos i).1.length = arr.length := by
  rw [siftUp]
  split
  · rw [siftUp_arr_length]
    simp [swapPieces, List.length_set]
  · rfl
termination_by i
decreasing_by omega

theorem siftUp_pos_length (arr : List HeapNode) (pos : List Int) (i : Nat) :
    (siftUp arr pos i).2.length = pos.length := by
  rw [siftUp]
  split
  · rw [siftUp_pos_length]
    simp [swapPieces, List.length_set]
  · rfl
termination_by i
decreasing_by omega

theorem decreaseKey_arr_length (h : MinHeap) (v : Nat) (d : Int) :
    (decreaseKey h v d).arr.length = h.arr.length := by
  unfold decreaseKey
  dsimp only
  split
  · rfl
  · simp [siftUp_arr_length, List.length_set]

theorem decreaseKey_pos_length (h : MinHeap) (v : Nat) (d : Int) :
    (decreaseKey h v d).pos.length = h.pos.length := by
  unfold decreaseKey
  dsimp only
  split
  · rfl
  · simp [siftUp_pos_length]

theorem extractMin_fst (h : MinHeap) (hne : h.arr.length ≠ 0) :
    (extractMin h).1 = some (nodeAt h.arr 0) := by
  unfold extractMin
  rw [if_neg hne]

theorem extractMin_snd_arr_length (h : MinHeap) (hne : h.arr.length ≠ 0) :
    (extractMin h).2.arr.length = h.arr.length - 1 := by
  unfold extractMin
  rw [if_neg hne]
  dsimp only
  rw [minHeapify_arr_length]
  simp only [List.length_take, List.length_set]
  omega

theorem extractMin_snd_pos_length (h : MinHeap) (hne : h.arr.length ≠ 0) :
    (extractMin h).2.pos.length = h.pos.length := by
  unfold extractMin
  rw [if_neg hne]
  dsimp only
  rw [minHeapify_pos_length]
  simp

end Heap

section ListHelpers

theorem getD_set_self {α : Type} (l : List α) (i : Nat) (a d : α) (h : i < l.length) :
    (l.set i a).getD i d = a := by
  rw [List.getD_eq_getElem?_getD, List.getElem?_set_self (by omega)]
  rfl

theorem getD_set_ne {α : Type} (l : List α) (i j : Nat) (a d : α) (h : i ≠ j) :
    (l.set i a).getD j d = l.getD j d := by
  rw [List.getD_eq_getElem?_getD, List.getElem?_set_ne h, ← List.getD_eq_getElem?_getD]

theorem getD_of_length_le {α : Type} (l : List α) (i : Nat) (d : α) (h : l.length ≤ i) :
    l.getD i d = d := by
  rw [List.getD_eq_getElem?_getD, List.getElem?_eq_none h]
  rfl

theorem getD_set_cases {α : Type} (l : List α) (i j : Nat) (a d : α) :
    (l.set i a).getD j d = if i = j ∧ i < l.length then a else l.getD j d := by
  rw [List.getD_eq_getElem?_getD, List.getElem?_set]
  by_cases hij : i = j
  · subst hij
    by_cases hl : i < l.length
    · simp [hl]
    · simp only [if_pos rfl, if_neg hl, hl, and_false, if_false, if_true]
      rw [List.getD_eq_getElem?_getD, List.getElem?_eq_none (by omega)]
  · simp only [hij, if_false, false_and]
    rw [← List.getD_eq_getElem?_getD]

theorem getD_replicate' {α : Type} (n i : Nat) (a d : α) :
    (List.replicate n a).getD i d = if i < n then a else d := by
  rw [List.getD_eq_getElem?_getD, List.getElem?_replicate]
  by_cases h : i < n <;> simp [h]

theorem getD_mem {α : Type} (l : List α) (i : Nat) (d : α) (h : i < l.length) :
    l.getD i d ∈ l := by
  rw [List.getD_eq_getElem?_getD, List.getElem?_eq_getElem h]
  exact List.getElem_mem h

theorem default_node_v : (default : HeapNode).v = 0 := rfl

theorem nodeAt_mem_or_default (arr : List HeapNode) (i : Nat) :
    nodeAt arr i ∈ arr ∨ nodeAt arr i = default := by
  by_cases h : i < arr.length
  · exact Or.inl (getD_mem arr i default h)
  · exact Or.inr (getD_of_length_le arr i default (by omega))

end ListHelpers

section HeapVerification

theorem nodeAt_eq_getElem (arr : List HeapNode) (i : Nat) (h : i < arr.length) :
    nodeAt arr i = arr[i] := by
  rw [nodeAt, List.getD_eq_getElem?_getD, List.getElem?_eq_getElem h]
  rfl

/-- Replacing the element at `j` and carrying the old one out front is a
permutation. -/
theorem cons_set_perm {α : Type} (l : List α) (j : Nat) (hj : j < l.length) (a : α) :
    (l[j] :: l.set j a).Perm (a :: l) := by
  induction l generalizing j with
  | nil => simp at hj
  | cons x xs ih =>
    cases j with
    | zero =>
      simpa using List.Perm.swap a x xs
    | succ j =>
      have hj' : j < xs.length := by simpa using hj
      simp only [List.getElem_cons_succ, List.set_cons_succ]
      refine ((List.Perm.swap x xs[j] _).trans ?_).trans (List.Perm.swap a x xs)
      exact (ih j hj').cons x

/-- Swapping two positions of a list is a permutation. -/
theorem swap_getElem_perm {α : Type} (l : List α) (a b : Nat)
    (ha : a < l.length) (hb : b < l.length) :
    ((l.set a l[b]).set b l[a]).Perm l := by
  induction l generalizing a b with
  | nil => simp at ha
  | cons x xs ih =>
    cases a with
    | zero =>
      cases b with
      | zero => simp
      | succ b =>
        have hb' : b < xs.length := by simpa using hb
        simpa using cons_set_perm xs b hb' x
    | succ a =>
      cases b with
      | zero =>
        have ha' : a < xs.length := by simpa using ha
        simpa using cons_set_perm xs a ha' x
      | succ b =>
        have ha' : a < xs.length := by simpa using ha
        have hb' : b < xs.length := by simpa using hb
        simpa using (ih a b ha' hb').cons x

/-- Consistency of the position index with the heap array: every live slot
is registered under its vertex, and vertices outside the array are marked
`-1`; all stored vertices are below the capacity `n`. -/
structure PosConsistent (n : Nat) (arr : List HeapNode) (pos : List Int) : Prop where
  posLen : pos.length = n
  arrLen : arr.length ≤ n
  vLt : ∀ i < arr.length, (nodeAt arr i).v < n
  posOf : ∀ i < arr.length, posAt pos (nodeAt arr i).v = Int.ofNat i
  absent : ∀ v < n, (∀ i < arr.length, (nodeAt arr i).v ≠ v) → posAt pos v = -1

theorem PosConsistent.inj {n : Nat} {arr : List HeapNode} {pos : List Int}
    (hc : PosConsistent n arr pos) {i j : Nat}
    (hi : i < arr.length) (hj : j < arr.length)
    (hv : (nodeAt arr i).v = (nodeAt arr j).v) : i = j := by
  have h1 := hc.posOf i hi
  have h2 := hc.posOf j hj
  rw [hv] at h1
  exact Int.ofNat.inj (h1.symm.trans h2)

theorem PosConsistent.posAt_cases {n : Nat} {arr : List HeapNode} {pos : List Int}
    (hc : PosConsistent n arr pos) (v : Nat) (hv : v < n) :
    (posAt pos v = -1 ∧ ∀ i < arr.length, (nodeAt arr i).v ≠ v) ∨
    (∃ i, i < arr.length ∧ posAt pos v = Int.ofNat i ∧ (nodeAt arr i).v = v) := by
  by_cases h : ∃ i, i < arr.length ∧ (nodeAt arr i).v = v
  · obtain ⟨i, hi, hiv⟩ := h
    refine Or.inr ⟨i, hi, ?_, hiv⟩
    rw [← hiv]
    exact hc.posOf i hi
  · push_neg at h
    exact Or.inl ⟨hc.absent v hv h, h⟩

/-- Heap order of the array: every child's distance is at least its
parent's. -/
def HeapOrdered (arr : List HeapNode) : Prop :=
  ∀ i, 0 < i → i < arr.length → (nodeAt arr ((i-1)/2)).dist ≤ (nodeAt arr i).dist

theorem heapOrdered_root_le {arr : List HeapNode} (ho : HeapOrdered arr) :
    ∀ i < arr.length, (nodeAt arr 0).dist ≤ (nodeAt arr i).dist := by
  intro i
  induction i using Nat.strong_induction_on with
  | _ i ih =>
    intro hi
    rcases Nat.eq_zero_or_pos i with rfl | hpos
    · exact le_refl _
    · exact le_trans (ih ((i-1)/2) (by omega) (by omega)) (ho i hpos hi)

theorem swapPieces_nodeAt (arr : List HeapNode) (pos : List Int) (a b : Nat)
    (ha : a < arr.length) (hb : b < arr.length) (x : Nat) :
    nodeAt (swapPieces arr pos a b).1 x =
      if x = b then nodeAt arr a else if x = a then nodeAt arr b else nodeAt arr x := by
  simp only [swapPieces, nodeAt]
  rw [getD_set_cases, getD_set_cases]
  by_cases hxb : x = b
  · rw [if_pos ⟨hxb.symm, by simpa using hb⟩, if_pos hxb]
  · rw [if_neg (fun hc => hxb hc.1.symm), if_neg hxb]
    by_cases hxa : x = a
    · rw [if_pos ⟨hxa.symm, ha⟩, if_pos hxa]
    · rw [if_neg (fun hc => hxa hc.1.symm), if_neg hxa]

theorem swapPieces_posAt (arr : List HeapNode) (pos : List Int) (a b : Nat)
    (hva : (nodeAt arr a).v < pos.length) (hvb : (nodeAt arr b).v < pos.length)
    (hvne : (nodeAt arr a).v ≠ (nodeAt arr b).v) (w : Nat) :
    posAt (swapPieces arr pos a b).2 w =
      if w = (nodeAt arr b).v then Int.ofNat a
      else if w = (nodeAt arr a).v then Int.ofNat b
      else posAt pos w := by
  simp only [swapPieces, posAt]
  rw [getD_set_cases, getD_set_cases]
  by_cases hwb : w = (nodeAt arr b).v
  · rw [if_pos ⟨hwb.symm, by simpa [List.length_set] using hvb⟩, if_pos hwb]
  · rw [if_neg (fun hc => hwb hc.1.symm), if_neg hwb]
    by_cases hwa : w = (nodeAt arr a).v
    · rw [if_pos ⟨hwa.symm, hva⟩, if_pos hwa]
    · rw [if_neg (fun hc => hwa hc.1.symm), if_neg hwa]

theorem swapPieces_consistent {n : Nat} {arr : List HeapNode} {pos : List Int}
    (hc : PosConsistent n arr pos) (a b : Nat)
    (ha : a < arr.length) (hb : b < arr.length) (hab : a ≠ b) :
    PosConsistent n (swapPieces arr pos a b).1 (swapPieces arr pos a b).2 := by
  have hvne : (nodeAt arr a).v ≠ (nodeAt arr b).v := by
    intro hEq
    exact hab (hc.inj ha hb hEq)
  have hlen : (swapPieces arr pos a b).1.length = arr.length := swapPieces_arr_length arr pos a b
  have hva : (nodeAt arr a).v < pos.length := by rw [hc.posLen]; exact hc.vLt a ha
  have hvb : (nodeAt arr b).v < pos.length := by rw [hc.posLen]; exact hc.vLt b hb
  refine ⟨?_, ?_, ?_, ?_, ?_⟩
  · rw [swapPieces_pos_length]; exact hc.posLen
  · rw [hlen]; exact hc.arrLen
  · intro i hi
    rw [hlen] at hi
    rw [swapPieces_nodeAt arr pos a b ha hb i]
    split
    · exact hc.vLt a ha
    · split
      · exact hc.vLt b hb
      · exact hc.vLt i hi
  · intro i hi
    rw [hlen] at hi
    rw [swapPieces_nodeAt arr pos a b ha hb i,
      swapPieces_posAt arr pos a b hva hvb hvne]
    by_cases hib : i = b
    · rw [if_pos hib, if_neg (by exact fun hcc => hvne hcc), if_pos rfl, hib]
    · rw [if_neg hib]
      by_cases hia : i = a
      · rw [if_pos hia, if_pos rfl, hia]
      · rw [if_neg hia]
        have hvi_a : (nodeAt arr i).v ≠ (nodeAt arr a).v := by
          intro hEq; exact hia (hc.inj hi ha hEq)
        have hvi_b : (nodeAt arr i).v ≠ (nodeAt arr b).v := by
          intro hEq; exact hib (hc.inj hi hb hEq)
        rw [if_neg hvi_b, if_neg hvi_a]
        exact hc.posOf i hi
  · intro v hv habs
    rw [hlen] at habs
    rw [swapPieces_posAt arr pos a b hva hvb hvne]
    have hnb : (nodeAt arr a).v ≠ v := by
      have hb' := habs b hb
      rw [swapPieces_nodeAt arr pos a b ha hb b, if_pos rfl] at hb'
      exact hb'
    have hna : (nodeAt arr b).v ≠ v := by
      have ha' := habs a ha
      rw [swapPieces_nodeAt arr pos a b ha hb a, if_neg hab, if_pos rfl] at ha'
      exact ha'
    rw [if_neg (fun hEq => hna hEq.symm), if_neg (fun hEq => hnb hEq.symm)]
    refine hc.absent v hv ?_
    intro i hi
    by_cases hia : i = a
    · rw [hia]; exact hnb
    · by_cases hib : i = b
      · rw [hib]; exact hna
      · have := habs i hi
        rw [swapPieces_nodeAt arr pos a b ha hb i, if_neg hib, if_neg hia] at this
        exact this

theorem swapPieces_perm (arr : List HeapNode) (pos : List Int) (a b : Nat)
    (ha : a < arr.length) (hb : b < arr.length) :
    (swapPieces arr pos a b).1.Perm arr := by
  have h1 : nodeAt arr b = arr[b] := nodeAt_eq_getElem arr b hb
  have h2 : nodeAt arr a = arr[a] := nodeAt_eq_getElem arr a ha
  simp only [swapPieces]
  rw [h1, h2]
  exact swap_getElem_perm arr a b ha hb

theorem smallestIdx_mem (arr : List HeapNode) (idx : Nat) :
    smallestIdx arr idx = idx ∨ smallestIdx arr idx = 2*idx+1 ∨
      smallestIdx arr idx = 2*idx+2 := by
  unfold smallestIdx smallIdx1
  split_ifs <;> omega

theorem smallestIdx_le_self (arr : List HeapNode) (idx : Nat) :
    (nodeAt arr (smallestIdx arr idx)).dist ≤ (nodeAt arr idx).dist := by
  unfold smallestIdx smallIdx1
  split_ifs <;> omega

theorem smallestIdx_le_left (arr : List HeapNode) (idx : Nat)
    (hl : 2*idx+1 < arr.length) :
    (nodeAt arr (smallestIdx arr idx)).dist ≤ (nodeAt arr (2*idx+1)).dist := by
  unfold smallestIdx smallIdx1
  split_ifs <;> omega

theorem smallestIdx_le_right (arr : List HeapNode) (idx : Nat)
    (hr : 2*idx+2 < arr.length) :
    (nodeAt arr (smallestIdx arr idx)).dist ≤ (nodeAt arr (2*idx+2)).dist := by
  unfold smallestIdx smallIdx1
  split_ifs <;> omega

theorem smallestIdx_lt_of_ne (arr : List HeapNode) (idx : Nat)
    (hne : smallestIdx arr idx ≠ idx) :
    (nodeAt arr (smallestIdx arr idx)).dist < (nodeAt arr idx).dist := by
  unfold smallestIdx smallIdx1 at *
  split_ifs at * <;> omega

/-- Precondition of the sift-down: heap order may fail only between `k`
and its children, and (when `k` has a parent) `k`'s children still
dominate `k`'s parent. -/
def SiftDownOK (arr : List HeapNode) (k : Nat) : Prop :=
  (∀ i, 0 < i → i < arr.length → (i-1)/2 ≠ k →
    (nodeAt arr ((i-1)/2)).dist ≤ (nodeAt arr i).dist) ∧
  (0 < k → ∀ c, (c = 2*k+1 ∨ c = 2*k+2) → c < arr.length →
    (nodeAt arr ((k-1)/2)).dist ≤ (nodeAt arr c).dist)

/-- `minHeapify` restores heap order from a `SiftDownOK` state, keeping
the position index consistent and permuting the array entries. -/
theorem minHeapify_spec (n : Nat) (h : MinHeap) (idx : Nat)
    (hc : PosConsistent n h.arr h.pos) (hOK : SiftDownOK h.arr idx) :
    PosConsistent n (minHeapify h idx).arr (minHeapify h idx).pos ∧
    (minHeapify h idx).arr.Perm h.arr ∧
    HeapOrdered (minHeapify h idx).arr := by
  rw [minHeapify]
  split
  · rename_i hne
    obtain ⟨hgt, hlt⟩ := smallestIdx_ne h.arr idx hne
    have hidx : idx < h.arr.length := by omega
    set s := smallestIdx h.arr idx with hs
    have hsm := smallestIdx_mem h.arr idx
    rw [← hs] at hsm
    have hparent : (s - 1) / 2 = idx := by omega
    have hstrict : (nodeAt h.arr s).dist < (nodeAt h.arr idx).dist :=
      smallestIdx_lt_of_ne h.arr idx hne
    have hc2 : PosConsistent n (swapPieces h.arr h.pos s idx).1
        (swapPieces h.arr h.pos s idx).2 :=
      swapPieces_consistent hc s idx hlt hidx (by omega)
    have hlen2 : (swapPieces h.arr h.pos s idx).1.length = h.arr.length :=
      swapPieces_arr_length _ _ _ _
    have hnode : ∀ x, nodeAt (swapPieces h.arr h.pos s idx).1 x =
        if x = idx then nodeAt h.arr s else if x = s then nodeAt h.arr idx
        else nodeAt h.arr x :=
      swapPieces_nodeAt h.arr h.pos s idx hlt hidx
    have hOK2 : SiftDownOK (swapPieces h.arr h.pos s idx).1 s := by
      constructor
      · intro c hc0 hclen hcp
        rw [hlen2] at hclen
        rw [hnode c, hnode ((c-1)/2)]
        by_cases hpidx : (c-1)/2 = idx
        · rw [if_pos hpidx]
          by_cases hcs : c = s
          · rw [if_neg (by omega), if_pos hcs]
            exact le_of_lt hstrict
          · have hcchild : c = 2*idx+1 ∨ c = 2*idx+2 := by omega
            rw [if_neg (by omega), if_neg hcs]
            rcases hcchild with hc1 | hc2'
            · rw [hc1]; exact smallestIdx_le_left h.arr idx (by omega)
            · rw [hc2']; exact smallestIdx_le_right h.arr idx (by omega)
        · rw [if_neg hpidx, if_neg hcp]
          by_cases hcidx : c = idx
          · -- the pair (parent of idx, new value at idx = old s):
            -- bounded by the grandparent clause of the precondition
            have hidx0 : 0 < idx := by omega
            rw [if_pos hcidx, hcidx]
            exact hOK.2 hidx0 s (by omega) (by omega)
          · have hcns : c ≠ s := by
              intro hEq
              exact hpidx (by omega)
            rw [if_neg hcidx, if_neg hcns]
            exact hOK.1 c hc0 hclen hpidx
      · intro hs0 c hcchild hclen
        rw [hlen2] at hclen
        rw [hnode c, hnode ((s-1)/2), hparent, if_pos rfl]
        have hcgt : s < c := by omega
        rw [if_neg (by omega), if_neg (by omega)]
        have hstep := hOK.1 c (by omega) hclen (by omega)
        rw [show (c-1)/2 = s by omega] at hstep
        exact hstep
    obtain ⟨ih1, ih2, ih3⟩ := minHeapify_spec n ⟨(swapPieces h.arr h.pos s idx).1,
      (swapPieces h.arr h.pos s idx).2⟩ s hc2 hOK2
    refine ⟨ih1, ?_, ih3⟩
    exact ih2.trans (swapPieces_perm h.arr h.pos s idx hlt hidx)
  · rename_i hne
    rw [not_not] at hne
    refine ⟨hc, List.Perm.refl _, ?_⟩
    intro c hc0 hclen
    by_cases hp : (c-1)/2 = idx
    · rw [hp]
      have hch : c = 2*idx+1 ∨ c = 2*idx+2 := by omega
      rcases hch with hc1 | hc2'
      · have := smallestIdx_le_left h.arr idx (by omega)
        rw [hne] at this
        rw [hc1]
        exact this
      · have := smallestIdx_le_right h.arr idx (by omega)
        rw [hne] at this
        rw [hc2']
        exact this
    · exact hOK.1 c hc0 hclen hp
termination_by h.arr.length - idx
decreasing_by
  have := smallestIdx_ne h.arr idx (by assumption)
  simp only [swapPieces, List.length_set]
  omega

/-- Precondition of the sift-up loop: heap order may fail only between `i`
and its parent, and (when `i` has a parent) `i`'s children still dominate
`i`'s parent. -/
def SiftUpOK (arr : List HeapNode) (i : Nat) : Prop :=
  (∀ c, 0 < c → c < arr.length → c ≠ i →
    (nodeAt arr ((c-1)/2)).dist ≤ (nodeAt arr c).dist) ∧
  (0 < i → ∀ c, (c = 2*i+1 ∨ c = 2*i+2) → c < arr.length →
    (nodeAt arr ((i-1)/2)).dist ≤ (nodeAt arr c).dist)

/-- The `decreaseKey` loop restores heap order from a `SiftUpOK` state,
keeping the position index consistent and permuting the array entries. -/
theorem siftUp_spec (n : Nat) (arr : List HeapNode) (pos : List Int) (i : Nat)
    (hi : i < arr.length) (hc : PosConsistent n arr pos) (hOK : SiftUpOK arr i) :
    PosConsistent n (siftUp arr pos i).1 (siftUp arr pos i).2 ∧
    (siftUp arr pos i).1.Perm arr ∧ HeapOrdered (siftUp arr pos i).1 := by
  rw [siftUp]
  split
  · rename_i hcond
    obtain ⟨hi0, hlt⟩ := hcond
    have hi0' : 0 < i := Nat.pos_of_ne_zero hi0
    have hp : (i-1)/2 < i := by omega
    have hplen : (i-1)/2 < arr.length := by omega
    have hc2 : PosConsistent n (swapPieces arr pos i ((i-1)/2)).1
        (swapPieces arr pos i ((i-1)/2)).2 :=
      swapPieces_consistent hc i ((i-1)/2) hi hplen (by omega)
    have hlen2 : (swapPieces arr pos i ((i-1)/2)).1.length = arr.length :=
      swapPieces_arr_length _ _ _ _
    have hnode : ∀ x, nodeAt (swapPieces arr pos i ((i-1)/2)).1 x =
        if x = (i-1)/2 then nodeAt arr i else if x = i then nodeAt arr ((i-1)/2)
        else nodeAt arr x :=
      swapPieces_nodeAt arr pos i ((i-1)/2) hi hplen
    have hOK2 : SiftUpOK (swapPieces arr pos i ((i-1)/2)).1 ((i-1)/2) := by
      constructor
      · intro c hc0 hclen hcp
        rw [hlen2] at hclen
        rw [hnode c, hnode ((c-1)/2)]
        by_cases hcpp : (c-1)/2 = (i-1)/2
        · rw [if_pos hcpp]
          by_cases hci : c = i
          · rw [if_neg (by omega), if_pos hci]
            exact le_of_lt hlt
          · rw [if_neg (by omega), if_neg hci]
            have hstep := hOK.1 c hc0 hclen hci
            rw [hcpp] at hstep
            exact le_trans (le_of_lt hlt) hstep
        · rw [if_neg hcpp]
          by_cases hcpi : (c-1)/2 = i
          · rw [if_pos hcpi]
            have hcchild : c = 2*i+1 ∨ c = 2*i+2 := by omega
            have hcgt : i < c := by omega
            rw [if_neg (by omega), if_neg (by omega)]
            exact hOK.2 hi0' c hcchild hclen
          · rw [if_neg hcpi]
            have hci : c ≠ i := by omega
            have hcnp : c ≠ (i-1)/2 := hcp
            rw [if_neg hcnp, if_neg hci]
            exact hOK.1 c hc0 hclen hci
      · intro hp0 c hcchild hclen
        rw [hlen2] at hclen
        have hgp : ((i-1)/2 - 1)/2 < (i-1)/2 := by omega
        rw [hnode c, hnode (((i-1)/2 - 1)/2)]
        rw [if_neg (by omega), if_neg (by omega)]
        have hgp_p : (nodeAt arr ((((i-1)/2) - 1)/2)).dist ≤ (nodeAt arr ((i-1)/2)).dist := by
          have := hOK.1 ((i-1)/2) hp0 hplen (by omega)
          exact this
        by_cases hci : c = i
        · rw [if_neg (by omega), if_pos hci]
          exact hgp_p
        · have hcnp : c ≠ (i-1)/2 := by omega
          rw [if_neg hcnp, if_neg hci]
          have hstep := hOK.1 c (by omega) hclen hci
          rw [show (c-1)/2 = (i-1)/2 by omega] at hstep
          exact le_trans hgp_p hstep
    obtain ⟨ih1, ih2, ih3⟩ := siftUp_spec n (swapPieces arr pos i ((i-1)/2)).1
      (swapPieces arr pos i ((i-1)/2)).2 ((i-1)/2) (by omega) hc2 hOK2
    refine ⟨ih1, ?_, ih3⟩
    exact ih2.trans (swapPieces_perm arr pos i ((i-1)/2) hi hplen)
  · rename_i hcond
    push_neg at hcond
    refine ⟨hc, List.Perm.refl _, ?_⟩
    intro c hc0 hclen
    by_cases hci : c = i
    · rcases Nat.eq_zero_or_pos i with hz | hpos
      · omega
      · have := hcond (by omega)
        rw [hci]
        exact this
    · exact hOK.1 c hc0 hclen hci
termination_by i
decreasing_by omega

/-- The distance stored for vertex `w`: `h->arr[h->pos[w]]->dist`. -/
def lookDist (arr : List HeapNode) (pos : List Int) (w : Nat) : Int :=
  (nodeAt arr (posAt pos w).toNat).dist

theorem present_iff {n : Nat} {arr : List HeapNode} {pos : List Int}
    (hc : PosConsistent n arr pos) (w : Nat) (hw : w < n) :
    posAt pos w ≠ -1 ↔ ∃ x ∈ arr, x.v = w := by
  constructor
  · intro hne
    rcases hc.posAt_cases w hw with ⟨h1, _⟩ | ⟨i, hi, _, hvi⟩
    · exact absurd h1 hne
    · exact ⟨nodeAt arr i, getD_mem arr i default hi, hvi⟩
  · rintro ⟨x, hx, hv⟩
    obtain ⟨i, hi, hxi⟩ := List.getElem_of_mem hx
    have hw' : posAt pos w = Int.ofNat i := by
      have h := hc.posOf i hi
      rw [nodeAt_eq_getElem arr i hi, hxi, hv] at h
      exact h
    rw [hw']
    have hnn : (0:Int) ≤ Int.ofNat i := Int.ofNat_nonneg i
    omega

theorem present_lt {n : Nat} {arr : List HeapNode} {pos : List Int}
    (hc : PosConsistent n arr pos) (w : Nat) (hpres : posAt pos w ≠ -1) : w < n := by
  by_contra hge
  apply hpres
  rw [posAt, getD_of_length_le _ _ _ (by rw [hc.posLen]; omega)]

theorem present_node {n : Nat} {arr : List HeapNode} {pos : List Int}
    (hc : PosConsistent n arr pos) (w : Nat) (hw : w < n)
    (hpres : posAt pos w ≠ -1) :
    (⟨w, lookDist arr pos w⟩ : HeapNode) ∈ arr := by
  rcases hc.posAt_cases w hw with ⟨h1, _⟩ | ⟨i, hi, hpi, hvi⟩
  · exact absurd h1 hpres
  · have hld : lookDist arr pos w = (nodeAt arr i).dist := by
      rw [lookDist, hpi]
      rfl
    rw [hld, ← hvi]
    exact getD_mem arr i default hi

theorem dist_unique {n : Nat} {arr : List HeapNode} {pos : List Int}
    (hc : PosConsistent n arr pos) (w : Nat) (x : HeapNode)
    (hx : x ∈ arr) (hv : x.v = w) :
    x.dist = lookDist arr pos w := by
  obtain ⟨i, hi, hxi⟩ := List.getElem_of_mem hx
  have hposw : posAt pos w = Int.ofNat i := by
    have h := hc.posOf i hi
    rw [nodeAt_eq_getElem arr i hi, hxi, hv] at h
    exact h
  rw [lookDist, hposw, show (Int.ofNat i).toNat = i from rfl,
    nodeAt_eq_getElem arr i hi, hxi]

/-- Two consistent states whose arrays are permutations of one another
agree on presence and stored distances. -/
theorem consistent_perm_transport {n : Nat} {arr arr' : List HeapNode}
    {pos pos' : List Int}
    (hc : PosConsistent n arr pos) (hc' : PosConsistent n arr' pos')
    (hperm : arr'.Perm arr) (w : Nat) (hw : w < n) :
    (posAt pos' w ≠ -1 ↔ posAt pos w ≠ -1) ∧
    (posAt pos w ≠ -1 → lookDist arr' pos' w = lookDist arr pos w) := by
  constructor
  · rw [present_iff hc' w hw, present_iff hc w hw]
    constructor
    · rintro ⟨x, hx, hv⟩
      exact ⟨x, hperm.mem_iff.mp hx, hv⟩
    · rintro ⟨x, hx, hv⟩
      exact ⟨x, hperm.mem_iff.mpr hx, hv⟩
  · intro hpres
    have hmem := present_node hc w hw hpres
    have hmem' : (⟨w, lookDist arr pos w⟩ : HeapNode) ∈ arr' := hperm.mem_iff.mpr hmem
    exact (dist_unique hc' w _ hmem' rfl).symm

/-- Overwriting the distance stored in one slot keeps the position index
consistent. -/
theorem consistent_set_dist {n : Nat} {arr : List HeapNode} {pos : List Int}
    (hc : PosConsistent n arr pos) (i : Nat) (hi : i < arr.length) (d : Int) :
    PosConsistent n (arr.set i { nodeAt arr i with dist := d }) pos := by
  have hnode : ∀ x, nodeAt (arr.set i { nodeAt arr i with dist := d }) x =
      if x = i then { nodeAt arr i with dist := d } else nodeAt arr x := by
    intro x
    rw [nodeAt, getD_set_cases]
    by_cases hx : x = i
    · rw [if_pos ⟨hx.symm, hi⟩, if_pos hx]
    · rw [if_neg (fun hcc => hx hcc.1.symm), if_neg hx]
      rfl
  refine ⟨hc.posLen, by simpa using hc.arrLen, ?_, ?_, ?_⟩
  · intro j hj
    rw [List.length_set] at hj
    rw [hnode j]
    split
    · exact hc.vLt i hi
    · exact hc.vLt j hj
  · intro j hj
    rw [List.length_set] at hj
    rw [hnode j]
    split
    · rename_i hji
      rw [hji]
      exact hc.posOf i hi
    · exact hc.posOf j hj
  · intro w hw habs
    rw [List.length_set] at habs
    refine hc.absent w hw ?_
    intro j hj
    have := habs j hj
    rw [hnode j] at this
    by_cases hji : j = i
    · rw [if_pos hji] at this
      rw [hji]
      exact this
    · rw [if_neg hji] at this
      exact this

/-- Specification of `decreaseKey` from a consistent, heap-ordered state:
with the caller's precondition (`dist` not increased) the result is
consistent and ordered, presence is untouched, `v`'s stored distance
becomes `dist`, and every other stored distance is unchanged. -/
theorem decreaseKey_spec (n : Nat) (h : MinHeap) (v : Nat) (d : Int)
    (hc : PosConsistent n h.arr h.pos) (hord : HeapOrdered h.arr)
    (hpre : posAt h.pos v ≠ -1 → d ≤ lookDist h.arr h.pos v) :
    PosConsistent n (decreaseKey h v d).arr (decreaseKey h v d).pos ∧
    HeapOrdered (decreaseKey h v d).arr ∧
    (∀ w, w < n → (posAt (decreaseKey h v d).pos w ≠ -1 ↔ posAt h.pos w ≠ -1)) ∧
    (∀ w, w < n → w ≠ v → posAt h.pos w ≠ -1 →
      lookDist (decreaseKey h v d).arr (decreaseKey h v d).pos w =
        lookDist h.arr h.pos w) ∧
    (posAt h.pos v ≠ -1 →
      lookDist (decreaseKey h v d).arr (decreaseKey h v d).pos v = d) := by
  unfold decreaseKey
  dsimp only
  split
  · rename_i habs
    exact ⟨hc, hord, fun w _ => Iff.rfl, fun w _ _ _ => rfl, fun hpres => absurd habs hpres⟩
  · rename_i hpres
    have hvn : v < n := present_lt hc v hpres
    rcases hc.posAt_cases v hvn with ⟨h1, _⟩ | ⟨i, hi, hpi, hvi⟩
    · exact absurd h1 hpres
    have hi0 : (posAt h.pos v).toNat = i := by rw [hpi]; rfl
    rw [hi0]
    have hold : lookDist h.arr h.pos v = (nodeAt h.arr i).dist := by
      rw [lookDist, hpi]
      rfl
    have hd_le : d ≤ (nodeAt h.arr i).dist := by
      rw [← hold]; exact hpre hpres
    set arr1 := h.arr.set i { nodeAt h.arr i with dist := d } with harr1
    have hlen1 : arr1.length = h.arr.length := by rw [harr1, List.length_set]
    have hc1 : PosConsistent n arr1 h.pos := consistent_set_dist hc i hi d
    have hnode1 : ∀ x, nodeAt arr1 x =
        if x = i then { nodeAt h.arr i with dist := d } else nodeAt h.arr x := by
      intro x
      rw [harr1, nodeAt, getD_set_cases]
      by_cases hx : x = i
      · rw [if_pos ⟨hx.symm, hi⟩, if_pos hx]
      · rw [if_neg (fun hcc => hx hcc.1.symm), if_neg hx]
        rfl
    have hOK1 : SiftUpOK arr1 i := by
      constructor
      · intro c hc0 hclen hci
        rw [hlen1] at hclen
        rw [hnode1 c, hnode1 ((c-1)/2), if_neg hci]
        by_cases hcp : (c-1)/2 = i
        · rw [if_pos hcp]
          have := hord c hc0 hclen
          rw [hcp] at this
          exact le_trans (by simpa using hd_le) this
        · rw [if_neg hcp]
          exact hord c hc0 hclen
      · intro hi0' c hcchild hclen
        rw [hlen1] at hclen
        have hcne : c ≠ i := by omega
        have hpne : (i-1)/2 ≠ i := by omega
        rw [hnode1 c, hnode1 ((i-1)/2), if_neg hcne, if_neg hpne]
        have h1 := hord i hi0' hi
        have h2 := hord c (by omega) hclen
        rw [show (c-1)/2 = i by omega] at h2
        exact le_trans h1 h2
    obtain ⟨hc2, hperm2, hord2⟩ := siftUp_spec n arr1 h.pos i (by omega) hc1 hOK1
    refine ⟨hc2, hord2, ?_, ?_, ?_⟩
    · intro w hw
      exact (consistent_perm_transport hc1 hc2 hperm2 w hw).1
    · intro w hw hwv hwpres
      have hwpres1 : posAt h.pos w ≠ -1 := hwpres
      have htrans := (consistent_perm_transport hc1 hc2 hperm2 w hw).2 hwpres1
      rw [htrans]
      -- w sits in a slot other than i, untouched by the overwrite
      rcases hc.posAt_cases w hw with ⟨h1, _⟩ | ⟨j, hj, hpj, hvj⟩
      · exact absurd h1 hwpres
      · have hji : j ≠ i := by
          intro hEq
          rw [hEq, hvi] at hvj
          exact hwv hvj.symm
        rw [lookDist, lookDist, hpj]
        show (nodeAt arr1 j).dist = (nodeAt h.arr j).dist
        rw [hnode1 j, if_neg hji]
    · intro _
      have htrans := (consistent_perm_transport hc1 hc2 hperm2 v hvn).2 hpres
      rw [htrans, lookDist, hpi]
      show (nodeAt arr1 i).dist = d
      rw [hnode1 i, if_pos rfl]

theorem getD_take {α : Type} (l : List α) (k i : Nat) (d : α) (hik : i < k) :
    (l.take k).getD i d = l.getD i d := by
  rw [List.getD_eq_getElem?_getD, List.getD_eq_getElem?_getD, List.getElem?_take,
    if_pos hik]

/-- Specification of `extractMin` on a nonempty consistent, heap-ordered
state: it returns the root, which is minimal; the result is again
consistent and ordered; the root's vertex becomes absent while every
other vertex keeps its presence and stored distance; and the remaining
entries are exactly the old ones minus the root. -/
theorem extractMin_spec (n : Nat) (h : MinHeap)
    (hc : PosConsistent n h.arr h.pos) (hord : HeapOrdered h.arr)
    (hne : h.arr.length ≠ 0) :
    (extractMin h).1 = some (nodeAt h.arr 0) ∧
    (∀ x ∈ h.arr, (nodeAt h.arr 0).dist ≤ x.dist) ∧
    PosConsistent n (extractMin h).2.arr (extractMin h).2.pos ∧
    HeapOrdered (extractMin h).2.arr ∧
    ((nodeAt h.arr 0) :: (extractMin h).2.arr).Perm h.arr ∧
    (∀ w, w < n →
      (posAt (extractMin h).2.pos w ≠ -1 ↔
        (posAt h.pos w ≠ -1 ∧ w ≠ (nodeAt h.arr 0).v))) ∧
    (∀ w, w < n → w ≠ (nodeAt h.arr 0).v → posAt h.pos w ≠ -1 →
      lookDist (extractMin h).2.arr (extractMin h).2.pos w =
        lookDist h.arr h.pos w) := by
  have h0lt : 0 < h.arr.length := Nat.pos_of_ne_zero hne
  have hEx : extractMin h =
      (some (nodeAt h.arr 0),
        minHeapify
          ⟨(h.arr.set 0 (nodeAt h.arr (h.arr.length - 1))).take (h.arr.length - 1),
            (h.pos.set (nodeAt h.arr (h.arr.length - 1)).v 0).set
              (nodeAt h.arr 0).v (-1)⟩ 0) := by
    unfold extractMin
    rw [if_neg hne]
  rw [hEx]
  set root := nodeAt h.arr 0 with hroot
  set last := nodeAt h.arr (h.arr.length - 1) with hlast
  set arr2 := (h.arr.set 0 last).take (h.arr.length - 1) with harr2
  set pos1 := (h.pos.set last.v 0).set root.v (-1) with hpos1
  have hlen2 : arr2.length = h.arr.length - 1 := by
    rw [harr2, List.length_take, List.length_set]
    omega
  have hplen1 : pos1.length = n := by
    rw [hpos1]
    simp [List.length_set, hc.posLen]
  have hrootn : root.v < n := hc.vLt 0 h0lt
  have hlastn : last.v < n := hc.vLt (h.arr.length - 1) (by omega)
  have hrootpos : posAt h.pos root.v = Int.ofNat 0 := hc.posOf 0 h0lt
  have hlastpos : posAt h.pos last.v = Int.ofNat (h.arr.length - 1) :=
    hc.posOf (h.arr.length - 1) (by omega)
  have hne_rl : h.arr.length - 1 ≠ 0 → root.v ≠ last.v := by
    intro hgt hEq
    have h01 := hc.inj h0lt (show h.arr.length - 1 < h.arr.length by omega) hEq
    omega
  have heq_rl : h.arr.length - 1 = 0 → root = last := by
    intro h1
    rw [hroot, hlast, h1]
  have harr2node : ∀ i, i < h.arr.length - 1 →
      nodeAt arr2 i = if i = 0 then last else nodeAt h.arr i := by
    intro i hi
    rw [harr2, nodeAt, getD_take _ _ _ _ hi, getD_set_cases]
    by_cases h0 : i = 0
    · rw [if_pos ⟨h0.symm, h0lt⟩, if_pos h0]
    · rw [if_neg (fun hcc => h0 hcc.1.symm), if_neg h0]
      rfl
  have hpos1At : ∀ w, posAt pos1 w =
      if w = root.v then -1 else if w = last.v then 0 else posAt h.pos w := by
    intro w
    rw [hpos1, posAt, getD_set_cases, getD_set_cases]
    have hL : (h.pos.set last.v 0).length = n := by
      simp [List.length_set, hc.posLen]
    by_cases hwr : w = root.v
    · rw [if_pos ⟨hwr.symm, by rw [hL]; exact hrootn⟩, if_pos hwr]
    · rw [if_neg (fun hcc => hwr hcc.1.symm), if_neg hwr]
      by_cases hwl : w = last.v
      · rw [if_pos ⟨hwl.symm, by rw [hc.posLen]; exact hlastn⟩, if_pos hwl]
      · rw [if_neg (fun hcc => hwl hcc.1.symm), if_neg hwl]
        rfl
  have hc2 : PosConsistent n arr2 pos1 := by
    refine ⟨hplen1, by rw [hlen2]; have := hc.arrLen; omega, ?_, ?_, ?_⟩
    · intro i hi
      rw [hlen2] at hi
      rw [harr2node i hi]
      split
      · exact hlastn
      · exact hc.vLt i (by omega)
    · intro i hi
      rw [hlen2] at hi
      rw [harr2node i hi]
      by_cases h0 : i = 0
      · rw [if_pos h0, hpos1At]
        rw [if_neg (fun hEq => hne_rl (by omega) hEq.symm), if_pos rfl, h0]
        rfl
      · rw [if_neg h0, hpos1At]
        have hvne1 : (nodeAt h.arr i).v ≠ root.v := fun hEq =>
          h0 (hc.inj (by omega) h0lt hEq)
        have hvne2 : (nodeAt h.arr i).v ≠ last.v := fun hEq => by
          have := hc.inj (show i < h.arr.length by omega)
            (show h.arr.length - 1 < h.arr.length by omega) hEq
          omega
        rw [if_neg hvne1, if_neg hvne2]
        exact hc.posOf i (by omega)
    · intro w hw habs
      rw [hlen2] at habs
      rw [hpos1At]
      by_cases hwr : w = root.v
      · rw [if_pos hwr]
      · rw [if_neg hwr]
        by_cases hwl : w = last.v
        · exfalso
          have hlen1' : h.arr.length - 1 ≠ 0 := by
            intro h1
            exact hwr (by rw [hwl, ← heq_rl h1])
          have hh := habs 0 (by omega)
          rw [harr2node 0 (by omega), if_pos rfl] at hh
          exact hh hwl.symm
        · rw [if_neg hwl]
          refine hc.absent w hw ?_
          intro i hi
          by_cases h0 : i = 0
          · rw [h0]
            exact fun hEq => hwr hEq.symm
          · by_cases hl' : i = h.arr.length - 1
            · rw [hl']
              exact fun hEq => hwl hEq.symm
            · have hh := habs i (by omega)
              rw [harr2node i (by omega), if_neg h0] at hh
              exact hh
  have hOK2 : SiftDownOK arr2 0 := by
    constructor
    · intro i hi0 hilen hpne
      rw [hlen2] at hilen
      rw [harr2node i hilen, harr2node ((i-1)/2) (by omega),
        if_neg (show ¬ i = 0 by omega), if_neg (show ¬ (i-1)/2 = 0 from hpne)]
      exact hord i hi0 (by omega)
    · intro h00
      exact absurd h00 (lt_irrefl 0)
  obtain ⟨hcR, hpermR, hordR⟩ := minHeapify_spec n ⟨arr2, pos1⟩ 0 hc2 hOK2
  have hgetlast : (h.arr.set 0 last)[h.arr.length - 1]? = some last := by
    have hlt : h.arr.length - 1 < (h.arr.set 0 last).length := by
      simp only [List.length_set]
      omega
    rw [List.getElem?_eq_getElem hlt, ← nodeAt_eq_getElem _ _ hlt]
    congr 1
    rw [nodeAt, getD_set_cases]
    by_cases h0 : h.arr.length - 1 = 0
    · rw [if_pos ⟨h0.symm, h0lt⟩]
    · rw [if_neg (fun hcc => h0 hcc.1.symm)]
      exact hlast.symm
  have hsplit : arr2 ++ [last] = h.arr.set 0 last := by
    have h1 : h.arr.length - 1 + 1 = h.arr.length := by omega
    have h2 : (h.arr.set 0 last).take (h.arr.length - 1 + 1) =
        (h.arr.set 0 last).take (h.arr.length - 1) ++
          ((h.arr.set 0 last)[h.arr.length - 1]?).toList := List.take_succ
    have h3 : (h.arr.set 0 last).take (h.arr.length - 1 + 1) = h.arr.set 0 last := by
      rw [h1, show h.arr.length = (h.arr.set 0 last).length by
        simp only [List.length_set]]
      exact List.take_length _
    rw [harr2]
    conv_rhs => rw [← h3, h2, hgetlast]
    rfl
  have hperm2 : ((root : HeapNode) :: arr2).Perm h.arr := by
    have hA : (root :: (arr2 ++ [last])).Perm (last :: h.arr) := by
      rw [hsplit, hroot]
      have hcs := cons_set_perm h.arr 0 h0lt last
      rw [← nodeAt_eq_getElem h.arr 0 h0lt] at hcs
      exact hcs
    have hcomm : ([last] ++ (root :: arr2)).Perm ((root :: arr2) ++ [last]) :=
      List.perm_append_comm
    have hB : (last :: (root :: arr2)).Perm (last :: h.arr) := hcomm.trans hA
    exact hB.cons_inv
  have hpresence : ∀ w, w < n →
      (posAt (minHeapify ⟨arr2, pos1⟩ 0).pos w ≠ -1 ↔
        (posAt h.pos w ≠ -1 ∧ w ≠ root.v)) := by
    intro w hw
    rw [(consistent_perm_transport hc2 hcR hpermR w hw).1, hpos1At w]
    by_cases hwr : w = root.v
    · rw [if_pos hwr]
      constructor
      · intro hh
        exact absurd rfl hh
      · rintro ⟨_, hh⟩
        exact absurd hwr hh
    · rw [if_neg hwr]
      by_cases hwl : w = last.v
      · rw [if_pos hwl]
        constructor
        · intro _
          refine ⟨?_, hwr⟩
          rw [hwl, hlastpos]
          intro hEq
          have h9 : (0:Int) ≤ Int.ofNat (h.arr.length - 1) := Int.ofNat_nonneg _
          rw [hEq] at h9
          norm_num at h9
        · intro _
          omega
      · rw [if_neg hwl]
        exact ⟨fun hh => ⟨hh, hwr⟩, fun hh => hh.1⟩
  have hdist : ∀ w, w < n → w ≠ root.v → posAt h.pos w ≠ -1 →
      lookDist (minHeapify ⟨arr2, pos1⟩ 0).arr (minHeapify ⟨arr2, pos1⟩ 0).pos w =
        lookDist h.arr h.pos w := by
    intro w hw hwr hwp
    have hmem : (⟨w, lookDist h.arr h.pos w⟩ : HeapNode) ∈ h.arr :=
      present_node hc w hw hwp
    have hnotroot : (⟨w, lookDist h.arr h.pos w⟩ : HeapNode) ≠ root := by
      intro hEq
      exact hwr (by rw [← hEq])
    have hmem2 : (⟨w, lookDist h.arr h.pos w⟩ : HeapNode) ∈ arr2 := by
      rcases List.mem_cons.mp ((hperm2.mem_iff).mpr hmem) with hh | hh
      · exact absurd hh hnotroot
      · exact hh
    have hq1 : lookDist h.arr h.pos w = lookDist arr2 pos1 w :=
      dist_unique hc2 w ⟨w, lookDist h.arr h.pos w⟩ hmem2 rfl
    have hpres1 : posAt pos1 w ≠ -1 := by
      rw [hpos1At w, if_neg hwr]
      by_cases hwl : w = last.v
      · rw [if_pos hwl]
        omega
      · rw [if_neg hwl]
        exact hwp
    have hq2 := (consistent_perm_transport hc2 hcR hpermR w hw).2 hpres1
    rw [hq2, ← hq1]
  have hmin : ∀ x ∈ h.arr, root.dist ≤ x.dist := by
    intro x hx
    obtain ⟨i, hi, hxi⟩ := List.getElem_of_mem hx
    have hro := heapOrdered_root_le hord i hi
    rw [nodeAt_eq_getElem h.arr i hi, hxi] at hro
    exact hro
  exact ⟨rfl, hmin, hcR, hordR, (hpermR.cons root).trans hperm2, hpresence, hdist⟩

end HeapVerification

section Dijkstra

/-- The mutable state threaded through the main loop of `dijkstra`:
the heap plus the `dist[]` and `parent[]` arrays. -/
structure DState where
  heap : MinHeap
  dist : List Int
  parent : List Int

/-- Heap construction inside `dijkstra`: one node per vertex, all at `INF`,
inserted in id order, with `pos[v] = v`. -/
def mkHeap (n : Nat) : MinHeap :=
  ⟨(List.range n).map fun v => ⟨v, INF⟩, (List.range n).map fun v => Int.ofNat v⟩

/-- The `dist[src] = 0` initialisation:
`h->arr[h->pos[src]]->dist = 0; decreaseKey(h, src, 0);`. -/
def dijkstraInit (n : Nat) (src : Nat) : MinHeap :=
  let h := mkHeap n
  let i0 := (posAt h.pos src).toNat
  let arr1 := h.arr.set i0 { nodeAt h.arr i0 with dist := 0 }
  decreaseKey ⟨arr1, h.pos⟩ src 0

/-- Body of the neighbour loop in `dijkstra`: relax one adjacency entry of
the extracted vertex `u`.  (The C null check `h->arr[idx]` cannot fail in
the model, where live array slots always hold a node.) -/
def relaxStep (g : Graph) (u : Nat) (st : DState) (e : Edge) : DState :=
  let v := e.dst
  let w := e.weight
  if posAt st.heap.pos v ≠ -1 then
    let newDist := st.dist.getD u 0 + w + getWaitingTime (g.lights v) (st.dist.getD u 0 + w)
    if newDist < st.dist.getD v 0 then
      let dist1 := st.dist.set v newDist
      let parent1 := st.parent.set v (Int.ofNat u)
      let idx := posAt st.heap.pos v
      if idx ≠ -1 then
        let arr1 := st.heap.arr.set idx.toNat { nodeAt st.heap.arr idx.toNat with dist := newDist }
        ⟨decreaseKey ⟨arr1, st.heap.pos⟩ v newDist, dist1, parent1⟩
      else ⟨st.heap, dist1, parent1⟩
    else st
  else st

/-- The full neighbour loop `while (p) { ... p = p->next; }`. -/
def relaxAll (g : Graph) (u : Nat) (st : DState) : DState :=
  (g.adj u).foldl (relaxStep g u) st

theorem relaxStep_heap_arr_length (g : Graph) (u : Nat) (st : DState) (e : Edge) :
    (relaxStep g u st e).heap.arr.length = st.heap.arr.length := by
  unfold relaxStep
  dsimp only
  repeat' split
  all_goals simp [decreaseKey_arr_length, List.length_set]

theorem relaxStep_heap_pos_length (g : Graph) (u : Nat) (st : DState) (e : Edge) :
    (relaxStep g u st e).heap.pos.length = st.heap.pos.length := by
  unfold relaxStep
  dsimp only
  repeat' split
  all_goals simp [decreaseKey_pos_length]

theorem relaxAll_heap_arr_length (g : Graph) (u : Nat) (st : DState) :
    (relaxAll g u st).heap.arr.length = st.heap.arr.length := by
  unfold relaxAll
  induction g.adj u generalizing st with
  | nil => rfl
  | cons e es ih => rw [List.foldl_cons, ih, relaxStep_heap_arr_length]

/-- The main `while (!isEmpty(h))` loop; returns the final `dist[]` and
`parent[]` arrays.  On a non-empty heap `extractMin` returns the root
`arr[0]`, so the extracted node is spelled `nodeAt st.heap.arr 0` here and
the two `break` tests follow. -/
def dijkstraLoop (g : Graph) (dest : Nat) (st : DState) : List Int × List Int :=
  if hlen : st.heap.arr.length = 0 then (st.dist, st.parent)
  else
    let root := nodeAt st.heap.arr 0
    let h1 := (extractMin st.heap).2
    if root.dist = INF then (st.dist, st.parent)
    else if root.v = dest then (st.dist, st.parent)
    else
      dijkstraLoop g dest (relaxAll g root.v ⟨h1, st.dist, st.parent⟩)
termination_by st.heap.arr.length
decreasing_by
  rw [relaxAll_heap_arr_length]
  simp only
  rw [extractMin_snd_arr_length st.heap hlen]
  omega

/-- Path reconstruction `for (v = dest; v != -1; v = parent[v])` followed by
the reversal into forward order; the fuel argument mirrors the `path[MAX]`
capacity bound (never exhausted in verified runs). -/
def pathTo (parent : List Int) : Nat → Int → List Nat → List Nat
  | 0, _, acc => acc
  | fuel+1, v, acc =>
      if v = -1 then acc
      else pathTo parent fuel (parent.getD v.toNat (-1)) (v.toNat :: acc)

/-- `js_escape_name`: replace quote and backslash by apostrophe, truncated
to the 63 characters that fit the C buffer. -/
def jsEscapeName (s : String) : String :=
  String.mk ((s.toList.take 63).map fun ch => if ch = '"' ∨ ch = '\\' then '\'' else ch)

/-- The data embedded into the HTML document written by `exportLeafletMap`:
the `nodes` array, the `edges` array (each undirected road once, `u < v`),
and the highlighted shortest-path vertex list `sp`. -/
structure LeafletDoc where
  nodes : List (Nat × String × ℚ × ℚ)
  edges : List (Nat × Nat × Int)
  sp : List Nat
deriving DecidableEq, Repr

/-- `exportLeafletMap` as a pure function from the graph and the path
argument to the document data. -/
def exportLeafletMap (g : Graph) (path : List Nat) : LeafletDoc :=
  { nodes := (List.range g.vertices).map fun i => (i, jsEscapeName (g.names i), g.lat i, g.lon i)
  , edges := (List.range g.vertices).flatMap fun u =>
      (g.adj u).filterMap fun e => if u < e.dst then some (u, e.dst, e.weight) else none
  , sp := path }

/-- Outcome of one `dijkstra` call: the index-validation error, the
"No path found" branch, or the found distance with the printed path;
either way the Leaflet map written at the end is carried along. -/
inductive DijkstraResult where
  | invalid
  | noPath (map : LeafletDoc)
  | found (d : Int) (path : List Nat) (map : LeafletDoc)
deriving DecidableEq, Repr

/-- `dijkstra(g, src, dest)`. -/
def dijkstra (g : Graph) (src dest : Int) : DijkstraResult :=
  let n := g.vertices
  if src < 0 ∨ (n : Int) ≤ src ∨ dest < 0 ∨ (n : Int) ≤ dest then .invalid
  else
    let s := src.toNat
    let t := dest.toNat
    let dist0 := (List.replicate n INF).set s 0
    let parent0 := List.replicate n (-1 : Int)
    let res := dijkstraLoop g t ⟨dijkstraInit n s, dist0, parent0⟩
    if res.1.getD t 0 = INF then
      .noPath (exportLeafletMap g [])
    else
      let fwd := pathTo res.2 MAX (Int.ofNat t) []
      .found (res.1.getD t 0) fwd (exportLeafletMap g fwd)

end Dijkstra

section Snapshot

/-- A whitespace-separated token of the snapshot text file.  `fprintf`
writes one token per `%s`/`%d`/`%.6f` directive and `fscanf` reads them
back; names never contain whitespace (they are read with `%19s`), so the
token stream is a faithful view of the file.  A `num` token is a `%.6f`
rendering of a C `double`, modelled as the rational it denotes. -/
inductive Tok where
  | int (n : Int)
  | str (s : String)
  | num (q : ℚ)
deriving DecidableEq, Repr

/-- Rounding performed by printing a coordinate with `%.6f`: the written
token denotes the nearest multiple of `10⁻⁶`. -/
def round6 (q : ℚ) : ℚ := (round (q * 1000000) : ℚ) / 1000000

/-- The undirected edge list collected by `saveGraphToFile`,
`writeGraphViz` and `exportLeafletMap` (three textually identical loops in
the C file): every adjacency entry with `u < p->to`, scanned in vertex
order. -/
def edgeTriples (g : Graph) : List (Nat × Nat × Int) :=
  (List.range g.vertices).flatMap fun u =>
    (g.adj u).filterMap fun e => if u < e.dst then some (u, e.dst, e.weight) else none

/-- The junction line `fprintf(fp, "%s %d %d %d %.6f %.6f\n", ...)`. -/
def jtoks (g : Graph) (i : Nat) : List Tok :=
  [Tok.str (g.names i), Tok.int (g.lights i).red, Tok.int (g.lights i).green,
   Tok.int (g.lights i).yellow, Tok.num (round6 (g.lat i)), Tok.num (round6 (g.lon i))]

/-- The edge line `fprintf(fp, "%d %d %d\n", u, p->to, p->weight)`. -/
def etoks (t : Nat × Nat × Int) : List Tok :=
  [Tok.int t.1, Tok.int t.2.1, Tok.int t.2.2]

/-- `saveGraphToFile` as a token stream: vertex count, one line of six
tokens per junction, edge count, one line of three tokens per edge. -/
def saveGraphToFile (g : Graph) : List Tok :=
  Tok.int g.vertices ::
  ((List.range g.vertices).flatMap (jtoks g))
  ++ Tok.int (edgeTriples g).length :: ((edgeTriples g).flatMap etoks)

/-- What `%19s` stores from a token (any token text can be read as a
string; numbers render in their printed form). -/
def tokStr : Tok → String
  | .str s => s
  | .int n => toString n
  | .num q => toString q

/-- What `%lf` accepts: a numeric token. -/
def tokNum : Tok → Option ℚ
  | .num q => some q
  | .int n => some (n : ℚ)
  | .str _ => none

/-- One junction line read by
`fscanf(fp, "%19s %d %d %d %lf %lf", ...) == 6`. -/
def readJunction : List Tok → Option ((String × Int × Int × Int × ℚ × ℚ) × List Tok)
  | t1 :: .int r :: .int gr :: .int y :: t5 :: t6 :: rest =>
    match tokNum t5, tokNum t6 with
    | some la, some lo => some (((tokStr t1).take 19, r, gr, y, la, lo), rest)
    | _, _ => none
  | _ => none

/-- The junction-reading loop of `loadGraphFromFile`.  When the six-token
read fails the C code re-parses lines with `fgets`/`sscanf` and otherwise
falls back to a synthetic junction (`"J%d"`, phase 10/5/2, coordinates 0);
the line-oriented legacy fallback is not representable at token level, so a
failed read is modelled directly as that synthetic-default branch.  Claims
only exercise streams produced by `saveGraphToFile`, where every read
succeeds. -/
def loadJunctions (g : Graph) (i : Nat) : Nat → List Tok → Graph × List Tok
  | 0, toks => (g, toks)
  | c+1, toks =>
    match readJunction toks with
    | some ((nm, r, gr, y, la, lo), rest) =>
        loadJunctions
          { g with names := Function.update g.names i nm
                 , lights := Function.update g.lights i ⟨r, gr, y⟩
                 , lat := Function.update g.lat i la
                 , lon := Function.update g.lon i lo } (i+1) c rest
    | none =>
        loadJunctions
          { g with names := Function.update g.names i ("J" ++ toString i)
                 , lights := Function.update g.lights i ⟨10, 5, 2⟩
                 , lat := Function.update g.lat i 0
                 , lon := Function.update g.lon i 0 } (i+1) c toks

/-- The edge-reading loop of `loadGraphFromFile`: each `u v w` line is
inserted in both directions without validation; a failed three-token read
breaks the loop. -/
def loadEdges (g : Graph) : Nat → List Tok → Graph
  | 0, _ => g
  | c+1, .int u :: .int v :: .int w :: rest =>
      loadEdges (insertBoth g u.toNat v.toNat w) c rest
  | _+1, _ => g

/-- `loadGraphFromFile` on an existing file's token stream (a missing file
or an unreadable vertex count resets to the empty graph). -/
def loadGraphFromFile (g : Graph) (toks : List Tok) : Graph :=
  match toks with
  | .int v :: rest =>
      let gr := loadJunctions { initGraph g with vertices := v.toNat } 0 v.toNat rest
      match gr.2 with
      | .int e :: rest2 => loadEdges gr.1 e.toNat rest2
      | _ => gr.1
  | _ => initGraph g

/-- The multiset of undirected edges of a graph, for order-independent
comparison: every adjacency entry `u → e` with `u ≤ e.dst` (for the
symmetric graphs built by `addEdge`/`loadGraphFromFile` that is one
representative per stored direction pair, and it keeps self-loops). -/
def undirEdges (g : Graph) : Multiset ((Nat × Nat) × Int) :=
  ∑ u ∈ Finset.range g.vertices,
    (((g.adj u).filterMap fun e =>
      if u ≤ e.dst then some ((u, e.dst), e.weight) else none : List _) : Multiset _)

end Snapshot

section Walks

/-- `IsWalkFrom g u es d`: the edge list `es` is a walk in `g` from `u` to
`d`, each step using an entry of the adjacency list of its source. -/
def IsWalkFrom (g : Graph) : Nat → List Edge → Nat → Prop
  | u, [], d => u = d
  | u, e :: es, d => e ∈ g.adj u ∧ IsWalkFrom g e.dst es d

instance instDecIsWalkFrom (g : Graph) (u : Nat) (es : List Edge) (d : Nat) :
    Decidable (IsWalkFrom g u es d) :=
  match es with
  | [] => decidable_of_iff (u = d) (by simp [IsWalkFrom])
  | e :: es =>
    have := instDecIsWalkFrom g e.dst es d
    decidable_of_iff (e ∈ g.adj u ∧ IsWalkFrom g e.dst es d) (by simp [IsWalkFrom])

/-- Arrival time after taking edge `e` having reached its source at time
`t`: the relaxation formula `dist[u] + w + getWaitingTime(lights[v], dist[u] + w)`. -/
def stepTime (g : Graph) (t : Int) (e : Edge) : Int :=
  t + e.weight + getWaitingTime (g.lights e.dst) (t + e.weight)

/-- Arrival time at the end of a walk started at time `t`. -/
def walkTimeFrom (g : Graph) (t : Int) (es : List Edge) : Int :=
  es.foldl (stepTime g) t

/-- Cost of a walk from the source (start time 0): the sum of edge base
weights plus the waiting time at each entered junction, accumulated
edge-by-edge. -/
def walkTime (g : Graph) (es : List Edge) : Int := walkTimeFrom g 0 es

/-- The vertices visited by a walk starting at `u`. -/
def walkVerts (u : Nat) (es : List Edge) : List Nat := u :: es.map (·.dst)

/-- A simple path: a walk visiting no vertex twice. -/
def IsSimplePath (g : Graph) (u : Nat) (es : List Edge) (d : Nat) : Prop :=
  IsWalkFrom g u es d ∧ (walkVerts u es).Nodup

instance (g : Graph) (u : Nat) (es : List Edge) (d : Nat) :
    Decidable (IsSimplePath g u es d) := by
  unfold IsSimplePath
  infer_instance

/-- All adjacency entries point below `vertices`, and the graph fits the
fixed arrays: what every graph reachable through `addEdge` satisfies. -/
def WellFormed (g : Graph) : Prop :=
  g.vertices ≤ MAX ∧ ∀ u < g.vertices, ∀ e ∈ g.adj u, e.dst < g.vertices

/-- All edge weights are non-negative. -/
def NonnegWeights (g : Graph) : Prop :=
  ∀ u < g.vertices, ∀ e ∈ g.adj u, 0 ≤ e.weight

/-- All signal phase durations are non-negative. -/
def NonnegLights (g : Graph) : Prop :=
  ∀ v < g.vertices, 0 ≤ (g.lights v).red ∧ 0 ≤ (g.lights v).green ∧ 0 ≤ (g.lights v).yellow

end Walks

section HeapClosure

/-- Entries of the heap array after `minHeapify` come from the old array
(up to the default node read by a hypothetical out-of-range access). -/
theorem minHeapify_arr_mem (h : MinHeap) (idx : Nat) :
    ∀ x ∈ (minHeapify h idx).arr, x ∈ h.arr ∨ x = default := by
  rw [minHeapify]
  split
  · intro x hx
    have ih := minHeapify_arr_mem _ _ x hx
    simp only [swapPieces] at ih
    rcases ih with hmem | hdef
    · rcases List.mem_or_eq_of_mem_set hmem with hmem2 | rfl
      · rcases List.mem_or_eq_of_mem_set hmem2 with hmem3 | rfl
        · exact Or.inl hmem3
        · exact nodeAt_mem_or_default _ _
      · exact nodeAt_mem_or_default _ _
    · exact Or.inr hdef
  · intro x hx
    exact Or.inl hx
termination_by h.arr.length - idx
decreasing_by
  rename_i hne
  have := smallestIdx_ne h.arr idx hne
  simp only [swapPieces, List.length_set]
  omega

theorem siftUp_arr_mem (arr : List HeapNode) (pos : List Int) (i : Nat) :
    ∀ x ∈ (siftUp arr pos i).1, x ∈ arr ∨ x = default := by
  rw [siftUp]
  split
  · intro x hx
    have ih := siftUp_arr_mem _ _ _ x hx
    simp only [swapPieces] at ih
    rcases ih with hmem | hdef
    · rcases List.mem_or_eq_of_mem_set hmem with hmem2 | rfl
      · rcases List.mem_or_eq_of_mem_set hmem2 with hmem3 | rfl
        · exact Or.inl hmem3
        · exact nodeAt_mem_or_default _ _
      · exact nodeAt_mem_or_default _ _
    · exact Or.inr hdef
  · intro x hx
    exact Or.inl hx
termination_by i
decreasing_by omega

/-- Vertex ids stored in the heap survive `decreaseKey` (only a distance
field is rewritten). -/
theorem decreaseKey_verts (h : MinHeap) (v : Nat) (d : Int) (p : Nat → Prop)
    (hp : ∀ x ∈ h.arr, p x.v) (h0 : p (default : HeapNode).v) :
    ∀ x ∈ (decreaseKey h v d).arr, p x.v := by
  unfold decreaseKey
  dsimp only
  split
  · exact hp
  · intro x hx
    rcases siftUp_arr_mem _ _ _ x hx with hmem | rfl
    · rcases List.mem_or_eq_of_mem_set hmem with hmem2 | rfl
      · exact hp x hmem2
      · rcases nodeAt_mem_or_default h.arr (posAt h.pos v).toNat with hm | hd
        · exact hp (nodeAt h.arr (posAt h.pos v).toNat) hm
        · rw [hd]; exact h0
    · exact h0

theorem minHeapify_verts (h : MinHeap) (idx : Nat) (p : Nat → Prop)
    (hp : ∀ x ∈ h.arr, p x.v) (h0 : p (default : HeapNode).v) :
    ∀ x ∈ (minHeapify h idx).arr, p x.v := by
  intro x hx
  rcases minHeapify_arr_mem h idx x hx with hm | rfl
  · exact hp x hm
  · exact h0

theorem extractMin_verts (h : MinHeap) (root : HeapNode) (h1 : MinHeap)
    (hE : extractMin h = (some root, h1)) (p : Nat → Prop)
    (hp : ∀ x ∈ h.arr, p x.v) (h0 : p (default : HeapNode).v) :
    p root.v ∧ ∀ x ∈ h1.arr, p x.v := by
  unfold extractMin at hE
  split at hE
  · simp at hE
  · rename_i hnz
    simp only [Prod.mk.injEq, Option.some.injEq] at hE
    constructor
    · rw [← hE.1]
      rcases nodeAt_mem_or_default h.arr 0 with hm | hd
      · exact hp _ hm
      · rw [hd]; exact h0
    · intro x hx
      rw [← hE.2] at hx
      refine minHeapify_verts _ _ p ?_ h0 x hx
      intro y hy
      rcases List.mem_or_eq_of_mem_set (List.mem_of_mem_take hy) with hm | rfl
      · exact hp y hm
      · rcases nodeAt_mem_or_default h.arr (h.arr.length - 1) with hm | hd
        · exact hp _ hm
        · rw [hd]; exact h0

theorem relaxStep_verts (g : Graph) (u : Nat) (st : DState) (e : Edge) (p : Nat → Prop)
    (hp : ∀ x ∈ st.heap.arr, p x.v) (h0 : p (default : HeapNode).v) :
    ∀ x ∈ (relaxStep g u st e).heap.arr, p x.v := by
  unfold relaxStep
  dsimp only
  split
  · split
    · refine decreaseKey_verts _ _ _ p ?_ h0
      intro x hx
      rcases List.mem_or_eq_of_mem_set hx with hm | rfl
      · exact hp x hm
      · rcases nodeAt_mem_or_default st.heap.arr (posAt st.heap.pos e.dst).toNat with hm | hd
        · exact hp (nodeAt st.heap.arr (posAt st.heap.pos e.dst).toNat) hm
        · rw [hd]; exact h0
    · exact hp
  · exact hp

theorem relaxAll_verts (g : Graph) (u : Nat) (st : DState) (p : Nat → Prop)
    (hp : ∀ x ∈ st.heap.arr, p x.v) (h0 : p (default : HeapNode).v) :
    ∀ x ∈ (relaxAll g u st).heap.arr, p x.v := by
  unfold relaxAll
  induction g.adj u generalizing st with
  | nil => exact hp
  | cons e es ih =>
    rw [List.foldl_cons]
    exact ih _ (relaxStep_verts g u st e p hp h0)

end HeapClosure

section LoopInvariant

/-- Entries of the heap returned by `extractMin` come from the old array. -/
theorem extractMin_snd_verts (h : MinHeap) (p : Nat → Prop)
    (hp : ∀ x ∈ h.arr, p x.v) (h0 : p (default : HeapNode).v) :
    ∀ x ∈ (extractMin h).2.arr, p x.v := by
  unfold extractMin
  split
  · exact hp
  · dsimp only
    refine minHeapify_verts _ _ p ?_ h0
    intro y hy
    rcases List.mem_or_eq_of_mem_set (List.mem_of_mem_take hy) with hm | rfl
    · exact hp y hm
    · rcases nodeAt_mem_or_default h.arr (h.arr.length - 1) with hm | hd
      · exact hp (nodeAt h.arr (h.arr.length - 1)) hm
      · rw [hd]; exact h0

/-- Case analysis of one relaxation step: either nothing was written, or
the guard held and `dist[v]`, `parent[v]` were overwritten with the new
candidate distance. -/
theorem relaxStep_cases (g : Graph) (u : Nat) (st : DState) (e : Edge) :
    ((relaxStep g u st e).dist = st.dist ∧ (relaxStep g u st e).parent = st.parent ∧
      (relaxStep g u st e).heap = st.heap) ∨
    (posAt st.heap.pos e.dst ≠ -1 ∧
      st.dist.getD u 0 + e.weight +
        getWaitingTime (g.lights e.dst) (st.dist.getD u 0 + e.weight) < st.dist.getD e.dst 0 ∧
      (relaxStep g u st e).dist = st.dist.set e.dst (st.dist.getD u 0 + e.weight +
        getWaitingTime (g.lights e.dst) (st.dist.getD u 0 + e.weight)) ∧
      (relaxStep g u st e).parent = st.parent.set e.dst (Int.ofNat u)) := by
  unfold relaxStep
  dsimp only
  split
  · split
    · rename_i hpos hupd
      exact Or.inr ⟨hpos, hupd, rfl, rfl⟩
    · exact Or.inl ⟨rfl, rfl, rfl⟩
  · exact Or.inl ⟨rfl, rfl, rfl⟩

/-- Invariance scheme for the relaxation inner loop. -/
theorem relaxAll_inv (g : Graph) (u : Nat) (Q : DState → Prop)
    (hstep : ∀ st e, e ∈ g.adj u → Q st → Q (relaxStep g u st e)) :
    ∀ st, Q st → Q (relaxAll g u st) := by
  unfold relaxAll
  suffices h : ∀ l : List Edge, (∀ e ∈ l, e ∈ g.adj u) → ∀ st, Q st →
      Q (l.foldl (relaxStep g u) st) from
    fun st hQ => h (g.adj u) (fun _ he => he) st hQ
  intro l hl
  induction l with
  | nil => exact fun st hQ => hQ
  | cons e es ih =>
    intro st hQ
    rw [List.foldl_cons]
    exact ih (fun f hf => hl f (List.mem_cons_of_mem e hf)) _
      (hstep st e (hl e (List.mem_cons_self e es)) hQ)

/-- Invariance scheme for the main loop of `dijkstra`: any predicate
preserved by a full relaxation round holds in some state producing the
loop's result. -/
theorem dijkstraLoop_inv (g : Graph) (dest : Nat) (P : DState → Prop)
    (hstep : ∀ st, st.heap.arr.length ≠ 0 →
      (nodeAt st.heap.arr 0).dist ≠ INF → (nodeAt st.heap.arr 0).v ≠ dest → P st →
      P (relaxAll g (nodeAt st.heap.arr 0).v ⟨(extractMin st.heap).2, st.dist, st.parent⟩))
    (st : DState) (hP : P st) :
    ∃ st', P st' ∧ dijkstraLoop g dest st = (st'.dist, st'.parent) := by
  rw [dijkstraLoop]
  split
  · exact ⟨st, hP, rfl⟩
  · rename_i hlen
    dsimp only
    split
    · exact ⟨st, hP, rfl⟩
    · split
      · exact ⟨st, hP, rfl⟩
      · rename_i hINF hdest
        exact dijkstraLoop_inv g dest P hstep _ (hstep st hlen hINF hdest hP)
termination_by st.heap.arr.length
decreasing_by
  rw [relaxAll_heap_arr_length]
  simp only
  rw [extractMin_snd_arr_length st.heap (by assumption)]
  omega

end LoopInvariant

section HeapOps

theorem mkHeap_nodeAt (n i : Nat) (hi : i < n) :
    nodeAt (mkHeap n).arr i = ⟨i, INF⟩ := by
  show nodeAt ((List.range n).map fun v => ⟨v, INF⟩) i = _
  rw [nodeAt, List.getD_eq_getElem?_getD, List.getElem?_map, List.getElem?_range hi]
  rfl

theorem mkHeap_posAt (n w : Nat) :
    posAt (mkHeap n).pos w = if w < n then Int.ofNat w else -1 := by
  show posAt ((List.range n).map fun v => Int.ofNat v) w = _
  rw [posAt, List.getD_eq_getElem?_getD]
  by_cases hw : w < n
  · rw [List.getElem?_map, List.getElem?_range hw, if_pos hw]
    rfl
  · have hnone : ((List.range n).map fun v => Int.ofNat v)[w]? = none := by
      rw [List.getElem?_eq_none]
      simp
      omega
    rw [hnone, if_neg hw]
    rfl

theorem mkHeap_arr_length (n : Nat) : (mkHeap n).arr.length = n := by
  show ((List.range n).map _).length = n
  simp

/-- The freshly built heap has one entry per junction, with `pos[v] = v`. -/
theorem mkHeap_consistent (n : Nat) :
    PosConsistent n (mkHeap n).arr (mkHeap n).pos := by
  refine ⟨?_, ?_, ?_, ?_, ?_⟩
  · show ((List.range n).map _).length = n
    simp
  · rw [mkHeap_arr_length]
  · intro i hi
    rw [mkHeap_arr_length] at hi
    rw [mkHeap_nodeAt n i hi]
    exact hi
  · intro i hi
    rw [mkHeap_arr_length] at hi
    rw [mkHeap_nodeAt n i hi, mkHeap_posAt,
      if_pos (show (⟨i, INF⟩ : HeapNode).v < n from hi)]
  · intro v hv habs
    rw [mkHeap_arr_length] at habs
    exact absurd (by rw [mkHeap_nodeAt n v hv]) (habs v hv)

theorem mkHeap_ordered (n : Nat) : HeapOrdered (mkHeap n).arr := by
  intro i hi0 hi
  rw [mkHeap_arr_length] at hi
  rw [mkHeap_nodeAt n i hi, mkHeap_nodeAt n ((i-1)/2) (by omega)]

/-- One heap operation as issued by `dijkstra`: a `decreaseKey` call or an
`extractMin` call. -/
inductive HeapOp where
  | dec (v : Nat) (d : Int)
  | ext
deriving DecidableEq

def applyOp (h : MinHeap) : HeapOp → MinHeap
  | .dec v d => decreaseKey h v d
  | .ext => (extractMin h).2

def applyOps (h : MinHeap) : List HeapOp → MinHeap
  | [] => h
  | op :: ops => applyOps (applyOp h op) ops

/-- The caller's precondition for each `decreaseKey` call: the new
distance does not exceed the stored one (in `dijkstra` every call is
guarded by `newDist < dist[v]`). -/
def ValidOps (h : MinHeap) : List HeapOp → Prop
  | [] => True
  | .dec v d :: ops =>
      (posAt h.pos v ≠ -1 → d ≤ lookDist h.arr h.pos v) ∧
      ValidOps (applyOp h (.dec v d)) ops
  | .ext :: ops => ValidOps (applyOp h .ext) ops

def decValidOps (h : MinHeap) : (ops : List HeapOp) → Decidable (ValidOps h ops)
  | [] => .isTrue trivial
  | .dec v d :: ops =>
      haveI : Decidable (ValidOps (applyOp h (.dec v d)) ops) := decValidOps _ ops
      inferInstanceAs (Decidable (_ ∧ _))
  | .ext :: ops => decValidOps (applyOp h .ext) ops

instance (h : MinHeap) (ops : List HeapOp) : Decidable (ValidOps h ops) :=
  decValidOps h ops

/-- The vertices returned by the `extractMin` calls of the sequence, in
order. -/
def extractedAfter (h : MinHeap) : List HeapOp → List Nat
  | [] => []
  | .dec v d :: ops => extractedAfter (applyOp h (.dec v d)) ops
  | .ext :: ops =>
      (if h.arr.length = 0 then [] else [(nodeAt h.arr 0).v]) ++
        extractedAfter (applyOp h .ext) ops

theorem extractMin_empty (h : MinHeap) (h0 : h.arr.length = 0) :
    (extractMin h).2 = h := by
  unfold extractMin
  rw [if_pos h0]

/-- The master induction: along any valid operation sequence the state
stays consistent and heap-ordered, and a vertex is absent from the
position index exactly when it has been extracted. -/
theorem applyOps_inv (n : Nat) :
    ∀ (ops : List HeapOp) (h : MinHeap) (ex : List Nat),
      PosConsistent n h.arr h.pos → HeapOrdered h.arr →
      (∀ v, v < n → (posAt h.pos v = -1 ↔ v ∈ ex)) →
      ValidOps h ops →
      PosConsistent n (applyOps h ops).arr (applyOps h ops).pos ∧
      HeapOrdered (applyOps h ops).arr ∧
      (∀ v, v < n →
        (posAt (applyOps h ops).pos v = -1 ↔
          v ∈ ex ++ extractedAfter h ops)) := by
  intro ops
  induction ops with
  | nil =>
    intro h ex hc hord hex _
    refine ⟨hc, hord, ?_⟩
    intro v hv
    have hnil : ex ++ extractedAfter h [] = ex := by
      rw [show extractedAfter h [] = [] from rfl, List.append_nil]
    rw [hnil]
    exact hex v hv
  | cons op ops ih =>
    intro h ex hc hord hex hval
    cases op with
    | dec v d =>
      obtain ⟨hpre, hval'⟩ := hval
      obtain ⟨hc', hord', hiff, _, _⟩ := decreaseKey_spec n h v d hc hord hpre
      have hstep : ∀ w, w < n →
          (posAt (decreaseKey h v d).pos w = -1 ↔ w ∈ ex) := by
        intro w hw
        exact (not_iff_not.mp (hiff w hw)).trans (hex w hw)
      exact ih (decreaseKey h v d) ex hc' hord' hstep hval'
    | ext =>
      have hval' : ValidOps (applyOp h .ext) ops := hval
      by_cases h0 : h.arr.length = 0
      · have hE : applyOp h .ext = h := extractMin_empty h h0
        obtain ⟨a1, a2, a3⟩ := ih (applyOp h .ext) ex (by rw [hE]; exact hc)
          (by rw [hE]; exact hord) (by rw [hE]; exact hex) hval'
        refine ⟨a1, a2, ?_⟩
        intro w hw
        have hEx2 : extractedAfter h (.ext :: ops) =
            extractedAfter (applyOp h .ext) ops := by
          show (if h.arr.length = 0 then [] else [(nodeAt h.arr 0).v]) ++ _ = _
          rw [if_pos h0]
          rfl
        rw [hEx2]
        exact a3 w hw
      · obtain ⟨hfst, hmin, hc', hord', hperm, hpres, hdistu⟩ :=
          extractMin_spec n h hc hord h0
        have hstep : ∀ w, w < n →
            (posAt (extractMin h).2.pos w = -1 ↔
              w ∈ ex ++ [(nodeAt h.arr 0).v]) := by
          intro w hw
          have hiff := hpres w hw
          constructor
          · intro hminus
            by_cases hwr : w = (nodeAt h.arr 0).v
            · rw [List.mem_append]
              exact Or.inr (by rw [hwr]; exact List.mem_singleton_self _)
            · have hnot : ¬ (posAt h.pos w ≠ -1 ∧ w ≠ (nodeAt h.arr 0).v) := by
                rw [← hiff]
                exact fun hcc => hcc hminus
              push_neg at hnot
              have h3 : posAt h.pos w = -1 := by
                by_contra hcc
                exact hwr (hnot hcc)
              rw [List.mem_append]
              exact Or.inl ((hex w hw).mp h3)
          · intro hmem
            rw [List.mem_append] at hmem
            by_contra hcc
            have h4 := hiff.mp hcc
            rcases hmem with hmem | hmem
            · exact h4.1 ((hex w hw).mpr hmem)
            · exact h4.2 (by simpa using hmem)
        obtain ⟨a1, a2, a3⟩ := ih (applyOp h .ext) (ex ++ [(nodeAt h.arr 0).v])
          hc' hord' hstep hval'
        refine ⟨a1, a2, ?_⟩
        intro w hw
        have hEx2 : extractedAfter h (.ext :: ops) =
            (nodeAt h.arr 0).v :: extractedAfter (applyOp h .ext) ops := by
          show (if h.arr.length = 0 then [] else [(nodeAt h.arr 0).v]) ++ _ = _
          rw [if_neg h0]
          rfl
        rw [hEx2]
        have ha3 := a3 w hw
        rw [List.append_assoc] at ha3
        exact ha3

end HeapOps

section WalkLemmas

/-- Appending one adjacency entry to a walk extends it. -/
theorem isWalkFrom_append (g : Graph) (s : Nat) (es : List Edge) (u : Nat) (e : Edge)
    (hw : IsWalkFrom g s es u) (he : e ∈ g.adj u) :
    IsWalkFrom g s (es ++ [e]) e.dst := by
  induction es generalizing s with
  | nil =>
    have hs : s = u := hw
    subst hs
    exact ⟨he, rfl⟩
  | cons f fs ih =>
    obtain ⟨hf, hrest⟩ := hw
    exact ⟨hf, ih _ hrest⟩

/-- Taking an edge never decreases the clock. -/
theorem stepTime_ge (g : Graph) (t : Int) (e : Edge)
    (hg : 0 ≤ (g.lights e.dst).green) (hw : 0 ≤ e.weight) (ht : 0 ≤ t) :
    t ≤ stepTime g t e := by
  have hwait : 0 ≤ getWaitingTime (g.lights e.dst) (t + e.weight) :=
    waiting_nonneg hg (by omega)
  unfold stepTime
  omega

/-- FIFO: leaving the source later never yields an earlier arrival. -/
theorem stepTime_mono (g : Graph) (e : Edge) {a b : Int}
    (hr : 0 ≤ (g.lights e.dst).red) (hg : 0 ≤ (g.lights e.dst).green)
    (hy : 0 ≤ (g.lights e.dst).yellow) (hw : 0 ≤ e.weight)
    (ha : 0 ≤ a) (hab : a ≤ b) :
    stepTime g a e ≤ stepTime g b e := by
  unfold stepTime
  have h := @dep_mono (g.lights e.dst) hr hg hy (a + e.weight) (b + e.weight)
    (by omega) (by omega)
  omega

/-- A walk starting below `vertices` stays below `vertices` and only uses
non-negative weights. -/
theorem walk_steps (g : Graph) (hwf : WellFormed g) (hnw : NonnegWeights g) :
    ∀ (es : List Edge) (u v : Nat), u < g.vertices → IsWalkFrom g u es v →
      v < g.vertices ∧ ∀ e ∈ es, 0 ≤ e.weight ∧ e.dst < g.vertices := by
  intro es
  induction es with
  | nil =>
    intro u v hu hw
    exact ⟨(show u = v from hw) ▸ hu, fun e he => absurd he (List.not_mem_nil e)⟩
  | cons e es ih =>
    intro u v hu hw
    obtain ⟨he, hrest⟩ := hw
    have hedst : e.dst < g.vertices := hwf.2 u hu e he
    have hwe : 0 ≤ e.weight := hnw u hu e he
    obtain ⟨hv, hes⟩ := ih e.dst v hedst hrest
    refine ⟨hv, ?_⟩
    intro f hf
    rcases List.mem_cons.mp hf with rfl | hf
    · exact ⟨hwe, hedst⟩
    · exact hes f hf

theorem walkTimeFrom_ge (g : Graph) (hnl : NonnegLights g) :
    ∀ (es : List Edge) (t : Int), 0 ≤ t →
      (∀ e ∈ es, 0 ≤ e.weight ∧ e.dst < g.vertices) →
      t ≤ walkTimeFrom g t es := by
  intro es
  induction es with
  | nil => intro t _ _; exact le_refl t
  | cons e es ih =>
    intro t ht hprop
    obtain ⟨hwe, hde⟩ := hprop e (List.mem_cons_self e es)
    have h1 : t ≤ stepTime g t e := stepTime_ge g t e (hnl e.dst hde).2.1 hwe ht
    have h2 : stepTime g t e ≤ walkTimeFrom g (stepTime g t e) es :=
      ih (stepTime g t e) (by omega) (fun f hf => hprop f (List.mem_cons_of_mem e hf))
    exact le_trans h1 h2

theorem walkTimeFrom_mono (g : Graph) (hnl : NonnegLights g) :
    ∀ (es : List Edge) {a b : Int}, 0 ≤ a → a ≤ b →
      (∀ e ∈ es, 0 ≤ e.weight ∧ e.dst < g.vertices) →
      walkTimeFrom g a es ≤ walkTimeFrom g b es := by
  intro es
  induction es with
  | nil => intro a b _ hab _; exact hab
  | cons e es ih =>
    intro a b ha hab hprop
    obtain ⟨hwe, hde⟩ := hprop e (List.mem_cons_self e es)
    obtain ⟨hr0, hg0, hy0⟩ := hnl e.dst hde
    have h1 : stepTime g a e ≤ stepTime g b e :=
      stepTime_mono g e hr0 hg0 hy0 hwe ha hab
    have ha' : 0 ≤ stepTime g a e := le_trans ha (stepTime_ge g a e hg0 hwe ha)
    exact ih ha' h1 (fun f hf => hprop f (List.mem_cons_of_mem e hf))

theorem walkTimeFrom_append (g : Graph) (t : Int) (es1 es2 : List Edge) :
    walkTimeFrom g t (es1 ++ es2) = walkTimeFrom g (walkTimeFrom g t es1) es2 := by
  unfold walkTimeFrom
  rw [List.foldl_append]

/-- Split a walk at the first visit of `w` among the step targets. -/
theorem walk_split_at (g : Graph) (w : Nat) :
    ∀ (es : List Edge) (u d : Nat), IsWalkFrom g u es d →
      w ∈ es.map (fun e => e.dst) →
      ∃ es1 es2, es = es1 ++ es2 ∧ es1 ≠ [] ∧
        IsWalkFrom g u es1 w ∧ IsWalkFrom g w es2 d := by
  intro es
  induction es with
  | nil =>
    intro u d _ hmem
    simp at hmem
  | cons e es ih =>
    intro u d hw hmem
    obtain ⟨he, hrest⟩ := hw
    by_cases hdw : e.dst = w
    · exact ⟨[e], es, rfl, by simp, ⟨he, hdw⟩, by rw [← hdw]; exact hrest⟩
    · rw [List.map_cons] at hmem
      rcases List.mem_cons.mp hmem with h1 | h1
      · exact absurd h1.symm hdw
      · obtain ⟨r1, r2, hsp, hne, hw1, hw2⟩ := ih e.dst d hrest h1
        exact ⟨e :: r1, r2, by rw [hsp, List.cons_append], by simp, ⟨he, hw1⟩, hw2⟩

/-- Loop removal: every walk contains a simple path between the same
endpoints that is no slower (by FIFO monotonicity) and visits only
vertices of the original walk. -/
theorem walk_to_simple (g : Graph) (hwf : WellFormed g) (hnw : NonnegWeights g)
    (hnl : NonnegLights g) :
    ∀ (N : Nat) (es : List Edge) (u d : Nat) (t : Int), es.length ≤ N →
      u < g.vertices → 0 ≤ t → IsWalkFrom g u es d →
      ∃ es', IsWalkFrom g u es' d ∧ (walkVerts u es').Nodup ∧
        walkTimeFrom g t es' ≤ walkTimeFrom g t es ∧
        ∀ x, x ∈ walkVerts u es' → x ∈ walkVerts u es := by
  intro N
  induction N with
  | zero =>
    intro es u d t hlen hu ht hw
    have hnil : es = [] := List.length_eq_zero.mp (by omega)
    subst hnil
    exact ⟨[], hw, by simp [walkVerts], le_refl _, fun x hx => hx⟩
  | succ N ih =>
    intro es u d t hlen hu ht hw
    by_cases hnd : (walkVerts u es).Nodup
    · exact ⟨es, hw, hnd, le_refl _, fun x hx => hx⟩
    · by_cases hu2 : u ∈ es.map (fun e => e.dst)
      · obtain ⟨es1, es2, hsp, hne, hw1, hw2⟩ := walk_split_at g u es u d hw hu2
        have hlen2 : es2.length ≤ N := by
          have hL : es.length = es1.length + es2.length := by
            rw [hsp, List.length_append]
          have h1 : 1 ≤ es1.length := by
            cases es1 with
            | nil => exact absurd rfl hne
            | cons a l => simp
          omega
        obtain ⟨es', hw', hnd', hle', hsub'⟩ := ih es2 u d t hlen2 hu ht hw2
        refine ⟨es', hw', hnd', ?_, ?_⟩
        · have hprop2 : ∀ e ∈ es2, 0 ≤ e.weight ∧ e.dst < g.vertices :=
            (walk_steps g hwf hnw es2 u d hu hw2).2
          have hprop1 : ∀ e ∈ es1, 0 ≤ e.weight ∧ e.dst < g.vertices :=
            (walk_steps g hwf hnw es1 u u hu hw1).2
          have hmid : t ≤ walkTimeFrom g t es1 :=
            walkTimeFrom_ge g hnl es1 t ht hprop1
          have h3 : walkTimeFrom g t es2 ≤ walkTimeFrom g (walkTimeFrom g t es1) es2 :=
            walkTimeFrom_mono g hnl es2 ht hmid hprop2
          rw [hsp, walkTimeFrom_append]
          exact le_trans hle' h3
        · intro x hx
          have hx2 := hsub' x hx
          rw [hsp]
          unfold walkVerts at hx2 ⊢
          rcases List.mem_cons.mp hx2 with rfl | hx2
          · exact List.mem_cons_self _ _
          · refine List.mem_cons_of_mem _ ?_
            rw [List.map_append, List.mem_append]
            exact Or.inr hx2
      · cases es with
        | nil => exact absurd (by simp [walkVerts]) hnd
        | cons e rest =>
          obtain ⟨he, hrest⟩ := hw
          have hedst : e.dst < g.vertices := hwf.2 u hu e he
          have hwe : 0 ≤ e.weight := hnw u hu e he
          have ht1 : 0 ≤ stepTime g t e :=
            le_trans ht (stepTime_ge g t e (hnl e.dst hedst).2.1 hwe ht)
          have hlen' : rest.length ≤ N := by
            have : (e :: rest).length = rest.length + 1 := by simp
            omega
          obtain ⟨rest', hw', hnd', hle', hsub'⟩ :=
            ih rest e.dst d (stepTime g t e) hlen' hedst ht1 hrest
          have hshape : walkVerts u (e :: rest') = u :: walkVerts e.dst rest' := by
            unfold walkVerts
            rw [List.map_cons]
          refine ⟨e :: rest', ⟨he, hw'⟩, ?_, hle', ?_⟩
          · rw [hshape]
            refine List.nodup_cons.mpr ⟨?_, hnd'⟩
            intro hmem
            have hx := hsub' u hmem
            unfold walkVerts at hx
            rcases List.mem_cons.mp hx with h1 | h1
            · exact hu2 (by rw [List.map_cons]; exact List.mem_cons.mpr (Or.inl h1))
            · exact hu2 (by rw [List.map_cons]; exact List.mem_cons_of_mem _ h1)
          · intro x hx
            rw [hshape] at hx
            rcases List.mem_cons.mp hx with rfl | hx
            · exact List.mem_cons_self _ _
            · have hx2 := hsub' x hx
              unfold walkVerts at hx2 ⊢
              rcases List.mem_cons.mp hx2 with h1 | h1
              · refine List.mem_cons_of_mem _ ?_
                rw [List.map_cons]
                exact List.mem_cons.mpr (Or.inl h1)
              · refine List.mem_cons_of_mem _ ?_
                rw [List.map_cons]
                exact List.mem_cons_of_mem _ h1

/-- The cut bound of Dijkstra's greedy step: if every vertex outside `C`
is relaxed against every `C`-vertex and `m` is below every outside
distance, then no walk from `s` reaches an outside vertex faster than
`m`. -/
theorem walk_lower_bound (g : Graph) (hwf : WellFormed g) (hnw : NonnegWeights g)
    (hnl : NonnegLights g) (s : Nat) (hs : s < g.vertices)
    (dist : List Int) (C : Nat → Prop) (m : Int)
    (h0 : dist.getD s 0 = 0)
    (hbound : ∀ i, i < g.vertices → 0 ≤ dist.getD i 0)
    (hclosed : ∀ x, x < g.vertices → C x → ∀ es, IsWalkFrom g s es x →
      dist.getD x 0 ≤ walkTime g es)
    (hrelax : ∀ v, v < g.vertices → ¬ C v → ∀ x, x < g.vertices → C x →
      ∀ e ∈ g.adj x, e.dst = v → dist.getD v 0 ≤ stepTime g (dist.getD x 0) e)
    (hmin : ∀ w, w < g.vertices → ¬ C w → m ≤ dist.getD w 0) :
    ∀ v, v < g.vertices → ¬ C v → ∀ es, IsWalkFrom g s es v →
      m ≤ walkTime g es := by
  have haux : ∀ (es : List Edge) (u v : Nat) (t : Int),
      u < g.vertices → C u → IsWalkFrom g u es v → v < g.vertices → ¬ C v → 0 ≤ t →
      (∃ es0, IsWalkFrom g s es0 u ∧ walkTime g es0 ≤ t) →
      m ≤ walkTimeFrom g t es := by
    intro es
    induction es with
    | nil =>
      intro u v t _ hCu hw _ hCv _ _
      exact absurd ((show u = v from hw) ▸ hCu) hCv
    | cons e rest ih =>
      intro u v t hu hCu hw hv hCv ht hcarry
      obtain ⟨he, hrest⟩ := hw
      obtain ⟨es0, hes0, hcost0⟩ := hcarry
      have hedst : e.dst < g.vertices := hwf.2 u hu e he
      have hwe : 0 ≤ e.weight := hnw u hu e he
      obtain ⟨hr0, hg0, hy0⟩ := hnl e.dst hedst
      have hdu : dist.getD u 0 ≤ t := le_trans (hclosed u hu hCu es0 hes0) hcost0
      have hub : 0 ≤ dist.getD u 0 := hbound u hu
      have hmono : stepTime g (dist.getD u 0) e ≤ stepTime g t e :=
        stepTime_mono g e hr0 hg0 hy0 hwe hub hdu
      have ht1 : 0 ≤ stepTime g t e := le_trans ht (stepTime_ge g t e hg0 hwe ht)
      by_cases hCd : C e.dst
      · refine ih e.dst v (stepTime g t e) hedst hCd hrest hv hCv ht1 ?_
        refine ⟨es0 ++ [e], isWalkFrom_append g s es0 u e hes0 he, ?_⟩
        have hsplit : walkTime g (es0 ++ [e]) = stepTime g (walkTime g es0) e := by
          unfold walkTime
          rw [walkTimeFrom_append]
          rfl
        rw [hsplit]
        have h00 : (0:Int) ≤ walkTime g es0 :=
          walkTimeFrom_ge g hnl es0 0 (le_refl 0)
            (walk_steps g hwf hnw es0 s u hs hes0).2
        exact stepTime_mono g e hr0 hg0 hy0 hwe h00 hcost0
      · have hdv : dist.getD e.dst 0 ≤ stepTime g (dist.getD u 0) e :=
          hrelax e.dst hedst hCd u hu hCu e he rfl
        have hm1 : m ≤ dist.getD e.dst 0 := hmin e.dst hedst hCd
        have hprop : ∀ f ∈ rest, 0 ≤ f.weight ∧ f.dst < g.vertices :=
          (walk_steps g hwf hnw rest e.dst v hedst hrest).2
        have hge : stepTime g t e ≤ walkTimeFrom g (stepTime g t e) rest :=
          walkTimeFrom_ge g hnl rest (stepTime g t e) ht1 hprop
        calc m ≤ dist.getD e.dst 0 := hm1
          _ ≤ stepTime g (dist.getD u 0) e := hdv
          _ ≤ stepTime g t e := hmono
          _ ≤ walkTimeFrom g (stepTime g t e) rest := hge
          _ = walkTimeFrom g t (e :: rest) := rfl
  intro v hv hCv es hw
  by_cases hCs : C s
  · exact haux es s v 0 hs hCs hw hv hCv (le_refl 0)
      ⟨[], rfl, by unfold walkTime; exact le_refl 0⟩
  · have hm0 : m ≤ 0 := by
      have := hmin s hs hCs
      omega
    have h0' : (0:Int) ≤ walkTime g es :=
      walkTimeFrom_ge g hnl es 0 (le_refl 0)
        (walk_steps g hwf hnw es s v hs hw).2
    omega

end WalkLemmas

section DijkstraCorrectness

/-- The in-place `arr[pos[v]]->dist = d` write preceding a
`decreaseKey(h, v, d)` call is absorbed by the call: `decreaseKey`
performs the same write itself. -/
theorem decreaseKey_absorb (h : MinHeap) (v : Nat) (d : Int)
    (hpres : posAt h.pos v ≠ -1) :
    decreaseKey ⟨h.arr.set (posAt h.pos v).toNat
        { nodeAt h.arr (posAt h.pos v).toNat with dist := d }, h.pos⟩ v d =
      decreaseKey h v d := by
  by_cases hlt : (posAt h.pos v).toNat < h.arr.length
  · unfold decreaseKey
    dsimp only
    rw [if_neg hpres, if_neg hpres]
    set X := { nodeAt h.arr (posAt h.pos v).toNat with dist := d } with hX
    have hnode : nodeAt (h.arr.set (posAt h.pos v).toNat X)
        (posAt h.pos v).toNat = X := by
      rw [nodeAt]
      exact getD_set_self _ _ _ _ hlt
    rw [hnode, List.set_set]
  · rw [List.set_eq_of_length_le (by omega)]

/-- Three-way case split of one relaxation step: the target is absent
from the heap, the guard fails, or `dist`, `parent` and the heap are all
updated with the candidate distance. -/
theorem relaxStep_cases3 (g : Graph) (u : Nat) (st : DState) (e : Edge) :
    (posAt st.heap.pos e.dst = -1 ∧ relaxStep g u st e = st) ∨
    (posAt st.heap.pos e.dst ≠ -1 ∧
      ¬ (st.dist.getD u 0 + e.weight + getWaitingTime (g.lights e.dst)
          (st.dist.getD u 0 + e.weight) < st.dist.getD e.dst 0) ∧
      relaxStep g u st e = st) ∨
    (posAt st.heap.pos e.dst ≠ -1 ∧
      st.dist.getD u 0 + e.weight + getWaitingTime (g.lights e.dst)
        (st.dist.getD u 0 + e.weight) < st.dist.getD e.dst 0 ∧
      (relaxStep g u st e).dist = st.dist.set e.dst
        (st.dist.getD u 0 + e.weight + getWaitingTime (g.lights e.dst)
          (st.dist.getD u 0 + e.weight)) ∧
      (relaxStep g u st e).parent = st.parent.set e.dst (Int.ofNat u) ∧
      (relaxStep g u st e).heap = decreaseKey st.heap e.dst
        (st.dist.getD u 0 + e.weight + getWaitingTime (g.lights e.dst)
          (st.dist.getD u 0 + e.weight))) := by
  unfold relaxStep
  dsimp only
  split
  · rename_i hpos
    split
    · rename_i hupd
      refine Or.inr (Or.inr ⟨hpos, hupd, rfl, rfl, ?_⟩)
      exact decreaseKey_absorb st.heap e.dst _ hpos
    · rename_i hupd
      exact Or.inr (Or.inl ⟨hpos, hupd, rfl⟩)
  · rename_i hpos
    exact Or.inl ⟨not_not.mp hpos, rfl⟩

/-- The `dist[src] = 0` initialisation is one `decreaseKey` call on the
fresh heap. -/
theorem dijkstraInit_eq (n s : Nat) (hs : s < n) :
    dijkstraInit n s = decreaseKey (mkHeap n) s 0 := by
  unfold dijkstraInit
  dsimp only
  refine decreaseKey_absorb (mkHeap n) s 0 ?_
  rw [mkHeap_posAt, if_pos hs]
  intro hcc
  have hcc' : ((s : ℕ) : ℤ) = -1 := hcc
  omega

/-- `dijkstraLoop_inv` strengthened with the exit condition of the loop. -/
theorem dijkstraLoop_inv_exit (g : Graph) (dest : Nat) (P : DState → Prop)
    (hstep : ∀ st, st.heap.arr.length ≠ 0 →
      (nodeAt st.heap.arr 0).dist ≠ INF → (nodeAt st.heap.arr 0).v ≠ dest → P st →
      P (relaxAll g (nodeAt st.heap.arr 0).v ⟨(extractMin st.heap).2, st.dist, st.parent⟩))
    (st : DState) (hP : P st) :
    ∃ st', P st' ∧ dijkstraLoop g dest st = (st'.dist, st'.parent) ∧
      (st'.heap.arr.length = 0 ∨
        (st'.heap.arr.length ≠ 0 ∧ (nodeAt st'.heap.arr 0).dist = INF) ∨
        (st'.heap.arr.length ≠ 0 ∧ (nodeAt st'.heap.arr 0).dist ≠ INF ∧
          (nodeAt st'.heap.arr 0).v = dest)) := by
  rw [dijkstraLoop]
  split
  · rename_i hlen
    exact ⟨st, hP, rfl, Or.inl hlen⟩
  · rename_i hlen
    dsimp only
    split
    · rename_i hINF
      exact ⟨st, hP, rfl, Or.inr (Or.inl ⟨hlen, hINF⟩)⟩
    · rename_i hINF
      split
      · rename_i hdest
        exact ⟨st, hP, rfl, Or.inr (Or.inr ⟨hlen, hINF, hdest⟩)⟩
      · rename_i hdest
        exact dijkstraLoop_inv_exit g dest P hstep _ (hstep st hlen hINF hdest hP)
termination_by st.heap.arr.length
decreasing_by
  rw [relaxAll_heap_arr_length]
  simp only
  rw [extractMin_snd_arr_length st.heap (by assumption)]
  omega

theorem mkHeap_lookDist (n w : Nat) (hw : w < n) :
    lookDist (mkHeap n).arr (mkHeap n).pos w = INF := by
  rw [lookDist, mkHeap_posAt, if_pos hw]
  show (nodeAt (mkHeap n).arr ((Int.ofNat w).toNat)).dist = INF
  rw [show ((Int.ofNat w).toNat) = w from rfl, mkHeap_nodeAt n w hw]

/-- The invariant of the main loop of `dijkstra`, for source `s` and
destination `t`.  "Open" vertices are those still in the heap
(`pos[v] != -1`); the extracted ("closed") ones carry their final, optimal
distance. -/
structure DijkInv (g : Graph) (s t : Nat) (st : DState) : Prop where
  hc : PosConsistent g.vertices st.heap.arr st.heap.pos
  hord : HeapOrdered st.heap.arr
  hdlen : st.dist.length = g.vertices
  hbounds : ∀ i, i < g.vertices → 0 ≤ st.dist.getD i 0 ∧ st.dist.getD i 0 ≤ INF
  hsrc : st.dist.getD s 0 = 0
  hdest : posAt st.heap.pos t ≠ -1
  hsync : ∀ v, v < g.vertices → posAt st.heap.pos v ≠ -1 →
    lookDist st.heap.arr st.heap.pos v = st.dist.getD v 0
  hsound : ∀ v, v < g.vertices → st.dist.getD v 0 < INF →
    ∃ es, IsWalkFrom g s es v ∧ walkTime g es = st.dist.getD v 0
  hopt : ∀ v, v < g.vertices → posAt st.heap.pos v = -1 →
    ∀ es, IsWalkFrom g s es v → st.dist.getD v 0 ≤ walkTime g es
  hrelaxed : ∀ v, v < g.vertices → posAt st.heap.pos v ≠ -1 →
    ∀ x, x < g.vertices → posAt st.heap.pos x = -1 →
    ∀ e ∈ g.adj x, e.dst = v →
      st.dist.getD v 0 ≤ stepTime g (st.dist.getD x 0) e
  hfin : ∀ v, v < g.vertices → posAt st.heap.pos v = -1 → st.dist.getD v 0 < INF

/-- The invariant holds after `dist[] / parent[] / heap` initialisation. -/
theorem dijkInv_init (g : Graph) (s t : Nat)
    (hs : s < g.vertices) (ht : t < g.vertices) :
    DijkInv g s t ⟨dijkstraInit g.vertices s,
      (List.replicate g.vertices INF).set s 0, List.replicate g.vertices (-1)⟩ := by
  have hpre : posAt (mkHeap g.vertices).pos s ≠ -1 →
      (0:Int) ≤ lookDist (mkHeap g.vertices).arr (mkHeap g.vertices).pos s := by
    intro _
    rw [mkHeap_lookDist g.vertices s hs]
    simp [INF]
  obtain ⟨hc', hord', hiff, hkeep, hset⟩ :=
    decreaseKey_spec g.vertices (mkHeap g.vertices) s 0
      (mkHeap_consistent g.vertices) (mkHeap_ordered g.vertices) hpre
  have hpres : ∀ w, w < g.vertices → posAt (mkHeap g.vertices).pos w ≠ -1 := by
    intro w hw
    rw [mkHeap_posAt, if_pos hw]
    intro hcc
    have hcc' : ((w : ℕ) : ℤ) = -1 := hcc
    omega
  have hEqInit : dijkstraInit g.vertices s = decreaseKey (mkHeap g.vertices) s 0 :=
    dijkstraInit_eq g.vertices s hs
  have hdist0 : ∀ i, ((List.replicate g.vertices INF).set s 0).getD i 0 =
      if i = s then 0 else if i < g.vertices then INF else 0 := by
    intro i
    rw [getD_set_cases, List.length_replicate, getD_replicate']
    by_cases his : i = s
    · rw [if_pos ⟨his.symm, by omega⟩, if_pos his]
    · rw [if_neg (fun hcc => his hcc.1.symm), if_neg his]
  refine ⟨?_, ?_, ?_, ?_, ?_, ?_, ?_, ?_, ?_, ?_, ?_⟩
  · show PosConsistent g.vertices (dijkstraInit g.vertices s).arr
      (dijkstraInit g.vertices s).pos
    rw [hEqInit]
    exact hc'
  · show HeapOrdered (dijkstraInit g.vertices s).arr
    rw [hEqInit]
    exact hord'
  · simp [List.length_set, List.length_replicate]
  · intro i hi
    show 0 ≤ ((List.replicate g.vertices INF).set s 0).getD i 0 ∧ _
    rw [hdist0 i]
    by_cases his : i = s
    · rw [if_pos his]
      simp [INF]
    · rw [if_neg his, if_pos hi]
      simp [INF]
  · show ((List.replicate g.vertices INF).set s 0).getD s 0 = 0
    rw [hdist0 s, if_pos rfl]
  · show posAt (dijkstraInit g.vertices s).pos t ≠ -1
    rw [hEqInit]
    exact (hiff t ht).mpr (hpres t ht)
  · intro v hv hpv
    show lookDist (dijkstraInit g.vertices s).arr (dijkstraInit g.vertices s).pos v =
      ((List.replicate g.vertices INF).set s 0).getD v 0
    rw [hEqInit]
    rw [hEqInit] at hpv
    rw [hdist0 v]
    by_cases hvs : v = s
    · rw [if_pos hvs, hvs]
      exact hset (hpres s hs)
    · rw [if_neg hvs, if_pos hv]
      rw [hkeep v hv hvs (hpres v hv), mkHeap_lookDist g.vertices v hv]
  · intro v hv hlt
    show ∃ es, IsWalkFrom g s es v ∧
      walkTime g es = ((List.replicate g.vertices INF).set s 0).getD v 0
    rw [hdist0 v] at hlt ⊢
    by_cases hvs : v = s
    · rw [if_pos hvs]
      exact ⟨[], hvs.symm, rfl⟩
    · rw [if_neg hvs, if_pos hv] at hlt
      omega
  · intro v hv hpv
    exfalso
    rw [hEqInit] at hpv
    exact ((hiff v hv).mpr (hpres v hv)) hpv
  · intro v hv hpv x hx hpx
    exfalso
    rw [hEqInit] at hpx
    exact ((hiff x hx).mpr (hpres x hx)) hpx
  · intro v hv hpv
    exfalso
    rw [hEqInit] at hpv
    exact ((hiff v hv).mpr (hpres v hv)) hpv

/-- The invariant threaded through the neighbour loop relaxing the freshly
extracted vertex `r`: as `DijkInv`, except that against `r` itself only the
adjacency entries already processed (those not in `rem`) need to be
relaxed. -/
structure RelaxInv (g : Graph) (s t r : Nat) (rem : List Edge) (st : DState) : Prop where
  hc : PosConsistent g.vertices st.heap.arr st.heap.pos
  hord : HeapOrdered st.heap.arr
  hdlen : st.dist.length = g.vertices
  hbounds : ∀ i, i < g.vertices → 0 ≤ st.dist.getD i 0 ∧ st.dist.getD i 0 ≤ INF
  hsrc : st.dist.getD s 0 = 0
  hdest : posAt st.heap.pos t ≠ -1
  hsync : ∀ v, v < g.vertices → posAt st.heap.pos v ≠ -1 →
    lookDist st.heap.arr st.heap.pos v = st.dist.getD v 0
  hsound : ∀ v, v < g.vertices → st.dist.getD v 0 < INF →
    ∃ es, IsWalkFrom g s es v ∧ walkTime g es = st.dist.getD v 0
  hopt : ∀ v, v < g.vertices → posAt st.heap.pos v = -1 →
    ∀ es, IsWalkFrom g s es v → st.dist.getD v 0 ≤ walkTime g es
  hrelaxed : ∀ v, v < g.vertices → posAt st.heap.pos v ≠ -1 →
    ∀ x, x < g.vertices → posAt st.heap.pos x = -1 →
    ∀ e ∈ g.adj x, e.dst = v → (x = r → e ∉ rem) →
      st.dist.getD v 0 ≤ stepTime g (st.dist.getD x 0) e
  hfin : ∀ v, v < g.vertices → posAt st.heap.pos v = -1 → st.dist.getD v 0 < INF
  hrclosed : posAt st.heap.pos r = -1

theorem relaxInv_toDijkInv (g : Graph) (s t r : Nat) (st : DState)
    (h : RelaxInv g s t r [] st) : DijkInv g s t st :=
  ⟨h.hc, h.hord, h.hdlen, h.hbounds, h.hsrc, h.hdest, h.hsync, h.hsound, h.hopt,
    fun v hv hpv x hx hpx e he hdst =>
      h.hrelaxed v hv hpv x hx hpx e he hdst (fun _ => List.not_mem_nil e),
    h.hfin⟩

theorem relaxStep_relaxInv (g : Graph) (hwf : WellFormed g) (hnw : NonnegWeights g)
    (hnl : NonnegLights g) (s t r : Nat) (hr : r < g.vertices) (ht : t < g.vertices)
    (e1 : Edge) (rem : List Edge) (he1 : e1 ∈ g.adj r) (st : DState)
    (hP : RelaxInv g s t r (e1 :: rem) st) :
    RelaxInv g s t r rem (relaxStep g r st e1) := by
  obtain ⟨hc, hord, hdlen, hbounds, hsrc, hdest, hsync, hsound, hopt,
    hrelaxed, hfin, hrclosed⟩ := hP
  have hv1 : e1.dst < g.vertices := hwf.2 r hr e1 he1
  have hw1 : 0 ≤ e1.weight := hnw r hr e1 he1
  have hdr0 : 0 ≤ st.dist.getD r 0 := (hbounds r hr).1
  rcases relaxStep_cases3 g r st e1 with ⟨habs, hEq⟩ | ⟨hpos, hng, hEq⟩ |
    ⟨hpos, hlt, hdEq, hpEq, hhEq⟩
  · rw [hEq]
    refine ⟨hc, hord, hdlen, hbounds, hsrc, hdest, hsync, hsound, hopt, ?_, hfin, hrclosed⟩
    intro v hv hpv x hx hpx e he hdst hcond
    by_cases hxr : x = r
    · by_cases hem1 : e ∈ e1 :: rem
      · have hee1 : e = e1 := by
          rcases List.mem_cons.mp hem1 with h1 | h1
          · exact h1
          · exact absurd h1 (hcond hxr)
        exfalso
        rw [hee1] at hdst
        rw [hdst] at habs
        exact hpv habs
      · exact hrelaxed v hv hpv x hx hpx e he hdst (fun _ => hem1)
    · exact hrelaxed v hv hpv x hx hpx e he hdst (fun hxr' => absurd hxr' hxr)
  · rw [hEq]
    refine ⟨hc, hord, hdlen, hbounds, hsrc, hdest, hsync, hsound, hopt, ?_, hfin, hrclosed⟩
    intro v hv hpv x hx hpx e he hdst hcond
    by_cases hxr : x = r
    · by_cases hem1 : e ∈ e1 :: rem
      · have hee1 : e = e1 := by
          rcases List.mem_cons.mp hem1 with h1 | h1
          · exact h1
          · exact absurd h1 (hcond hxr)
        subst hee1
        subst hxr
        rw [← hdst]
        exact not_lt.mp hng
      · exact hrelaxed v hv hpv x hx hpx e he hdst (fun _ => hem1)
    · exact hrelaxed v hv hpv x hx hpx e he hdst (fun hxr' => absurd hxr' hxr)
  · set nd := st.dist.getD r 0 + e1.weight + getWaitingTime (g.lights e1.dst)
      (st.dist.getD r 0 + e1.weight) with hnd
    have hsync_v : lookDist st.heap.arr st.heap.pos e1.dst = st.dist.getD e1.dst 0 :=
      hsync e1.dst hv1 hpos
    have hwait0 : 0 ≤ getWaitingTime (g.lights e1.dst) (st.dist.getD r 0 + e1.weight) :=
      waiting_nonneg (hnl e1.dst hv1).2.1 (by omega)
    have hnd0 : 0 ≤ nd := by rw [hnd]; omega
    have hndINF : nd ≤ INF := by
      have hub := (hbounds e1.dst hv1).2
      omega
    obtain ⟨hc', hord', hiff, hkeep, hsetv⟩ :=
      decreaseKey_spec g.vertices st.heap e1.dst nd hc hord
        (fun _ => by rw [hsync_v]; omega)
    have hdist' : ∀ i, (relaxStep g r st e1).dist.getD i 0 =
        if i = e1.dst then nd else st.dist.getD i 0 := by
      intro i
      rw [hdEq, getD_set_cases]
      by_cases hie : i = e1.dst
      · rw [if_pos ⟨hie.symm, by rw [hdlen]; omega⟩, if_pos hie]
      · rw [if_neg (fun hcc => hie hcc.1.symm), if_neg hie]
    have hheap' : (relaxStep g r st e1).heap = decreaseKey st.heap e1.dst nd := hhEq
    refine ⟨?_, ?_, ?_, ?_, ?_, ?_, ?_, ?_, ?_, ?_, ?_, ?_⟩
    · rw [hheap']
      exact hc'
    · rw [hheap']
      exact hord'
    · rw [hdEq]
      simp [List.length_set, hdlen]
    · intro i hi
      rw [hdist' i]
      by_cases hie : i = e1.dst
      · rw [if_pos hie]
        exact ⟨hnd0, hndINF⟩
      · rw [if_neg hie]
        exact hbounds i hi
    · have hsne : e1.dst ≠ s := by
        intro hEq
        have h0 : st.dist.getD e1.dst 0 = 0 := by rw [hEq, hsrc]
        omega
      rw [hdist' s, if_neg (fun hcc => hsne hcc.symm)]
      exact hsrc
    · show posAt (relaxStep g r st e1).heap.pos t ≠ -1
      rw [hheap']
      exact (hiff t ht).mpr hdest
    · intro v hv hpv
      rw [hheap'] at hpv ⊢
      have hpv0 : posAt st.heap.pos v ≠ -1 := (hiff v hv).mp hpv
      rw [hdist' v]
      by_cases hve : v = e1.dst
      · rw [if_pos hve, hve]
        exact hsetv hpos
      · rw [if_neg hve, hkeep v hv hve hpv0]
        exact hsync v hv hpv0
    · intro v hv hlt'
      rw [hdist' v] at hlt' ⊢
      by_cases hve : v = e1.dst
      · rw [if_pos hve] at hlt' ⊢
        have hrfin : st.dist.getD r 0 < INF := hfin r hr hrclosed
        obtain ⟨esr, hesr, hesrT⟩ := hsound r hr hrfin
        refine ⟨esr ++ [e1], ?_, ?_⟩
        · rw [hve]
          exact isWalkFrom_append g s esr r e1 hesr he1
        · have hT : walkTime g (esr ++ [e1]) = stepTime g (walkTime g esr) e1 := by
            unfold walkTime
            rw [walkTimeFrom_append]
            rfl
          rw [hT, hesrT, hnd]
          rfl
      · rw [if_neg hve] at hlt' ⊢
        exact hsound v hv hlt'
    · intro v hv hpv es hes
      rw [hheap'] at hpv
      have hpv0 : posAt st.heap.pos v = -1 := by
        by_contra hcc
        exact ((hiff v hv).mpr hcc) hpv
      have hvne : v ≠ e1.dst := fun hEq => hpos (by rw [← hEq]; exact hpv0)
      rw [hdist' v, if_neg hvne]
      exact hopt v hv hpv0 es hes
    · intro v hv hpv x hx hpx e he hdst hcond
      rw [hheap'] at hpv hpx
      have hpv0 : posAt st.heap.pos v ≠ -1 := (hiff v hv).mp hpv
      have hpx0 : posAt st.heap.pos x = -1 := by
        by_contra hcc
        exact ((hiff x hx).mpr hcc) hpx
      have hxne : x ≠ e1.dst := fun hEq => hpos (by rw [← hEq]; exact hpx0)
      rw [hdist' v, hdist' x, if_neg hxne]
      by_cases hve : v = e1.dst
      · rw [if_pos hve]
        by_cases hxr : x = r
        · by_cases hem1 : e ∈ e1 :: rem
          · have hee1 : e = e1 := by
              rcases List.mem_cons.mp hem1 with h1 | h1
              · exact h1
              · exact absurd h1 (hcond hxr)
            rw [hee1, hxr, hnd]
            exact le_refl _
          · have hold := hrelaxed v hv hpv0 x hx hpx0 e he hdst (fun _ => hem1)
            have hlt' : nd < st.dist.getD v 0 := by rw [hve]; exact hlt
            omega
        · have hold := hrelaxed v hv hpv0 x hx hpx0 e he hdst
            (fun hxr' => absurd hxr' hxr)
          have hlt' : nd < st.dist.getD v 0 := by rw [hve]; exact hlt
          omega
      · rw [if_neg hve]
        by_cases hxr : x = r
        · by_cases hem1 : e ∈ e1 :: rem
          · have hee1 : e = e1 := by
              rcases List.mem_cons.mp hem1 with h1 | h1
              · exact h1
              · exact absurd h1 (hcond hxr)
            exfalso
            exact hve (by rw [← hdst, hee1])
          · exact hrelaxed v hv hpv0 x hx hpx0 e he hdst (fun _ => hem1)
        · exact hrelaxed v hv hpv0 x hx hpx0 e he hdst (fun hxr' => absurd hxr' hxr)
    · intro v hv hpv
      rw [hheap'] at hpv
      have hpv0 : posAt st.heap.pos v = -1 := by
        by_contra hcc
        exact ((hiff v hv).mpr hcc) hpv
      have hvne : v ≠ e1.dst := fun hEq => hpos (by rw [← hEq]; exact hpv0)
      rw [hdist' v, if_neg hvne]
      exact hfin v hv hpv0
    · show posAt (relaxStep g r st e1).heap.pos r = -1
      rw [hheap']
      by_contra hcc
      exact ((hiff r hr).mp hcc) hrclosed

theorem foldl_relaxInv (g : Graph) (hwf : WellFormed g) (hnw : NonnegWeights g)
    (hnl : NonnegLights g) (s t r : Nat) (hr : r < g.vertices) (ht : t < g.vertices) :
    ∀ (l : List Edge), (∀ e ∈ l, e ∈ g.adj r) →
      ∀ st, RelaxInv g s t r l st →
      RelaxInv g s t r [] (l.foldl (relaxStep g r) st) := by
  intro l
  induction l with
  | nil =>
    intro _ st h
    exact h
  | cons e1 rest ih =>
    intro hsub st h
    rw [List.foldl_cons]
    exact ih (fun f hf => hsub f (List.mem_cons_of_mem e1 hf)) _
      (relaxStep_relaxInv g hwf hnw hnl s t r hr ht e1 rest
        (hsub e1 (List.mem_cons_self e1 rest)) st h)

/-- One iteration of the main loop preserves the invariant. -/
theorem dijkInv_step (g : Graph) (hwf : WellFormed g) (hnw : NonnegWeights g)
    (hnl : NonnegLights g) (s t : Nat) (hs : s < g.vertices) (ht : t < g.vertices)
    (st : DState) (hlen : st.heap.arr.length ≠ 0)
    (hINF : (nodeAt st.heap.arr 0).dist ≠ INF)
    (hne : (nodeAt st.heap.arr 0).v ≠ t)
    (hP : DijkInv g s t st) :
    DijkInv g s t (relaxAll g (nodeAt st.heap.arr 0).v
      ⟨(extractMin st.heap).2, st.dist, st.parent⟩) := by
  obtain ⟨hc, hord, hdlen, hbounds, hsrc, hdest, hsync, hsound, hopt, hrelaxed, hfin⟩ := hP
  have h0lt : 0 < st.heap.arr.length := Nat.pos_of_ne_zero hlen
  have hr : (nodeAt st.heap.arr 0).v < g.vertices := hc.vLt 0 h0lt
  have hrpos : posAt st.heap.pos (nodeAt st.heap.arr 0).v = Int.ofNat 0 :=
    hc.posOf 0 h0lt
  have hrpres : posAt st.heap.pos (nodeAt st.heap.arr 0).v ≠ -1 := by
    rw [hrpos]
    decide
  have hlook_r : lookDist st.heap.arr st.heap.pos (nodeAt st.heap.arr 0).v =
      (nodeAt st.heap.arr 0).dist := by
    rw [lookDist, hrpos]
    rfl
  have hdist_r : st.dist.getD (nodeAt st.heap.arr 0).v 0 = (nodeAt st.heap.arr 0).dist := by
    rw [← hlook_r]
    exact (hsync _ hr hrpres).symm
  have hrINF : st.dist.getD (nodeAt st.heap.arr 0).v 0 < INF := by
    have h2 := (hbounds _ hr).2
    rw [hdist_r] at h2 ⊢
    omega
  obtain ⟨e1, e2, e3, e4, e5, e6, e7⟩ := extractMin_spec g.vertices st.heap hc hord hlen
  have hminopen : ∀ w, w < g.vertices → posAt st.heap.pos w ≠ -1 →
      st.dist.getD (nodeAt st.heap.arr 0).v 0 ≤ st.dist.getD w 0 := by
    intro w hw hwp
    have hnodemem := present_node hc w hw hwp
    have hmin := e2 ⟨w, lookDist st.heap.arr st.heap.pos w⟩ hnodemem
    rw [hdist_r]
    calc (nodeAt st.heap.arr 0).dist
        ≤ lookDist st.heap.arr st.heap.pos w := hmin
      _ = st.dist.getD w 0 := hsync w hw hwp
  have hAopt : ∀ es, IsWalkFrom g s es (nodeAt st.heap.arr 0).v →
      st.dist.getD (nodeAt st.heap.arr 0).v 0 ≤ walkTime g es :=
    walk_lower_bound g hwf hnw hnl s hs st.dist
      (fun w => posAt st.heap.pos w = -1)
      (st.dist.getD (nodeAt st.heap.arr 0).v 0)
      hsrc (fun i hi => (hbounds i hi).1)
      (fun x hx hCx es hes => hopt x hx hCx es hes)
      (fun v hv hCv x hx hCx e he hdst => hrelaxed v hv hCv x hx hCx e he hdst)
      (fun w hw hwp => hminopen w hw hwp)
      (nodeAt st.heap.arr 0).v hr hrpres
  have hstart : RelaxInv g s t (nodeAt st.heap.arr 0).v
      (g.adj (nodeAt st.heap.arr 0).v)
      ⟨(extractMin st.heap).2, st.dist, st.parent⟩ := by
    refine ⟨e3, e4, hdlen, hbounds, hsrc, ?_, ?_, hsound, ?_, ?_, ?_, ?_⟩
    · show posAt (extractMin st.heap).2.pos t ≠ -1
      exact (e6 t ht).mpr ⟨hdest, fun hEq => hne hEq.symm⟩
    · intro v hv hpv
      have hdecomp := (e6 v hv).mp hpv
      show lookDist (extractMin st.heap).2.arr (extractMin st.heap).2.pos v = _
      rw [e7 v hv hdecomp.2 hdecomp.1]
      exact hsync v hv hdecomp.1
    · intro v hv hpv es hes
      by_cases hvr : v = (nodeAt st.heap.arr 0).v
      · rw [hvr] at hes ⊢
        exact hAopt es hes
      · have hpv0 : posAt st.heap.pos v = -1 := by
          by_contra hcc
          exact ((e6 v hv).mpr ⟨hcc, hvr⟩) hpv
        exact hopt v hv hpv0 es hes
    · intro v hv hpv x hx hpx e he hdst hcond
      have hv' := (e6 v hv).mp hpv
      by_cases hxr : x = (nodeAt st.heap.arr 0).v
      · exfalso
        exact (hcond hxr) (by rw [← hxr]; exact he)
      · have hpx0 : posAt st.heap.pos x = -1 := by
          by_contra hcc
          exact ((e6 x hx).mpr ⟨hcc, hxr⟩) hpx
        exact hrelaxed v hv hv'.1 x hx hpx0 e he hdst
    · intro v hv hpv
      by_cases hvr : v = (nodeAt st.heap.arr 0).v
      · rw [hvr]
        exact hrINF
      · have hpv0 : posAt st.heap.pos v = -1 := by
          by_contra hcc
          exact ((e6 v hv).mpr ⟨hcc, hvr⟩) hpv
        exact hfin v hv hpv0
    · show posAt (extractMin st.heap).2.pos (nodeAt st.heap.arr 0).v = -1
      by_contra hcc
      exact ((e6 _ hr).mp hcc).2 rfl
  have hfold := foldl_relaxInv g hwf hnw hnl s t (nodeAt st.heap.arr 0).v hr ht
    (g.adj (nodeAt st.heap.arr 0).v) (fun e hf => hf) _ hstart
  exact relaxInv_toDijkInv g s t (nodeAt st.heap.arr 0).v _ hfold

end DijkstraCorrectness

section ClaimsNoPath

/-- The invariant used for the unreachable-destination claim. -/
def ReachInv (g : Graph) (s : Nat) (st : DState) : Prop :=
  (∀ x ∈ st.heap.arr, x.v < g.vertices) ∧
  (∀ i, 0 ≤ st.dist.getD i 0 ∧ st.dist.getD i 0 ≤ INF) ∧
  (∀ i < g.vertices, st.dist.getD i 0 < INF → ∃ es, IsWalkFrom g s es i)

theorem relaxStep_reachInv (g : Graph) (s u : Nat)
    (hwf : WellFormed g) (hnw : NonnegWeights g) (hnl : NonnegLights g)
    (hu : u < g.vertices)
    (st : DState) (e : Edge) (he : e ∈ g.adj u) (hP : ReachInv g s st) :
    ReachInv g s (relaxStep g u st e) := by
  obtain ⟨hverts, hbound, hreach⟩ := hP
  have hv' : ∀ x ∈ (relaxStep g u st e).heap.arr, x.v < g.vertices :=
    relaxStep_verts g u st e (fun w => w < g.vertices) hverts
      (by rw [default_node_v]
          have := hwf.2 u hu e he
          omega)
  rcases relaxStep_cases g u st e with ⟨hd, hp, hh⟩ | ⟨hpos, hupd, hd, hp⟩
  · exact ⟨hv', by rw [hd]; exact hbound, by rw [hd]; exact hreach⟩
  · have hvlt : e.dst < g.vertices := hwf.2 u hu e he
    have hw0 : 0 ≤ e.weight := hnw u hu e he
    have hwait : 0 ≤ getWaitingTime (g.lights e.dst) (st.dist.getD u 0 + e.weight) :=
      waiting_nonneg (hnl e.dst hvlt).2.1 (by have := (hbound u).1; omega)
    refine ⟨hv', ?_, ?_⟩
    · intro i
      rw [hd, getD_set_cases]
      split
      · constructor
        · have := (hbound u).1; omega
        · have := (hbound e.dst).2; omega
      · exact hbound i
    · intro i hi
      rw [hd, getD_set_cases]
      split
      · rename_i hcase
        intro _
        have hdu : st.dist.getD u 0 < INF := by
          have := (hbound e.dst).2; omega
        obtain ⟨es, hes⟩ := hreach u hu hdu
        refine ⟨es ++ [e], ?_⟩
        have hgoal := isWalkFrom_append g s es u e hes he
        rw [hcase.1] at hgoal
        exact hgoal
      · exact hreach i hi

theorem dijkstraInit_verts (n s : Nat) (hn : 0 < n) :
    ∀ x ∈ (dijkstraInit n s).arr, x.v < n := by
  unfold dijkstraInit
  dsimp only
  refine decreaseKey_verts _ _ _ (fun w => w < n) ?_ (by rw [default_node_v]; omega)
  intro x hx
  have hbase : ∀ y ∈ (mkHeap n).arr, HeapNode.v y < n := by
    intro y hy
    simp only [mkHeap, List.mem_map, List.mem_range] at hy
    obtain ⟨w, hw, rfl⟩ := hy
    exact hw
  rcases List.mem_or_eq_of_mem_set hx with hm | rfl
  · exact hbase x hm
  · rcases nodeAt_mem_or_default (mkHeap n).arr (posAt (mkHeap n).pos s).toNat with hm | hd
    · exact hbase (nodeAt (mkHeap n).arr (posAt (mkHeap n).pos s).toNat) hm
    · rw [hd]; exact hn

theorem reachInv_init (g : Graph) (s : Nat) (hs : s < g.vertices) :
    ReachInv g s ⟨dijkstraInit g.vertices s,
      (List.replicate g.vertices INF).set s 0, List.replicate g.vertices (-1)⟩ := by
  refine ⟨dijkstraInit_verts g.vertices s (by omega), ?_, ?_⟩
  · intro i
    dsimp only
    rw [getD_set_cases, List.length_replicate, getD_replicate']
    constructor
    · split
      · omega
      · split
        · simp [INF]
        · omega
    · split
      · simp [INF]
      · split
        · omega
        · simp [INF]
  · intro i hi hlt
    dsimp only at hlt
    rw [getD_set_cases, List.length_replicate, getD_replicate'] at hlt
    by_cases hsi : s = i
    · exact ⟨[], hsi⟩
    · exfalso
      rw [if_neg (by omega), if_pos hi] at hlt
      simp [INF] at hlt

/-- C6: for every well-formed graph (non-negative weights and phases) and
every in-range source/destination pair with no connecting edge sequence,
`dijkstra` reports the "no path" outcome (the destination's distance stays
at the `INF` sentinel, which is exactly what the reported branch tests)
rather than an error, and the Leaflet map export is still produced, with
an empty highlighted path. -/
theorem dijkstra_unreachable_noPath (g : Graph) (src dest : Int)
    (hwf : WellFormed g) (hnw : NonnegWeights g) (hnl : NonnegLights g)
    (hs0 : 0 ≤ src) (hsn : src < (g.vertices : Int))
    (hd0 : 0 ≤ dest) (hdn : dest < (g.vertices : Int))
    (hur : ∀ es, ¬ IsWalkFrom g src.toNat es dest.toNat) :
    dijkstra g src dest = .noPath (exportLeafletMap g []) ∧
      (exportLeafletMap g []).sp = [] := by
  constructor
  · unfold dijkstra
    dsimp only
    rw [if_neg (by omega)]
    obtain ⟨st', hP, hEq⟩ := dijkstraLoop_inv g dest.toNat (ReachInv g src.toNat)
      (fun st hlen hINF hdest hP => by
        have hroot : (nodeAt st.heap.arr 0).v < g.vertices :=
          hP.1 (nodeAt st.heap.arr 0) (getD_mem st.heap.arr 0 default (by omega))
        have hh1 : ∀ x ∈ (extractMin st.heap).2.arr, x.v < g.vertices :=
          extractMin_snd_verts st.heap (fun w => w < g.vertices) hP.1
            (by rw [default_node_v]; omega)
        refine relaxAll_inv g (nodeAt st.heap.arr 0).v (ReachInv g src.toNat) ?_ _
          ⟨hh1, hP.2.1, hP.2.2⟩
        intro st'' e he hP''
        exact relaxStep_reachInv g src.toNat (nodeAt st.heap.arr 0).v hwf hnw hnl
          hroot st'' e he hP'')
      _ (reachInv_init g src.toNat (by omega))
    rw [hEq]
    dsimp only
    have hnot : ¬ st'.dist.getD dest.toNat 0 < INF := by
      intro hlt
      obtain ⟨es, hes⟩ := hP.2.2 dest.toNat (by omega) hlt
      exact hur es hes
    have hle := (hP.2.1 dest.toNat).2
    rw [if_pos (by omega)]
  · rfl

theorem dijkstra_unreachable_noPath_witness :
    (dijkstra ⟨2, fun _ => [], fun _ => ⟨1, 1, 1⟩, fun _ => "A", fun _ => 0, fun _ => 0⟩
        0 1 = .noPath (exportLeafletMap
          ⟨2, fun _ => [], fun _ => ⟨1, 1, 1⟩, fun _ => "A", fun _ => 0, fun _ => 0⟩ [])) ∧
      (exportLeafletMap
        ⟨2, fun _ => [], fun _ => ⟨1, 1, 1⟩, fun _ => "A", fun _ => 0, fun _ => 0⟩ []).sp = [] :=
  dijkstra_unreachable_noPath
    ⟨2, fun _ => [], fun _ => ⟨1, 1, 1⟩, fun _ => "A", fun _ => 0, fun _ => 0⟩ 0 1
    (by unfold WellFormed
        refine ⟨by decide, ?_⟩
        intro u _ e he
        simp at he)
    (by unfold NonnegWeights
        intro u _ e he
        simp at he)
    (by unfold NonnegLights
        intro v _
        exact ⟨by norm_num, by norm_num, by norm_num⟩)
    (by decide) (by decide) (by decide) (by decide)
    (by intro es
        cases es with
        | nil => simp [IsWalkFrom]
        | cons e es => simp [IsWalkFrom])

/-- The invariant used for the `INF`-sentinel claim: distances stay
non-negative and the destination's distance never leaves the sentinel. -/
def SentinelInv (g : Graph) (t : Nat) (st : DState) : Prop :=
  (∀ x ∈ st.heap.arr, x.v < g.vertices) ∧
  (∀ i, 0 ≤ st.dist.getD i 0) ∧
  st.dist.getD t 0 = INF

theorem relaxStep_sentinelInv (g : Graph) (t u : Nat)
    (hwf : WellFormed g) (hnw : NonnegWeights g) (hnl : NonnegLights g)
    (hin : ∀ u' < g.vertices, ∀ e ∈ g.adj u', e.dst = t → INF ≤ e.weight)
    (hu : u < g.vertices)
    (st : DState) (e : Edge) (he : e ∈ g.adj u) (hP : SentinelInv g t st) :
    SentinelInv g t (relaxStep g u st e) := by
  obtain ⟨hverts, hbound, hdest⟩ := hP
  have hv' : ∀ x ∈ (relaxStep g u st e).heap.arr, x.v < g.vertices :=
    relaxStep_verts g u st e (fun w => w < g.vertices) hverts
      (by rw [default_node_v]
          have := hwf.2 u hu e he
          omega)
  rcases relaxStep_cases g u st e with ⟨hd, hp, hh⟩ | ⟨hpos, hupd, hd, hp⟩
  · exact ⟨hv', by rw [hd]; exact hbound, by rw [hd]; exact hdest⟩
  · have hvlt : e.dst < g.vertices := hwf.2 u hu e he
    have hw0 : 0 ≤ e.weight := hnw u hu e he
    have hwait : 0 ≤ getWaitingTime (g.lights e.dst) (st.dist.getD u 0 + e.weight) :=
      waiting_nonneg (hnl e.dst hvlt).2.1 (by have := hbound u; omega)
    have hdne : e.dst ≠ t := by
      intro hEq
      have hbig : INF ≤ e.weight := hin u hu e he hEq
      have hw2 : 0 ≤ getWaitingTime (g.lights t) (st.dist.getD u 0 + e.weight) := by
        rw [← hEq]; exact hwait
      rw [hEq, hdest] at hupd
      have := hbound u
      omega
    refine ⟨hv', ?_, ?_⟩
    · intro i
      rw [hd, getD_set_cases]
      split
      · have := hbound u; omega
      · exact hbound i
    · rw [hd, getD_set_cases, if_neg (fun hc => hdne hc.1)]
      exact hdest

/-- Sentinel cut-off: if every road into the destination costs at least
`INF`, every relaxation candidate for it is at least `INF` and `dijkstra`
takes the "no path" branch. -/
theorem dijkstra_sentinel_bound (g : Graph) (src dest : Int)
    (hwf : WellFormed g) (hnw : NonnegWeights g) (hnl : NonnegLights g)
    (hs0 : 0 ≤ src) (hsn : src < (g.vertices : Int))
    (hd0 : 0 ≤ dest) (hdn : dest < (g.vertices : Int)) (hne : src ≠ dest)
    (hin : ∀ u' < g.vertices, ∀ e ∈ g.adj u', e.dst = dest.toNat → INF ≤ e.weight) :
    dijkstra g src dest = .noPath (exportLeafletMap g []) := by
  unfold dijkstra
  dsimp only
  rw [if_neg (by omega)]
  have hinit : SentinelInv g dest.toNat
      ⟨dijkstraInit g.vertices src.toNat,
        (List.replicate g.vertices INF).set src.toNat 0,
        List.replicate g.vertices (-1)⟩ := by
    refine ⟨dijkstraInit_verts g.vertices src.toNat (by omega), ?_, ?_⟩
    · intro i
      dsimp only
      rw [getD_set_cases, List.length_replicate, getD_replicate']
      split
      · omega
      · split
        · simp [INF]
        · omega
    · dsimp only
      have hne2 : src.toNat ≠ dest.toNat := by omega
      rw [getD_set_cases, List.length_replicate, getD_replicate',
        if_neg (fun hc => hne2 hc.1), if_pos (by omega)]
  obtain ⟨st', hP, hEq⟩ := dijkstraLoop_inv g dest.toNat (SentinelInv g dest.toNat)
    (fun st hlen hINF hdest hP => by
      have hroot : (nodeAt st.heap.arr 0).v < g.vertices :=
        hP.1 (nodeAt st.heap.arr 0) (getD_mem st.heap.arr 0 default (by omega))
      have hh1 : ∀ x ∈ (extractMin st.heap).2.arr, x.v < g.vertices :=
        extractMin_snd_verts st.heap (fun w => w < g.vertices) hP.1
          (by rw [default_node_v]; omega)
      refine relaxAll_inv g (nodeAt st.heap.arr 0).v (SentinelInv g dest.toNat) ?_ _
        ⟨hh1, hP.2.1, hP.2.2⟩
      intro st'' e he hP''
      exact relaxStep_sentinelInv g dest.toNat (nodeAt st.heap.arr 0).v hwf hnw hnl hin
        hroot st'' e he hP'')
    _ hinit
  rw [hEq]
  dsimp only
  rw [if_pos hP.2.2]

/-- C8: "infinite" distance is the finite sentinel 999999.  If every road
into the destination costs at least `INF` (so every relaxation candidate
distance for it is at least `INF`), the destination is reported exactly
like a disconnected one — the "no path" outcome with the empty-path map
export — even though a connecting road exists. -/
theorem dijkstra_sentinel_noPath (g : Graph) (src dest : Int)
    (hwf : WellFormed g) (hnw : NonnegWeights g) (hnl : NonnegLights g)
    (hs0 : 0 ≤ src) (hsn : src < (g.vertices : Int))
    (hd0 : 0 ≤ dest) (hdn : dest < (g.vertices : Int)) (hne : src ≠ dest)
    (hin : ∀ u' < g.vertices, ∀ e ∈ g.adj u', e.dst = dest.toNat → INF ≤ e.weight) :
    dijkstra g src dest = .noPath (exportLeafletMap g []) :=
  dijkstra_sentinel_bound g src dest hwf hnw hnl hs0 hsn hd0 hdn hne hin

theorem dijkstra_sentinel_noPath_witness :
    IsWalkFrom
      ⟨2, fun u => if u = 0 then [⟨1, 999999⟩] else if u = 1 then [⟨0, 999999⟩] else [],
        fun _ => ⟨0, 1, 0⟩, fun _ => "A", fun _ => 0, fun _ => 0⟩ 0 [⟨1, 999999⟩] 1 ∧
    dijkstra
      ⟨2, fun u => if u = 0 then [⟨1, 999999⟩] else if u = 1 then [⟨0, 999999⟩] else [],
        fun _ => ⟨0, 1, 0⟩, fun _ => "A", fun _ => 0, fun _ => 0⟩ 0 1 =
      .noPath (exportLeafletMap
        ⟨2, fun u => if u = 0 then [⟨1, 999999⟩] else if u = 1 then [⟨0, 999999⟩] else [],
          fun _ => ⟨0, 1, 0⟩, fun _ => "A", fun _ => 0, fun _ => 0⟩ []) :=
  ⟨by decide,
    dijkstra_sentinel_noPath
      ⟨2, fun u => if u = 0 then [⟨1, 999999⟩] else if u = 1 then [⟨0, 999999⟩] else [],
        fun _ => ⟨0, 1, 0⟩, fun _ => "A", fun _ => 0, fun _ => 0⟩ 0 1
      (by unfold WellFormed; decide)
      (by unfold NonnegWeights; decide)
      (by unfold NonnegLights; decide)
      (by decide) (by decide) (by decide) (by decide) (by decide)
      (by decide)⟩

end ClaimsNoPath

section ClaimsWaiting

/-- C2: for every signal phase with non-negative durations and every
non-negative arrival time, `getWaitingTime` returns 0 when
`red + green + yellow ≤ 0`; otherwise, with `t = arrivalTime mod cycle`,
it returns 0 when `t < green` and `cycle - t` when `t ≥ green` (yellow and
red both force a wait; only `[0, green)` is non-blocking). -/
theorem getWaitingTime_piecewise (light : TrafficLight) (a : Int)
    (hr : 0 ≤ light.red) (hg : 0 ≤ light.green) (hy : 0 ≤ light.yellow)
    (ha : 0 ≤ a) :
    (light.red + light.green + light.yellow ≤ 0 → getWaitingTime light a = 0) ∧
    (0 < light.red + light.green + light.yellow →
      (a % (light.red + light.green + light.yellow) < light.green →
        getWaitingTime light a = 0) ∧
      (light.green ≤ a % (light.red + light.green + light.yellow) →
        getWaitingTime light a =
          (light.red + light.green + light.yellow) -
            a % (light.red + light.green + light.yellow))) := by
  have hcyc : cycleLen light = light.red + light.green + light.yellow := rfl
  refine ⟨fun h0 => ?_, fun hpos => ?_⟩
  · rw [getWaitingTime_def, if_pos (by omega)]
  · rw [getWaitingTime_eq_emod ha (by omega), hcyc]
    constructor
    · intro hlt; rw [if_pos hlt]
    · intro hge; rw [if_neg (by omega)]

theorem getWaitingTime_piecewise_witness :
    ((0:Int) ≤ 2 ∧ (0:Int) ≤ 3 ∧ (0:Int) ≤ 1 ∧ (0:Int) ≤ 7) ∧
      getWaitingTime ⟨2, 3, 1⟩ 7 = 0 ∧ getWaitingTime ⟨2, 3, 1⟩ 10 = 2 :=
  ⟨by decide,
    (((getWaitingTime_piecewise ⟨2, 3, 1⟩ 7 (by decide) (by decide) (by decide)
      (by decide)).2 (by decide)).1 (by decide)),
    (((getWaitingTime_piecewise ⟨2, 3, 1⟩ 10 (by decide) (by decide) (by decide)
      (by decide)).2 (by decide)).2 (by decide))⟩

/-- C5 fails as stated: with phase (red 1, green 0, yellow 0) and arrival
time 0 the cycle is 1 but the waiting time is 1, which is not strictly
below the cycle length. -/
theorem wait_below_cycle_counterexample :
    (0 ≤ (⟨1, 0, 0⟩ : TrafficLight).red ∧ 0 ≤ (⟨1, 0, 0⟩ : TrafficLight).green ∧
      0 ≤ (⟨1, 0, 0⟩ : TrafficLight).yellow ∧ (0:Int) ≤ 0 ∧
      1 ≤ cycleLen ⟨1, 0, 0⟩) ∧
    ¬ (0 ≤ getWaitingTime ⟨1, 0, 0⟩ 0 ∧
        getWaitingTime ⟨1, 0, 0⟩ 0 < cycleLen ⟨1, 0, 0⟩) := by
  decide

/-- C5 (amended): for non-negative durations with cycle at least 1 and
non-negative arrival time, the waiting time lies in the closed interval
`[0, cycle]`; it is strictly below the cycle whenever `green ≥ 1` (the
value `cycle` itself occurs only for `green = 0` at arrival times that are
multiples of the cycle). -/
theorem wait_in_closed_interval (light : TrafficLight) (a : Int)
    (hr : 0 ≤ light.red) (hg : 0 ≤ light.green) (hy : 0 ≤ light.yellow)
    (hc : 1 ≤ cycleLen light) (ha : 0 ≤ a) :
    0 ≤ getWaitingTime light a ∧ getWaitingTime light a ≤ cycleLen light ∧
      (0 < light.green → getWaitingTime light a < cycleLen light) := by
  refine ⟨waiting_nonneg hg ha, waiting_le_cycle hg ha (by omega), fun hgpos => ?_⟩
  rw [getWaitingTime_eq_emod ha (by omega)]
  have h0 : 0 ≤ a % cycleLen light := Int.emod_nonneg a (by omega)
  by_cases hlt : a % cycleLen light < light.green
  · rw [if_pos hlt]; omega
  · rw [if_neg hlt]; omega

theorem wait_in_closed_interval_witness :
    ((0:Int) ≤ 1 ∧ (1:Int) ≤ cycleLen ⟨1, 1, 1⟩ ∧ (0:Int) ≤ 5) ∧
      (0 ≤ getWaitingTime ⟨1, 1, 1⟩ 5 ∧ getWaitingTime ⟨1, 1, 1⟩ 5 ≤ cycleLen ⟨1, 1, 1⟩ ∧
        (0 < (⟨1, 1, 1⟩ : TrafficLight).green →
          getWaitingTime ⟨1, 1, 1⟩ 5 < cycleLen ⟨1, 1, 1⟩)) :=
  ⟨by decide,
    wait_in_closed_interval ⟨1, 1, 1⟩ 5 (by decide) (by decide) (by decide)
      (by decide) (by decide)⟩

/-- C9: for non-negative durations with positive cycle and non-negative
arrival time, the waiting time is at most the cycle, and it equals the
cycle exactly when `green = 0` and the arrival time is a multiple of the
cycle. -/
theorem wait_eq_cycle_iff (light : TrafficLight) (a : Int)
    (hr : 0 ≤ light.red) (hg : 0 ≤ light.green) (hy : 0 ≤ light.yellow)
    (hc : 0 < cycleLen light) (ha : 0 ≤ a) :
    getWaitingTime light a ≤ cycleLen light ∧
      (getWaitingTime light a = cycleLen light ↔
        light.green = 0 ∧ cycleLen light ∣ a) := by
  refine ⟨waiting_le_cycle hg ha hc, ?_⟩
  rw [getWaitingTime_eq_emod ha hc]
  have h0 : 0 ≤ a % cycleLen light := Int.emod_nonneg a (by omega)
  have hdvd : cycleLen light ∣ a ↔ a % cycleLen light = 0 := by
    constructor
    · exact fun h => Int.emod_eq_zero_of_dvd h
    · exact fun h => Int.dvd_of_emod_eq_zero h
  rw [hdvd]
  by_cases hlt : a % cycleLen light < light.green
  · rw [if_pos hlt]
    constructor
    · omega
    · rintro ⟨hg0, hm0⟩; omega
  · rw [if_neg hlt]
    constructor
    · intro h; constructor <;> omega
    · rintro ⟨hg0, hm0⟩; omega

theorem wait_eq_cycle_iff_witness :
    ((0:Int) ≤ 2 ∧ 0 < cycleLen ⟨2, 0, 0⟩ ∧ (0:Int) ≤ 4) ∧
      getWaitingTime ⟨2, 0, 0⟩ 4 ≤ cycleLen ⟨2, 0, 0⟩ ∧
      (getWaitingTime ⟨2, 0, 0⟩ 4 = cycleLen ⟨2, 0, 0⟩ ↔
        (⟨2, 0, 0⟩ : TrafficLight).green = 0 ∧ cycleLen ⟨2, 0, 0⟩ ∣ 4) :=
  ⟨by decide,
    wait_eq_cycle_iff ⟨2, 0, 0⟩ 4 (by decide) (by decide) (by decide)
      (by decide) (by decide)⟩

end ClaimsWaiting

section ClaimsAddEdge

/-- C7: for in-range distinct endpoints `addEdge` reports no error and
prepends exactly the entry `u → v` to `u`'s list and the entry `v → u` to
`v`'s list, both with weight `w`, leaving every other adjacency list and
all other graph fields unchanged; with an out-of-range endpoint it reports
the error and returns the graph unchanged. -/
theorem addEdge_inserts_both (g : Graph) (u v w : Int) :
    (0 ≤ u → u < (g.vertices : Int) → 0 ≤ v → v < (g.vertices : Int) → u ≠ v →
      (addEdge g u v w).2 = false ∧
      (addEdge g u v w).1.adj u.toNat = ⟨v.toNat, w⟩ :: g.adj u.toNat ∧
      (addEdge g u v w).1.adj v.toNat = ⟨u.toNat, w⟩ :: g.adj v.toNat ∧
      (∀ x, x ≠ u.toNat → x ≠ v.toNat → (addEdge g u v w).1.adj x = g.adj x) ∧
      (addEdge g u v w).1.vertices = g.vertices ∧
      (addEdge g u v w).1.lights = g.lights ∧
      (addEdge g u v w).1.names = g.names) ∧
    (¬ (0 ≤ u ∧ u < (g.vertices : Int) ∧ 0 ≤ v ∧ v < (g.vertices : Int)) →
      addEdge g u v w = (g, true)) := by
  constructor
  · intro hu0 hun hv0 hvn huv
    have hne : u.toNat ≠ v.toNat := by omega
    unfold addEdge insertBoth
    rw [if_neg (by omega)]
    refine ⟨rfl, ?_, ?_, ?_, rfl, rfl, rfl⟩
    · simp [Function.update_noteq hne, Function.update_same]
    · simp [Function.update_same, Function.update_noteq (Ne.symm hne)]
    · intro x hxu hxv
      simp [Function.update_noteq hxv, Function.update_noteq hxu]
  · intro hbad
    unfold addEdge
    rw [if_pos (by omega)]

theorem addEdge_inserts_both_witness :
    ((0:Int) ≤ 0 ∧ (0:Int) < 2 ∧ (0:Int) ≤ 1 ∧ (1:Int) < 2 ∧ (0:Int) ≠ 1) ∧
      (addEdge ⟨2, fun _ => [], fun _ => ⟨0,0,0⟩, fun _ => "A", fun _ => 0, fun _ => 0⟩
          0 1 5).2 = false ∧
      (addEdge ⟨2, fun _ => [], fun _ => ⟨0,0,0⟩, fun _ => "A", fun _ => 0, fun _ => 0⟩
          0 1 5).1.adj 0 = [⟨1, 5⟩] :=
  ⟨by decide,
    ((addEdge_inserts_both
      ⟨2, fun _ => [], fun _ => ⟨0,0,0⟩, fun _ => "A", fun _ => 0, fun _ => 0⟩
      0 1 5).1 (by decide) (by decide) (by decide) (by decide) (by decide)).1,
    ((addEdge_inserts_both
      ⟨2, fun _ => [], fun _ => ⟨0,0,0⟩, fun _ => "A", fun _ => 0, fun _ => 0⟩
      0 1 5).1 (by decide) (by decide) (by decide) (by decide) (by decide)).2.1⟩

/-- C10: `addEdge` does not reject self-loops; for an in-range `u` it
succeeds and prepends two `u → u` entries of weight `w` to `u`'s adjacency
list, other lists unchanged. -/
theorem addEdge_self_loop (g : Graph) (u w : Int)
    (hu0 : 0 ≤ u) (hun : u < (g.vertices : Int)) :
    (addEdge g u u w).2 = false ∧
    (addEdge g u u w).1.adj u.toNat = ⟨u.toNat, w⟩ :: ⟨u.toNat, w⟩ :: g.adj u.toNat ∧
    (∀ x, x ≠ u.toNat → (addEdge g u u w).1.adj x = g.adj x) := by
  unfold addEdge insertBoth
  rw [if_neg (by omega)]
  refine ⟨rfl, ?_, ?_⟩
  · simp [Function.update_same]
  · intro x hx
    simp [Function.update_noteq hx]

theorem addEdge_self_loop_witness :
    ((0:Int) ≤ 1 ∧ (1:Int) < 2) ∧
      (addEdge ⟨2, fun _ => [], fun _ => ⟨0,0,0⟩, fun _ => "A", fun _ => 0, fun _ => 0⟩
          1 1 7).2 = false ∧
      (addEdge ⟨2, fun _ => [], fun _ => ⟨0,0,0⟩, fun _ => "A", fun _ => 0, fun _ => 0⟩
          1 1 7).1.adj 1 = [⟨1, 7⟩, ⟨1, 7⟩] := by
  have h := addEdge_self_loop
    ⟨2, fun _ => [], fun _ => ⟨0,0,0⟩, fun _ => "A", fun _ => 0, fun _ => 0⟩
    1 7 (by decide) (by decide)
  exact ⟨by decide, h.1, h.2.1⟩

end ClaimsAddEdge

section ClaimsRoundTrip

/-- C4 fails as stated: a one-junction graph with a self-loop (exactly
what `addEdge g 0 0 5` builds) has a valid short whitespace-free name,
yet saving and re-loading drops the loop — `saveGraphToFile` only writes
adjacency entries with `u < p->to`, and a self-loop has `u = p->to`. -/
theorem roundtrip_counterexample :
    (("A".toList.all fun c => !c.isWhitespace) = true ∧ "A".take 19 = "A" ∧ "A" ≠ "") ∧
    undirEdges (loadGraphFromFile
        ⟨1, fun u => if u = 0 then [⟨0, 5⟩, ⟨0, 5⟩] else [],
          fun _ => ⟨1, 1, 1⟩, fun _ => "A", fun _ => 0, fun _ => 0⟩
        (saveGraphToFile
          ⟨1, fun u => if u = 0 then [⟨0, 5⟩, ⟨0, 5⟩] else [],
            fun _ => ⟨1, 1, 1⟩, fun _ => "A", fun _ => 0, fun _ => 0⟩)) ≠
      undirEdges
        ⟨1, fun u => if u = 0 then [⟨0, 5⟩, ⟨0, 5⟩] else [],
          fun _ => ⟨1, 1, 1⟩, fun _ => "A", fun _ => 0, fun _ => 0⟩ := by
  decide

/-- Coercing a `flatMap` over an initial segment to a multiset gives the
sum of the coerced pieces. -/
theorem coe_flatMap_range {α : Type} (f : Nat → List α) (n : Nat) :
    (((List.range n).flatMap f : List α) : Multiset α) =
      ∑ u ∈ Finset.range n, ((f u : List α) : Multiset α) := by
  induction n with
  | zero => rfl
  | succ n ih =>
    rw [List.range_succ, List.flatMap_append, Finset.sum_range_succ, ← ih]
    simp

/-- `insertBoth` changes only the adjacency function. -/
theorem insertBoth_fields (g : Graph) (un vn : Nat) (w : Int) :
    (insertBoth g un vn w).vertices = g.vertices ∧
    (insertBoth g un vn w).lights = g.lights ∧
    (insertBoth g un vn w).names = g.names ∧
    (insertBoth g un vn w).lat = g.lat ∧
    (insertBoth g un vn w).lon = g.lon :=
  ⟨rfl, rfl, rfl, rfl, rfl⟩

/-- Inserting one road `u < v` (both in range) adds exactly one
representative to the undirected edge multiset. -/
theorem undirEdges_insertBoth (g : Graph) (u v : Nat) (w : Int)
    (hu : u < g.vertices) (hv : v < g.vertices) (huv : u < v) :
    undirEdges (insertBoth g u v w) = ((u, v), w) ::ₘ undirEdges g := by
  classical
  have hne : u ≠ v := by omega
  set F : Nat → Multiset ((Nat × Nat) × Int) := fun x =>
    ((((insertBoth g u v w).adj x).filterMap fun e =>
      if x ≤ e.dst then some ((x, e.dst), e.weight) else none :
        List ((Nat × Nat) × Int)) : Multiset ((Nat × Nat) × Int)) with hF
  set G : Nat → Multiset ((Nat × Nat) × Int) := fun x =>
    (((g.adj x).filterMap fun e =>
      if x ≤ e.dst then some ((x, e.dst), e.weight) else none :
        List ((Nat × Nat) × Int)) : Multiset ((Nat × Nat) × Int)) with hG
  have hgoal : undirEdges (insertBoth g u v w) = ∑ x ∈ Finset.range g.vertices, F x := rfl
  have hgoal2 : undirEdges g = ∑ x ∈ Finset.range g.vertices, G x := rfl
  rw [hgoal, hgoal2]
  have humem : u ∈ Finset.range g.vertices := Finset.mem_range.mpr hu
  have hadj_u : (insertBoth g u v w).adj u = ⟨v, w⟩ :: g.adj u := by
    unfold insertBoth
    simp [Function.update_noteq hne, Function.update_same]
  have hFu : F u = ((u, v), w) ::ₘ G u := by
    rw [hF, hG]
    dsimp only
    rw [hadj_u, List.filterMap_cons]
    rw [if_pos (show u ≤ (⟨v, w⟩ : Edge).dst by show u ≤ v; omega)]
    rw [← Multiset.cons_coe]
  have hFG : ∀ x ∈ (Finset.range g.vertices).erase u, F x = G x := by
    intro x hx
    have hxu : x ≠ u := (Finset.mem_erase.mp hx).1
    rw [hF, hG]
    dsimp only
    by_cases hxv : x = v
    · have hxadj : (insertBoth g u v w).adj x = ⟨u, w⟩ :: g.adj x := by
        rw [hxv]
        unfold insertBoth
        simp [Function.update_same, Function.update_noteq (Ne.symm hne)]
      rw [hxadj, List.filterMap_cons]
      rw [if_neg (show ¬ x ≤ (⟨u, w⟩ : Edge).dst by show ¬ x ≤ u; omega)]
    · have hxadj : (insertBoth g u v w).adj x = g.adj x := by
        unfold insertBoth
        simp [Function.update_noteq hxv, Function.update_noteq hxu]
      rw [hxadj]
  calc ∑ x ∈ Finset.range g.vertices, F x
      = F u + ∑ x ∈ (Finset.range g.vertices).erase u, F x :=
        (Finset.add_sum_erase _ F humem).symm
    _ = F u + ∑ x ∈ (Finset.range g.vertices).erase u, G x := by
        rw [Finset.sum_congr rfl hFG]
    _ = (((u, v), w) ::ₘ G u) + ∑ x ∈ (Finset.range g.vertices).erase u, G x := by
        rw [hFu]
    _ = ((u, v), w) ::ₘ (G u + ∑ x ∈ (Finset.range g.vertices).erase u, G x) :=
        Multiset.cons_add _ _ _
    _ = ((u, v), w) ::ₘ ∑ x ∈ Finset.range g.vertices, G x := by
        rw [Finset.add_sum_erase _ G humem]

/-- `loadEdges` changes only the adjacency function. -/
theorem loadEdges_fields (c : Nat) :
    ∀ (g : Graph) (toks : List Tok),
    (loadEdges g c toks).vertices = g.vertices ∧
    (loadEdges g c toks).lights = g.lights ∧
    (loadEdges g c toks).names = g.names ∧
    (loadEdges g c toks).lat = g.lat ∧
    (loadEdges g c toks).lon = g.lon := by
  induction c with
  | zero => exact fun g toks => ⟨rfl, rfl, rfl, rfl, rfl⟩
  | succ c ih =>
    intro g toks
    match toks with
    | [] => exact ⟨rfl, rfl, rfl, rfl, rfl⟩
    | .int u :: .int v :: .int w :: rest => exact ih (insertBoth g u.toNat v.toNat w) rest
    | .int u :: .int v :: .str s3 :: rest => exact ⟨rfl, rfl, rfl, rfl, rfl⟩
    | .int u :: .int v :: .num q3 :: rest => exact ⟨rfl, rfl, rfl, rfl, rfl⟩
    | .int u :: .int v :: [] => exact ⟨rfl, rfl, rfl, rfl, rfl⟩
    | .int u :: .str s2 :: rest => exact ⟨rfl, rfl, rfl, rfl, rfl⟩
    | .int u :: .num q2 :: rest => exact ⟨rfl, rfl, rfl, rfl, rfl⟩
    | .int u :: [] => exact ⟨rfl, rfl, rfl, rfl, rfl⟩
    | .str s1 :: rest => exact ⟨rfl, rfl, rfl, rfl, rfl⟩
    | .num q1 :: rest => exact ⟨rfl, rfl, rfl, rfl, rfl⟩

/-- Reading back the saved edge lines reproduces them in the undirected
edge multiset. -/
theorem loadEdges_spec (ts : List (Nat × Nat × Int)) :
    ∀ h : Graph, (∀ t ∈ ts, t.1 < h.vertices ∧ t.2.1 < h.vertices ∧ t.1 < t.2.1) →
    undirEdges (loadEdges h ts.length (ts.flatMap etoks)) =
      ((ts.map fun t => ((t.1, t.2.1), t.2.2) : List _) : Multiset _) + undirEdges h := by
  induction ts with
  | nil =>
    intro h _
    show undirEdges h = _
    simp
  | cons t ts ih =>
    intro h hmem
    obtain ⟨h1, h2, h3⟩ := hmem t (List.mem_cons_self t ts)
    show undirEdges (loadEdges (insertBoth h t.1 t.2.1 t.2.2)
      ts.length (ts.flatMap etoks)) = _
    rw [ih (insertBoth h t.1 t.2.1 t.2.2)
      (fun t' ht' => by
        have hverts : (insertBoth h t.1 t.2.1 t.2.2).vertices = h.vertices := rfl
        rw [hverts]
        exact hmem t' (List.mem_cons_of_mem t ht'))]
    rw [undirEdges_insertBoth h t.1 t.2.1 t.2.2 h1 h2 h3]
    rw [List.map_cons, ← Multiset.cons_coe, Multiset.cons_add, Multiset.add_cons]

/-- Every triple collected by the save loop is in range with `u < v`. -/
theorem edgeTriples_mem (g : Graph) (hwf : WellFormed g) :
    ∀ t ∈ edgeTriples g, t.1 < g.vertices ∧ t.2.1 < g.vertices ∧ t.1 < t.2.1 := by
  intro t ht
  simp only [edgeTriples, List.mem_flatMap, List.mem_filterMap, List.mem_range] at ht
  obtain ⟨u, hu, e, he, hopt⟩ := ht
  split at hopt
  · rename_i hlt
    cases hopt
    exact ⟨hu, hwf.2 u hu e he, hlt⟩
  · cases hopt

/-- Without self-loops the saved `u < v` representatives are exactly the
undirected edge multiset. -/
theorem edgeTriples_multiset (g : Graph)
    (hnoloop : ∀ u < g.vertices, ∀ e ∈ g.adj u, e.dst ≠ u) :
    (((edgeTriples g).map fun t => ((t.1, t.2.1), t.2.2) : List _) : Multiset _) =
      undirEdges g := by
  unfold edgeTriples undirEdges
  rw [List.map_flatMap, coe_flatMap_range]
  refine Finset.sum_congr rfl ?_
  intro u hu
  rw [List.map_filterMap]
  congr 1
  refine List.filterMap_congr ?_
  intro e he
  by_cases hlt : u < e.dst
  · rw [if_pos hlt, if_pos (by omega)]
    rfl
  · have hne : e.dst ≠ u := hnoloop u (Finset.mem_range.mp hu) e he
    rw [if_neg hlt, if_neg (by omega)]
    rfl

/-- One successful six-token junction read. -/
theorem loadJunctions_step (h : Graph) (i cnt : Nat) (nm : String) (r gr y : Int)
    (la lo : ℚ) (rest : List Tok) :
    loadJunctions h i (cnt+1)
        (.str nm :: .int r :: .int gr :: .int y :: .num la :: .num lo :: rest) =
      loadJunctions
        { h with names := Function.update h.names i (nm.take 19)
               , lights := Function.update h.lights i ⟨r, gr, y⟩
               , lat := Function.update h.lat i la
               , lon := Function.update h.lon i lo } (i+1) cnt rest := rfl

/-- Reading back `cnt` saved junction lines stores the saved fields and
consumes exactly those tokens. -/
theorem loadJunctions_spec (g : Graph) (cnt : Nat) :
    ∀ (i : Nat) (h : Graph) (rest : List Tok),
    (∀ j, i ≤ j → j < i + cnt → (g.names j).take 19 = g.names j) →
    ∃ h', loadJunctions h i cnt (((List.range' i cnt).flatMap (jtoks g)) ++ rest) = (h', rest) ∧
      h'.vertices = h.vertices ∧ h'.adj = h.adj ∧
      (∀ j, i ≤ j → j < i + cnt →
        h'.names j = g.names j ∧ h'.lights j = g.lights j ∧
        h'.lat j = round6 (g.lat j) ∧ h'.lon j = round6 (g.lon j)) ∧
      (∀ j, j < i ∨ i + cnt ≤ j →
        h'.names j = h.names j ∧ h'.lights j = h.lights j ∧
        h'.lat j = h.lat j ∧ h'.lon j = h.lon j) := by
  induction cnt with
  | zero =>
    intro i h rest _
    exact ⟨h, rfl, rfl, rfl, fun j h1 h2 => absurd h2 (by omega),
      fun j _ => ⟨rfl, rfl, rfl, rfl⟩⟩
  | succ cnt ih =>
    intro i h rest hname
    rw [List.range'_succ, List.flatMap_cons, List.append_assoc]
    have hjt : jtoks g i = [Tok.str (g.names i), Tok.int (g.lights i).red,
        Tok.int (g.lights i).green, Tok.int (g.lights i).yellow,
        Tok.num (round6 (g.lat i)), Tok.num (round6 (g.lon i))] := rfl
    rw [hjt]
    simp only [List.cons_append, List.nil_append]
    rw [loadJunctions_step]
    set h2 : Graph :=
      { h with names := Function.update h.names i ((g.names i).take 19)
             , lights := Function.update h.lights i
                 ⟨(g.lights i).red, (g.lights i).green, (g.lights i).yellow⟩
             , lat := Function.update h.lat i (round6 (g.lat i))
             , lon := Function.update h.lon i (round6 (g.lon i)) } with hh2
    obtain ⟨h', hEq, hv, ha, hfin, hout⟩ :=
      ih (i+1) h2 rest (fun j hj1 hj2 => hname j (by omega) (by omega))
    refine ⟨h', hEq, ?_, ?_, ?_, ?_⟩
    · rw [hv]
    · rw [ha]
    · intro j hj1 hj2
      by_cases hji : j = i
      · subst hji
        have h2n : h2.names j = g.names j := by
          rw [hh2]
          show Function.update h.names j ((g.names j).take 19) j = g.names j
          rw [Function.update_same, hname j (by omega) (by omega)]
        have h2l : h2.lights j = g.lights j := by
          rw [hh2]
          show Function.update h.lights j
            ⟨(g.lights j).red, (g.lights j).green, (g.lights j).yellow⟩ j = g.lights j
          rw [Function.update_same]
        have h2la : h2.lat j = round6 (g.lat j) := by
          rw [hh2]
          show Function.update h.lat j (round6 (g.lat j)) j = round6 (g.lat j)
          rw [Function.update_same]
        have h2lo : h2.lon j = round6 (g.lon j) := by
          rw [hh2]
          show Function.update h.lon j (round6 (g.lon j)) j = round6 (g.lon j)
          rw [Function.update_same]
        obtain ⟨o1, o2, o3, o4⟩ := hout j (by omega)
        exact ⟨o1.trans h2n, o2.trans h2l, o3.trans h2la, o4.trans h2lo⟩
      · exact hfin j (by omega) (by omega)
    · intro j hj
      have hji : j ≠ i := by omega
      obtain ⟨o1, o2, o3, o4⟩ := hout j (by omega)
      refine ⟨o1.trans ?_, o2.trans ?_, o3.trans ?_, o4.trans ?_⟩ <;>
        · rw [hh2]
          exact Function.update_noteq hji _ _

/-- A graph with empty adjacency lists has no undirected edges. -/
theorem undirEdges_empty_adj (g : Graph) (hadj : ∀ u, g.adj u = []) :
    undirEdges g = 0 := by
  unfold undirEdges
  refine Finset.sum_eq_zero ?_
  intro u _
  rw [hadj u]
  rfl

/-- C4 (amended): for a well-formed graph whose junction names survive the
`%19s` truncation (at most 19 characters, whitespace-free, non-empty — the
token model presumes whitespace-free non-empty names), whose coordinates
are exactly representable at the six decimals `%.6f` writes, and which has
NO SELF-LOOPS, saving and re-loading reproduces the vertex count, every
junction's name, phase and coordinates, and the multiset of undirected
edges (order-independent); a self-loop would be dropped, as it is written
by no `u < p->to` adjacency entry. -/
theorem saveLoad_roundtrip (g g0 : Graph)
    (hwf : WellFormed g)
    (hnames : ∀ i < g.vertices, (g.names i).take 19 = g.names i)
    (hlat : ∀ i < g.vertices, round6 (g.lat i) = g.lat i)
    (hlon : ∀ i < g.vertices, round6 (g.lon i) = g.lon i)
    (hnoloop : ∀ u < g.vertices, ∀ e ∈ g.adj u, e.dst ≠ u) :
    (loadGraphFromFile g0 (saveGraphToFile g)).vertices = g.vertices ∧
    (∀ i < g.vertices,
      (loadGraphFromFile g0 (saveGraphToFile g)).names i = g.names i ∧
      (loadGraphFromFile g0 (saveGraphToFile g)).lights i = g.lights i ∧
      (loadGraphFromFile g0 (saveGraphToFile g)).lat i = g.lat i ∧
      (loadGraphFromFile g0 (saveGraphToFile g)).lon i = g.lon i) ∧
    undirEdges (loadGraphFromFile g0 (saveGraphToFile g)) = undirEdges g := by
  obtain ⟨h', hEq, hv, ha, hfin, hout⟩ :=
    loadJunctions_spec g g.vertices 0
      { initGraph g0 with vertices := g.vertices }
      (Tok.int (edgeTriples g).length :: ((edgeTriples g).flatMap etoks))
      (fun j _ hj => hnames j (by omega))
  have hv' : h'.vertices = g.vertices := hv
  have hload : loadGraphFromFile g0 (saveGraphToFile g) =
      loadEdges h' (edgeTriples g).length ((edgeTriples g).flatMap etoks) := by
    show loadGraphFromFile g0
      (Tok.int (g.vertices : Int) ::
        (((List.range g.vertices).flatMap (jtoks g)) ++
          Tok.int ((edgeTriples g).length : Int) :: ((edgeTriples g).flatMap etoks))) = _
    unfold loadGraphFromFile
    dsimp only
    rw [List.range_eq_range']
    simp only [Int.toNat_natCast]
    rw [hEq]
    rfl
  constructor
  · rw [hload, (loadEdges_fields (edgeTriples g).length h' _).1, hv']
  constructor
  · intro i hi
    obtain ⟨f1, f2, f3, f4⟩ := hfin i (by omega) (by omega)
    obtain ⟨_, e2, e3, e4, e5⟩ := loadEdges_fields (edgeTriples g).length h'
      ((edgeTriples g).flatMap etoks)
    rw [hload, e2, e3, e4, e5, f1, f2, f3, f4, hlat i hi, hlon i hi]
    exact ⟨rfl, rfl, rfl, rfl⟩
  · rw [hload, loadEdges_spec (edgeTriples g) h'
      (fun t ht => by rw [hv']; exact edgeTriples_mem g hwf t ht)]
    have hempty : undirEdges h' = 0 := by
      refine undirEdges_empty_adj h' ?_
      intro u
      rw [ha]
      rfl
    rw [hempty, add_zero, edgeTriples_multiset g hnoloop]

theorem saveLoad_roundtrip_witness :
    ((loadGraphFromFile
        ⟨0, fun _ => [], fun _ => ⟨0,0,0⟩, fun _ => "", fun _ => 0, fun _ => 0⟩
        (saveGraphToFile
          ⟨2, fun u => if u = 0 then [⟨1, 4⟩] else if u = 1 then [⟨0, 4⟩] else [],
            fun _ => ⟨2, 3, 1⟩, fun i => if i = 0 then "A" else "B",
            fun _ => 0, fun _ => 0⟩)).vertices = 2) ∧
    undirEdges (loadGraphFromFile
        ⟨0, fun _ => [], fun _ => ⟨0,0,0⟩, fun _ => "", fun _ => 0, fun _ => 0⟩
        (saveGraphToFile
          ⟨2, fun u => if u = 0 then [⟨1, 4⟩] else if u = 1 then [⟨0, 4⟩] else [],
            fun _ => ⟨2, 3, 1⟩, fun i => if i = 0 then "A" else "B",
            fun _ => 0, fun _ => 0⟩)) =
      undirEdges
        ⟨2, fun u => if u = 0 then [⟨1, 4⟩] else if u = 1 then [⟨0, 4⟩] else [],
          fun _ => ⟨2, 3, 1⟩, fun i => if i = 0 then "A" else "B",
          fun _ => 0, fun _ => 0⟩ := by
  have h := saveLoad_roundtrip
    ⟨2, fun u => if u = 0 then [⟨1, 4⟩] else if u = 1 then [⟨0, 4⟩] else [],
      fun _ => ⟨2, 3, 1⟩, fun i => if i = 0 then "A" else "B",
      fun _ => 0, fun _ => 0⟩
    ⟨0, fun _ => [], fun _ => ⟨0,0,0⟩, fun _ => "", fun _ => 0, fun _ => 0⟩
    (by unfold WellFormed
        refine ⟨by decide, ?_⟩
        decide)
    (by intro i hi
        by_cases hi0 : i = 0
        · subst hi0; decide
        · have : (if i = 0 then "A" else "B") = "B" := if_neg hi0
          show ((if i = 0 then "A" else "B").take 19) = (if i = 0 then "A" else "B")
          rw [this]
          decide)
    (by intro i _
        show round6 0 = 0
        unfold round6
        simp)
    (by intro i _
        show round6 0 = 0
        unfold round6
        simp)
    (by decide)
  exact ⟨h.1, h.2.2⟩

end ClaimsRoundTrip

section ClaimsHeap

/-- C3: starting from the heap built with one entry per junction, after
any valid sequence of `decreaseKey` / `extractMin` calls the position
index is consistent — `pos[v]` names the array slot currently holding
`v`, and `pos[v] = -1` exactly when `v` was returned by an earlier
`extractMin` — and on a nonempty heap `extractMin` returns an entry of
minimum stored distance among the present vertices, marks its vertex
absent, and leaves every other vertex's presence unchanged. -/
theorem heap_ops_invariant (n : Nat) (ops : List HeapOp)
    (hval : ValidOps (mkHeap n) ops) :
    (∀ v, v < n → ∀ i, i < (applyOps (mkHeap n) ops).arr.length →
      (nodeAt (applyOps (mkHeap n) ops).arr i).v = v →
      posAt (applyOps (mkHeap n) ops).pos v = Int.ofNat i) ∧
    (∀ v, v < n →
      (posAt (applyOps (mkHeap n) ops).pos v = -1 ↔
        v ∈ extractedAfter (mkHeap n) ops)) ∧
    ((applyOps (mkHeap n) ops).arr.length ≠ 0 →
      (extractMin (applyOps (mkHeap n) ops)).1 =
          some (nodeAt (applyOps (mkHeap n) ops).arr 0) ∧
      (∀ w, w < n → posAt (applyOps (mkHeap n) ops).pos w ≠ -1 →
        (nodeAt (applyOps (mkHeap n) ops).arr 0).dist ≤
          lookDist (applyOps (mkHeap n) ops).arr (applyOps (mkHeap n) ops).pos w) ∧
      posAt (extractMin (applyOps (mkHeap n) ops)).2.pos
          (nodeAt (applyOps (mkHeap n) ops).arr 0).v = -1 ∧
      (∀ w, w < n → w ≠ (nodeAt (applyOps (mkHeap n) ops).arr 0).v →
        (posAt (extractMin (applyOps (mkHeap n) ops)).2.pos w ≠ -1 ↔
          posAt (applyOps (mkHeap n) ops).pos w ≠ -1))) := by
  have hinit : ∀ v, v < n →
      (posAt (mkHeap n).pos v = -1 ↔ v ∈ ([] : List Nat)) := by
    intro v hv
    rw [mkHeap_posAt, if_pos hv]
    constructor
    · intro hcc
      exfalso
      have hcc' : ((v : ℕ) : ℤ) = -1 := hcc
      omega
    · intro hcc
      simp at hcc
  obtain ⟨hc, hord, hiff⟩ := applyOps_inv n ops (mkHeap n) []
    (mkHeap_consistent n) (mkHeap_ordered n) hinit hval
  refine ⟨?_, ?_, ?_⟩
  · intro v hv i hi hvi
    rw [← hvi]
    exact hc.posOf i hi
  · intro v hv
    exact hiff v hv
  · intro hne
    obtain ⟨e1, e2, e3, e4, e5, e6, e7⟩ :=
      extractMin_spec n (applyOps (mkHeap n) ops) hc hord hne
    refine ⟨e1, ?_, ?_, ?_⟩
    · intro w hw hwp
      exact e2 ⟨w, lookDist (applyOps (mkHeap n) ops).arr
        (applyOps (mkHeap n) ops).pos w⟩ (present_node hc w hw hwp)
    · have h6 := e6 ((nodeAt (applyOps (mkHeap n) ops).arr 0).v)
        (hc.vLt 0 (Nat.pos_of_ne_zero hne))
      by_contra hcc
      exact ((h6.mp hcc).2) rfl
    · intro w hw hwr
      rw [e6 w hw]
      exact ⟨fun hh => hh.1, fun hh => ⟨hh, hwr⟩⟩

theorem heap_ops_invariant_witness :
    ValidOps (mkHeap 3) [HeapOp.dec 1 5] ∧
    (∀ v, v < 3 →
      (posAt (applyOps (mkHeap 3) [HeapOp.dec 1 5]).pos v = -1 ↔
        v ∈ extractedAfter (mkHeap 3) [HeapOp.dec 1 5])) :=
  ⟨by decide, (heap_ops_invariant 3 [HeapOp.dec 1 5] (by decide)).2.1⟩

end ClaimsHeap

section ClaimsMinPath

/-- C1 fails as stated: in a two-junction graph joined by a single road of
weight 1000000 (with trivial signals), the route 0 → 1 is a simple path of
finite accumulated cost 1000000, yet `dijkstra` reports no distance at
all — the candidate distance reaches the sentinel `INF = 999999` and the
"No path" branch is taken, so the reported result does not equal the
minimum over simple paths. -/
theorem dijkstra_min_counterexample :
    IsSimplePath
      ⟨2, fun u => if u = 0 then [⟨1, 1000000⟩] else if u = 1 then [⟨0, 1000000⟩] else [],
        fun _ => ⟨0, 1, 0⟩, fun _ => "A", fun _ => 0, fun _ => 0⟩ 0 [⟨1, 1000000⟩] 1 ∧
    walkTime
      ⟨2, fun u => if u = 0 then [⟨1, 1000000⟩] else if u = 1 then [⟨0, 1000000⟩] else [],
        fun _ => ⟨0, 1, 0⟩, fun _ => "A", fun _ => 0, fun _ => 0⟩ [⟨1, 1000000⟩] = 1000000 ∧
    dijkstra
      ⟨2, fun u => if u = 0 then [⟨1, 1000000⟩] else if u = 1 then [⟨0, 1000000⟩] else [],
        fun _ => ⟨0, 1, 0⟩, fun _ => "A", fun _ => 0, fun _ => 0⟩ 0 1 =
      .noPath (exportLeafletMap
        ⟨2, fun u => if u = 0 then [⟨1, 1000000⟩] else if u = 1 then [⟨0, 1000000⟩] else [],
          fun _ => ⟨0, 1, 0⟩, fun _ => "A", fun _ => 0, fun _ => 0⟩ []) :=
  ⟨by decide, by decide,
    dijkstra_sentinel_bound
      ⟨2, fun u => if u = 0 then [⟨1, 1000000⟩] else if u = 1 then [⟨0, 1000000⟩] else [],
        fun _ => ⟨0, 1, 0⟩, fun _ => "A", fun _ => 0, fun _ => 0⟩ 0 1
      (by unfold WellFormed; decide)
      (by unfold NonnegWeights; decide)
      (by unfold NonnegLights; decide)
      (by decide) (by decide) (by decide) (by decide) (by decide)
      (by decide)⟩

/-- C1, amended: for every well-formed graph with non-negative weights and
signal phases and every in-range source/destination pair, provided some
route from source to destination accumulates a cost below the sentinel
`INF = 999999`, `dijkstra` reports a found distance equal to the minimum
over all simple source-to-destination paths of the edge-by-edge
accumulated cost (base weights plus the waiting time at each entered
junction, evaluated at the arrival time of that specific path). -/
theorem dijkstra_min_simple_path (g : Graph) (src dest : Int)
    (hwf : WellFormed g) (hnw : NonnegWeights g) (hnl : NonnegLights g)
    (hs0 : 0 ≤ src) (hsn : src < (g.vertices : Int))
    (hd0 : 0 ≤ dest) (hdn : dest < (g.vertices : Int))
    (es0 : List Edge) (hes0 : IsWalkFrom g src.toNat es0 dest.toNat)
    (hcost0 : walkTime g es0 < INF) :
    ∃ d p, dijkstra g src dest = .found d p (exportLeafletMap g p) ∧
      (∀ es, IsSimplePath g src.toNat es dest.toNat → d ≤ walkTime g es) ∧
      (∃ es, IsSimplePath g src.toNat es dest.toNat ∧ walkTime g es = d) := by
  have hs : src.toNat < g.vertices := by omega
  have ht : dest.toNat < g.vertices := by omega
  unfold dijkstra
  dsimp only
  rw [if_neg (by omega)]
  obtain ⟨st', hP, hEq, hexit⟩ := dijkstraLoop_inv_exit g dest.toNat
    (DijkInv g src.toNat dest.toNat)
    (fun st hlen hINF hne hP =>
      dijkInv_step g hwf hnw hnl src.toNat dest.toNat hs ht st hlen hINF hne hP)
    _ (dijkInv_init g src.toNat dest.toNat hs ht)
  rw [hEq]
  dsimp only
  rcases hexit with hempty | ⟨hne0, hrootINF⟩ | ⟨hne0, hrootNE, hrootdest⟩
  · exfalso
    have hpres := hP.hdest
    rw [present_iff hP.hc dest.toNat ht] at hpres
    obtain ⟨x, hx, _⟩ := hpres
    have hnil : st'.heap.arr = [] := List.eq_nil_of_length_eq_zero hempty
    rw [hnil] at hx
    exact absurd hx (List.not_mem_nil x)
  · exfalso
    have hmin' : ∀ w, w < g.vertices → posAt st'.heap.pos w ≠ -1 →
        INF ≤ st'.dist.getD w 0 := by
      intro w hw hwp
      have hnm := present_node hP.hc w hw hwp
      have h1 : (nodeAt st'.heap.arr 0).dist ≤
          (⟨w, lookDist st'.heap.arr st'.heap.pos w⟩ : HeapNode).dist := by
        obtain ⟨i, hi, hxi⟩ := List.getElem_of_mem hnm
        have hro := heapOrdered_root_le hP.hord i hi
        rw [nodeAt_eq_getElem _ i hi, hxi] at hro
        exact hro
      rw [hrootINF] at h1
      calc INF ≤ lookDist st'.heap.arr st'.heap.pos w := h1
        _ = st'.dist.getD w 0 := hP.hsync w hw hwp
    have hlb := walk_lower_bound g hwf hnw hnl src.toNat hs st'.dist
      (fun w => posAt st'.heap.pos w = -1) INF hP.hsrc
      (fun i hi => (hP.hbounds i hi).1)
      (fun x hx hCx es hes => hP.hopt x hx hCx es hes)
      (fun v hv hCv x hx hCx e he hdst => hP.hrelaxed v hv hCv x hx hCx e he hdst)
      (fun w hw hwp => hmin' w hw hwp)
      dest.toNat ht hP.hdest es0 hes0
    omega
  · have h0lt : 0 < st'.heap.arr.length := Nat.pos_of_ne_zero hne0
    have hdistt : st'.dist.getD dest.toNat 0 = (nodeAt st'.heap.arr 0).dist := by
      have hpos0 := hP.hc.posOf 0 h0lt
      rw [hrootdest] at hpos0
      have hlook : lookDist st'.heap.arr st'.heap.pos dest.toNat =
          (nodeAt st'.heap.arr 0).dist := by
        rw [lookDist, hpos0]
        rfl
      rw [← hlook]
      exact (hP.hsync dest.toNat ht hP.hdest).symm
    have hfinite : st'.dist.getD dest.toNat 0 < INF := by
      have h2 := (hP.hbounds dest.toNat ht).2
      rw [hdistt] at h2 ⊢
      omega
    rw [if_neg (by omega)]
    refine ⟨st'.dist.getD dest.toNat 0,
      pathTo st'.parent MAX (Int.ofNat dest.toNat) [], rfl, ?_, ?_⟩
    all_goals {
      have hmin' : ∀ w, w < g.vertices → posAt st'.heap.pos w ≠ -1 →
          st'.dist.getD dest.toNat 0 ≤ st'.dist.getD w 0 := by
        intro w hw hwp
        have hnm := present_node hP.hc w hw hwp
        have h1 : (nodeAt st'.heap.arr 0).dist ≤
            (⟨w, lookDist st'.heap.arr st'.heap.pos w⟩ : HeapNode).dist := by
          obtain ⟨i, hi, hxi⟩ := List.getElem_of_mem hnm
          have hro := heapOrdered_root_le hP.hord i hi
          rw [nodeAt_eq_getElem _ i hi, hxi] at hro
          exact hro
        rw [hdistt]
        calc (nodeAt st'.heap.arr 0).dist
            ≤ lookDist st'.heap.arr st'.heap.pos w := h1
          _ = st'.dist.getD w 0 := hP.hsync w hw hwp
      have hwalks : ∀ es, IsWalkFrom g src.toNat es dest.toNat →
          st'.dist.getD dest.toNat 0 ≤ walkTime g es :=
        walk_lower_bound g hwf hnw hnl src.toNat hs st'.dist
          (fun w => posAt st'.heap.pos w = -1) (st'.dist.getD dest.toNat 0) hP.hsrc
          (fun i hi => (hP.hbounds i hi).1)
          (fun x hx hCx es hes => hP.hopt x hx hCx es hes)
          (fun v hv hCv x hx hCx e he hdst => hP.hrelaxed v hv hCv x hx hCx e he hdst)
          (fun w hw hwp => hmin' w hw hwp)
          dest.toNat ht hP.hdest
      first
      | exact fun es hes => hwalks es hes.1
      | {
          obtain ⟨esw, hesw, heswT⟩ := hP.hsound dest.toNat ht hfinite
          obtain ⟨es', hw', hnd', hle', _⟩ :=
            walk_to_simple g hwf hnw hnl esw.length esw src.toNat dest.toNat 0
              (le_refl _) hs (le_refl 0) hesw
          refine ⟨es', ⟨hw', hnd'⟩, ?_⟩
          have h1 : walkTime g es' ≤ st'.dist.getD dest.toNat 0 := by
            rw [← heswT]
            exact hle'
          have h2 := hwalks es' hw'
          omega
        }
    }

theorem dijkstra_min_simple_path_witness :
    (IsWalkFrom
        ⟨2, fun u => if u = 0 then [⟨1, 4⟩] else if u = 1 then [⟨0, 4⟩] else [],
          fun _ => ⟨0, 1, 0⟩, fun _ => "A", fun _ => 0, fun _ => 0⟩ 0 [⟨1, 4⟩] 1 ∧
      walkTime
        ⟨2, fun u => if u = 0 then [⟨1, 4⟩] else if u = 1 then [⟨0, 4⟩] else [],
          fun _ => ⟨0, 1, 0⟩, fun _ => "A", fun _ => 0, fun _ => 0⟩ [⟨1, 4⟩] < INF) ∧
    (∃ d p, dijkstra
        ⟨2, fun u => if u = 0 then [⟨1, 4⟩] else if u = 1 then [⟨0, 4⟩] else [],
          fun _ => ⟨0, 1, 0⟩, fun _ => "A", fun _ => 0, fun _ => 0⟩ 0 1 =
        .found d p (exportLeafletMap
          ⟨2, fun u => if u = 0 then [⟨1, 4⟩] else if u = 1 then [⟨0, 4⟩] else [],
            fun _ => ⟨0, 1, 0⟩, fun _ => "A", fun _ => 0, fun _ => 0⟩ p) ∧
      (∀ es, IsSimplePath
          ⟨2, fun u => if u = 0 then [⟨1, 4⟩] else if u = 1 then [⟨0, 4⟩] else [],
            fun _ => ⟨0, 1, 0⟩, fun _ => "A", fun _ => 0, fun _ => 0⟩ 0 es 1 →
        d ≤ walkTime
          ⟨2, fun u => if u = 0 then [⟨1, 4⟩] else if u = 1 then [⟨0, 4⟩] else [],
            fun _ => ⟨0, 1, 0⟩, fun _ => "A", fun _ => 0, fun _ => 0⟩ es) ∧
      (∃ es, IsSimplePath
          ⟨2, fun u => if u = 0 then [⟨1, 4⟩] else if u = 1 then [⟨0, 4⟩] else [],
            fun _ => ⟨0, 1, 0⟩, fun _ => "A", fun _ => 0, fun _ => 0⟩ 0 es 1 ∧
        walkTime
          ⟨2, fun u => if u = 0 then [⟨1, 4⟩] else if u = 1 then [⟨0, 4⟩] else [],
            fun _ => ⟨0, 1, 0⟩, fun _ => "A", fun _ => 0, fun _ => 0⟩ es = d)) :=
  ⟨⟨by decide, by decide⟩,
    dijkstra_min_simple_path
      ⟨2, fun u => if u = 0 then [⟨1, 4⟩] else if u = 1 then [⟨0, 4⟩] else [],
        fun _ => ⟨0, 1, 0⟩, fun _ => "A", fun _ => 0, fun _ => 0⟩ 0 1
      (by unfold WellFormed; decide)
      (by unfold NonnegWeights; decide)
      (by unfold NonnegLights; decide)
      (by decide) (by decide) (by decide) (by decide)
      [⟨1, 4⟩] (by decide) (by decide)⟩

end ClaimsMinPath

end Traffic
